import Mathlib

/-!
# rsmt2d codecs: dispatch, engine cache and share conversion

A shallow embedding of `codecs.go`.  The erasure engine
(`github.com/vivint/infectious`) is an external library: it is a parameter
`lib : Infectious F` of every operation, where `F` is the type of engine
instances.  The process-wide `infectiousCache` is threaded explicitly, and
every run records the library calls it made.
-/

set_option autoImplicit false

namespace Rsmt2d

/-! ## Data model -/

/-- One byte. -/
abbrev Byte := Fin 256

/-- Go `[]byte`; `none` is the nil slice. -/
abbrev Chunk := Option (List Byte)

/-- Go `len` on a `[]byte`: the nil slice has length 0. -/
def Chunk.len : Chunk → Nat
  | none => 0
  | some b => b.length

/-- Go `type Codec int`. -/
abbrev Codec := Int

/-- The constant `RSGF8 Codec = iota`, the first of its block. -/
def RSGF8 : Codec := 0

/-- The table `CodecsMaxChunksMap`, as the list of its entries. -/
def CodecsMaxChunksMap : List (Codec × Int) := [(RSGF8, 128 * 128)]

/-- The keys of a Go map given as a list of entries. -/
def mapKeys {α β : Type} (m : List (α × β)) : List α := m.map Prod.fst

/-- The library type `infectious.Share`: a position and its data. -/
structure Share where
  Number : Int
  Data : List Byte
  deriving DecidableEq, Repr

/-- The three entry points of the engine library used by `codecs.go`.
`Encode` and `Rebuild` report the shares they hand to the callback, in the
order of the calls, and then their error. -/
structure Infectious (F : Type) where
  NewFEC : Nat → Nat → Except String F
  Encode : F → List Byte → List Share × Option String
  Rebuild : F → List Share → List Share × Option String

/-- The variable `infectiousCache map[int]*infectious.FEC`, as a list of entries. -/
abbrev Cache (F : Type) := List (Nat × F)

/-- The function `init`: `infectiousCache = make(map[int]*infectious.FEC)`. -/
def init (F : Type) : Cache F := []

/-- Map read `value, ok := m[key]`. -/
def cacheGet {F : Type} (c : Cache F) (key : Nat) : Option F := c.lookup key

/-- Map write `m[key] = value`: the entry of `key` is replaced or added. -/
def cacheSet {F : Type} (c : Cache F) (key : Nat) (value : F) : Cache F :=
  (key, value) :: c.filter (fun e => e.1 != key)

/-- A call into the engine library. -/
inductive Call (F : Type) where
  | newFEC (k n : Nat)
  | encode (fec : F) (input : List Byte)
  | rebuild (fec : F) (shares : List Share)
  deriving DecidableEq, Repr

/-- What a Go function of type `([][]byte, error)` returns: the slice
(`none` is nil) and the error (`none` is nil). -/
abbrev Ret := Option (List Chunk) × Option String

/-- One run of `encode` or `decode`: the returned pair, or `none` when the
run stops in a runtime error (index out of range); the cache after the run;
and the library calls made, in order. -/
structure Run (F : Type) where
  outcome : Option Ret
  cache : Cache F
  calls : List (Call F)

/-- Modelled from the spec: the helper `flattenChunks` of this package is not in
`codecs.go`; it lays the chunks one after the other in a contiguous buffer. -/
def flattenChunks (data : List Chunk) : List Byte :=
  (data.map (fun c => c.getD [])).flatten

/-- Go `copy(dst, src)`: the first `min (len dst) (len src)` bytes are overwritten. -/
def copyBytes (dst src : List Byte) : List Byte :=
  src.take dst.length ++ dst.drop src.length

/-- Go `xs[i] = v`; `none` when the index is out of range. -/
def setAt {α : Type} (xs : List α) (i : Int) (v : α) : Option (List α) :=
  if 0 ≤ i ∧ i < xs.length then some (xs.set i.toNat v) else none

/-- Run a callback over the shares the engine emits; stops at the first runtime error. -/
def feed {σ : Type} (f : σ → Share → Option σ) : σ → List Share → Option σ
  | st, [] => some st
  | st, s :: rest =>
    match f st s with
    | none => none
    | some st1 => feed f st1 rest

/-! ## encode -/

/-- The closure `output` of `encodeRSGF8`, as a function of the slice `shares`. -/
def encodeOutput (data : List Chunk) (shares : List Chunk) (s : Share) : Option (List Chunk) :=
  if (data.length : Int) ≤ s.Number then
    match data with
    | [] => none
    | d0 :: _ =>
      let shareData := copyBytes (List.replicate d0.len 0) s.Data
      setAt shares (s.Number - data.length) (some shareData)
  else some shares

/-- Lines 53-65 of `encodeRSGF8`: the part after the engine is resolved. -/
def encodeWith {F : Type} (lib : Infectious F) (fec : F) (cache : Cache F)
    (calls : List (Call F)) (data : List Chunk) : Run F :=
  let shares : List Chunk := List.replicate data.length none
  let flattened := flattenChunks data
  let r := lib.Encode fec flattened
  match feed (encodeOutput data) shares r.1 with
  | none => ⟨none, cache, calls ++ [Call.encode fec flattened]⟩
  | some shares1 => ⟨some (some shares1, r.2), cache, calls ++ [Call.encode fec flattened]⟩

/-- The function `encodeRSGF8`. -/
def encodeRSGF8 {F : Type} (lib : Infectious F) (cache : Cache F) (data : List Chunk) : Run F :=
  match cacheGet cache data.length with
  | some value => encodeWith lib value cache [] data
  | none =>
    match lib.NewFEC data.length (data.length * 2) with
    | Except.error err => ⟨some (none, some err), cache, [Call.newFEC data.length (data.length * 2)]⟩
    | Except.ok fec =>
      encodeWith lib fec (cacheSet cache data.length fec)
        [Call.newFEC data.length (data.length * 2)] data

/-- The function `encode`. -/
def encode {F : Type} (lib : Infectious F) (cache : Cache F) (data : List Chunk)
    (codec : Codec) : Run F :=
  if codec = RSGF8 then encodeRSGF8 lib cache data
  else ⟨some (none, some "invalid codec"), cache, []⟩

/-! ## decode -/

/-- The data of the library method `Share.DeepCopy`, which is
`append([]byte(nil), s.Data...)`: the copy of an empty share is the nil slice. -/
def Share.deepCopyData (s : Share) : Chunk :=
  match s.Data with
  | [] => none
  | b :: rest => some (b :: rest)

/-- The closure `rebuiltSharesOutput` of `decodeRSGF8`. -/
def decodeOutput (rebuiltShares : List Chunk) (s : Share) : Option (List Chunk) :=
  setAt rebuiltShares s.Number s.deepCopyData

/-- The loop of lines 97-102: `j` is the index of the head of `data`. -/
def presentFrom : Nat → List Chunk → List Share → List Share
  | _, [], shares => shares
  | j, none :: rest, shares => presentFrom (j + 1) rest shares
  | j, some d :: rest, shares => presentFrom (j + 1) rest (shares ++ [⟨(j : Int), d⟩])

/-- The share list built by lines 97-102. -/
def presentShares (data : List Chunk) : List Share := presentFrom 0 data []

/-- Lines 92-106 of `decodeRSGF8`: the part after the engine is resolved. -/
def decodeWith {F : Type} (lib : Infectious F) (fec : F) (cache : Cache F)
    (calls : List (Call F)) (data : List Chunk) : Run F :=
  let rebuiltShares : List Chunk := List.replicate (data.length / 2) none
  let shares := presentShares data
  let r := lib.Rebuild fec shares
  match feed decodeOutput rebuiltShares r.1 with
  | none => ⟨none, cache, calls ++ [Call.rebuild fec shares]⟩
  | some rebuilt1 => ⟨some (some rebuilt1, r.2), cache, calls ++ [Call.rebuild fec shares]⟩

/-- The function `decodeRSGF8`. -/
def decodeRSGF8 {F : Type} (lib : Infectious F) (cache : Cache F) (data : List Chunk) : Run F :=
  match cacheGet cache (data.length / 2) with
  | some value => decodeWith lib value cache [] data
  | none =>
    match lib.NewFEC (data.length / 2) data.length with
    | Except.error err => ⟨some (none, some err), cache, [Call.newFEC (data.length / 2) data.length]⟩
    | Except.ok fec =>
      decodeWith lib fec (cacheSet cache (data.length / 2) fec)
        [Call.newFEC (data.length / 2) data.length] data

/-- The function `decode`. -/
def decode {F : Type} (lib : Infectious F) (cache : Cache F) (data : List Chunk)
    (codec : Codec) : Run F :=
  if codec = RSGF8 then decodeRSGF8 lib cache data
  else ⟨some (none, some "invalid codec"), cache, []⟩

/-! ## Reachable cache states -/

/-- One call of `encode` or `decode`, on any input and codec, takes the cache `c` to `c1`. -/
inductive Step {F : Type} (lib : Infectious F) : Cache F → Cache F → Prop where
  | enc (c : Cache F) (data : List Chunk) (codec : Codec) :
      Step lib c (encode lib c data codec).cache
  | dec (c : Cache F) (data : List Chunk) (codec : Codec) :
      Step lib c (decode lib c data codec).cache

/-- Any finite sequence of calls takes the cache `c` to `c1`. -/
inductive Reach {F : Type} (lib : Infectious F) : Cache F → Cache F → Prop where
  | refl (c : Cache F) : Reach lib c c
  | tail (c c1 c2 : Cache F) : Reach lib c c1 → Step lib c1 c2 → Reach lib c c2

/-- As `Step`, with every `decode` input of even length. -/
inductive StepEven {F : Type} (lib : Infectious F) : Cache F → Cache F → Prop where
  | enc (c : Cache F) (data : List Chunk) (codec : Codec) :
      StepEven lib c (encode lib c data codec).cache
  | dec (c : Cache F) (data : List Chunk) (codec : Codec) : data.length % 2 = 0 →
      StepEven lib c (decode lib c data codec).cache

/-- As `Reach`, with every `decode` input of even length. -/
inductive ReachEven {F : Type} (lib : Infectious F) : Cache F → Cache F → Prop where
  | refl (c : Cache F) : ReachEven lib c c
  | tail (c c1 c2 : Cache F) : ReachEven lib c c1 → StepEven lib c1 c2 → ReachEven lib c c2

/-! ## Shares and erasures -/

/-- The shares of a sequence of chunks, numbered from `j`. -/
def sharesFrom : Nat → List (List Byte) → List Share
  | _, [] => []
  | j, d :: rest => ⟨(j : Int), d⟩ :: sharesFrom (j + 1) rest

/-- Replace by the absence marker every position whose mask bit is `false`. -/
def eraseMask : List Bool → List Chunk → List Chunk
  | keep :: mask, x :: xs => (if keep then x else none) :: eraseMask mask xs
  | _, _ => []

/-- The number of positions that hold a chunk. -/
def presentCount (data : List Chunk) : Nat := (data.filter Option.isSome).length

/-! ## A reference engine

A Reed-Solomon code over GF(2^8) in evaluation form, used to run the
operations on concrete inputs.  Its constructor accepts `1 <= k <= n <= 256`. -/

/-- An engine instance of the reference engine: its two parameters. -/
structure RefFEC where
  k : Nat
  n : Nat
  deriving DecidableEq, Repr

/-- Multiplication by `x` in GF(2^8), modulo `x^8 + x^4 + x^3 + x^2 + 1`. -/
def gfXtime (a : Nat) : Nat := if 128 ≤ a then (a * 2) ^^^ 0x11d else a * 2

/-- Shift-and-add multiplication in GF(2^8), `f` bits of `b` left to process. -/
def gfMulAux : Nat → Nat → Nat → Nat → Nat
  | 0, _, _, acc => acc
  | f + 1, a, b, acc => gfMulAux f (gfXtime a) (b / 2) (if b % 2 = 1 then acc ^^^ a else acc)

/-- Multiplication in GF(2^8). -/
def gfMul (a b : Nat) : Nat := gfMulAux 8 a b 0

/-- The inverse in GF(2^8), as the power 254. -/
def gfInv (a : Nat) : Nat :=
  let a2 := gfMul a a
  let a4 := gfMul a2 a2
  let a8 := gfMul a4 a4
  let a16 := gfMul a8 a8
  let a32 := gfMul a16 a16
  let a64 := gfMul a32 a32
  let a128 := gfMul a64 a64
  gfMul a2 (gfMul a4 (gfMul a8 (gfMul a16 (gfMul a32 (gfMul a64 a128)))))

/-- The Lagrange basis polynomial of the node `xi` among `xs`, at `x`. -/
def lagrangeBasis (xs : List Nat) (xi x : Nat) : Nat :=
  xs.foldl (fun acc xj =>
    if xj = xi then acc else gfMul acc (gfMul (x ^^^ xj) (gfInv (xi ^^^ xj)))) 1

/-- The value at `x` of the polynomial through the points `pts`. -/
def lagrangeAt (pts : List (Nat × Nat)) (x : Nat) : Nat :=
  pts.foldl (fun acc p => acc ^^^ gfMul p.2 (lagrangeBasis (pts.map Prod.fst) p.1 x)) 0

/-- The share at position `x` determined by `shares`, byte by byte. -/
def interpolate (shares : List Share) (size : Nat) (x : Nat) : List Byte :=
  (List.range size).map (fun b =>
    Fin.ofNat (lagrangeAt (shares.map (fun s => (s.Number.toNat, (s.Data.getD b 0).val))) x))

/-- The constructor of the reference engine. -/
def refNewFEC (k n : Nat) : Except String RefFEC :=
  if 1 ≤ k ∧ k ≤ n ∧ n ≤ 256 then Except.ok ⟨k, n⟩
  else Except.error "requires 1 <= k <= n <= 256"

/-- The shares of the `k` blocks of `input`, each of `size` bytes. -/
def refOriginals (k size : Nat) (input : List Byte) : List Share :=
  (List.range k).map (fun (i : Nat) => ⟨Int.ofNat i, (input.drop (i * size)).take size⟩)

/-- Encoding: the `k` blocks of the input, then `n - k` parity shares. -/
def refEncode (fec : RefFEC) (input : List Byte) : List Share × Option String :=
  if input.length % fec.k ≠ 0 then ([], some "input length must be a multiple of k")
  else
    let size := input.length / fec.k
    let originals := refOriginals fec.k size input
    let parity := (List.range (fec.n - fec.k)).map (fun (i : Nat) =>
      (⟨Int.ofNat (fec.k + i), interpolate originals size (fec.k + i)⟩ : Share))
    (originals ++ parity, none)

/-- Rebuilding from the first `k` shares: the originals among them are
emitted as they are, then the missing originals are computed. -/
def refRebuild (fec : RefFEC) (shares : List Share) : List Share × Option String :=
  if shares.length < fec.k then ([], some "not enough shares")
  else
    let used := shares.take fec.k
    if used.any (fun s => decide (s.Number < 0 ∨ (fec.n : Int) ≤ s.Number)) then
      ([], some "invalid share id")
    else
      let size := match used with
        | [] => 0
        | s :: _ => s.Data.length
      let found := used.filter (fun s => decide (s.Number < (fec.k : Int)))
      let missing := (List.range fec.k).filter (fun (i : Nat) =>
        !(used.any (fun s => decide (s.Number = Int.ofNat i))))
      (found ++ missing.map (fun (i : Nat) => (⟨Int.ofNat i, interpolate used size i⟩ : Share)), none)

/-- The reference engine. -/
def refLib : Infectious RefFEC := ⟨refNewFEC, refEncode, refRebuild⟩

/-! ## The share list, as the specification words it -/

/-- The pairs (position, chunk) of the present positions of `data`, in ascending
order of position. -/
def presentPairsSpec (data : List Chunk) : List Share :=
  data.enum.filterMap (fun p => p.2.map (fun d => (⟨Int.ofNat p.1, d⟩ : Share)))

/-! ## Assumptions on the cache and on the engine -/

/-- Every entry under a key `n` is the engine the constructor returns for `(n, 2n)`. -/
def CacheConfigured {F : Type} (lib : Infectious F) (cache : Cache F) : Prop :=
  ∀ key fec, cacheGet cache key = some fec → lib.NewFEC key (2 * key) = Except.ok fec

/-- The positions an engine emits: an engine constructed for `k` originals out of a
total of `n` emits only the positions `0..n-1` from `Encode` and only the positions
`0..k-1` from `Rebuild`; for an engine constructed for `(n, 2n)` these are the
positions `0..2n-1` and `0..n-1`. -/
def EmitsInRange {F : Type} (lib : Infectious F) : Prop :=
  ∀ k n fec, lib.NewFEC k n = Except.ok fec →
    (∀ input, ∀ s ∈ (lib.Encode fec input).1, 0 ≤ s.Number ∧ s.Number < (n : Int)) ∧
    (∀ shares, ∀ s ∈ (lib.Rebuild fec shares).1, 0 ≤ s.Number ∧ s.Number < (k : Int))

/-- The rebuild operation of an engine constructed for `k` originals rejects a list
of fewer than `k` shares, and emits nothing before it does. -/
def RejectsTooFew {F : Type} (lib : Infectious F) : Prop :=
  ∀ k n fec, lib.NewFEC k n = Except.ok fec → ∀ shares : List Share, shares.length < k →
    ∃ e, lib.Rebuild fec shares = ([], some e)

/-- Every entry of the cache is an engine constructed for its key as original count. -/
def CacheBuiltForKey {F : Type} (lib : Infectious F) (cache : Cache F) : Prop :=
  ∀ key fec, cacheGet cache key = some fec → ∃ n, lib.NewFEC key n = Except.ok fec

/-- The shares kept by a mask. -/
def keepShares : List Bool → List Share → List Share
  | keep :: mask, s :: rest => if keep then s :: keepShares mask rest else keepShares mask rest
  | _, _ => []

/-- The rebuild operation of `fec` recovers `chunks` from `shares`: it returns no
error, every share it emits is an original chunk at its position, and every original
position is emitted. -/
def RebuildRecovers {F : Type} (lib : Infectious F) (fec : F) (chunks : List (List Byte))
    (shares : List Share) : Prop :=
  (lib.Rebuild fec shares).2 = none ∧
  (∀ s ∈ (lib.Rebuild fec shares).1,
    0 ≤ s.Number ∧ chunks[s.Number.toNat]? = some s.Data) ∧
  (∀ i : Nat, i < chunks.length → ∃ s ∈ (lib.Rebuild fec shares).1, s.Number = (i : Int))

/-- The encode operation of `fec` is systematic on `chunks` with parity `parity`: it
returns no error and emits the chunks at the positions `0..k-1`, then the `k` parity
shares, of the size `L` of the chunks, at the positions `k..2k-1`. -/
def EncodesTo {F : Type} (lib : Infectious F) (fec : F) (chunks parity : List (List Byte))
    (L : Nat) : Prop :=
  parity.length = chunks.length ∧ (∀ p ∈ parity, p.length = L) ∧
  lib.Encode fec chunks.flatten = (sharesFrom 0 (chunks ++ parity), none)

/-- The engine `fec` is an erasure code on `chunks`: it encodes them to `parity`, and
rebuilds them from the shares that any mask with at least `k` kept positions leaves. -/
def ErasureCodeOn {F : Type} (lib : Infectious F) (fec : F) (chunks parity : List (List Byte))
    (L : Nat) : Prop :=
  EncodesTo lib fec chunks parity L ∧
  ∀ mask : List Bool, mask.length = 2 * chunks.length → chunks.length ≤ mask.count true →
    RebuildRecovers lib fec chunks (keepShares mask (sharesFrom 0 (chunks ++ parity)))

/-- The engine `fec` encodes `chunks` to `parity` and rebuilds them from all `2k` shares. -/
def RoundTripOn {F : Type} (lib : Infectious F) (fec : F) (chunks parity : List (List Byte))
    (L : Nat) : Prop :=
  EncodesTo lib fec chunks parity L ∧
  RebuildRecovers lib fec chunks (sharesFrom 0 (chunks ++ parity))

/-- The rebuild operation emits shares of the size of the shares it is given: every
emitted share has the length of one of the input shares. -/
def EmitsInputSize {F : Type} (lib : Infectious F) : Prop :=
  ∀ (fec : F) (shares : List Share), ∀ s ∈ (lib.Rebuild fec shares).1,
    ∃ t ∈ shares, s.Data.length = t.Data.length

/-! ## The field of the bytes

The byte operations of the reference engine form a field; the definitions below
name its carrier and what it means for a map to represent it. -/

/-- The powers of the generator 2: entry i is the i-th iterate of gfXtime on 1. -/
def gfExpTable : List Nat :=
  [1, 2, 4, 8, 16, 32, 64, 128, 29, 58, 116, 232, 205, 135, 19, 38, 76, 152, 45, 90, 180, 117,
   234, 201, 143, 3, 6, 12, 24, 48, 96, 192, 157, 39, 78, 156, 37, 74, 148, 53, 106, 212, 181,
   119, 238, 193, 159, 35, 70, 140, 5, 10, 20, 40, 80, 160, 93, 186, 105, 210, 185, 111, 222,
   161, 95, 190, 97, 194, 153, 47, 94, 188, 101, 202, 137, 15, 30, 60, 120, 240, 253, 231, 211,
   187, 107, 214, 177, 127, 254, 225, 223, 163, 91, 182, 113, 226, 217, 175, 67, 134, 17, 34,
   68, 136, 13, 26, 52, 104, 208, 189, 103, 206, 129, 31, 62, 124, 248, 237, 199, 147, 59, 118,
   236, 197, 151, 51, 102, 204, 133, 23, 46, 92, 184, 109, 218, 169, 79, 158, 33, 66, 132, 21,
   42, 84, 168, 77, 154, 41, 82, 164, 85, 170, 73, 146, 57, 114, 228, 213, 183, 115, 230, 209,
   191, 99, 198, 145, 63, 126, 252, 229, 215, 179, 123, 246, 241, 255, 227, 219, 171, 75, 150,
   49, 98, 196, 149, 55, 110, 220, 165, 87, 174, 65, 130, 25, 50, 100, 200, 141, 7, 14, 28, 56,
   112, 224, 221, 167, 83, 166, 81, 162, 89, 178, 121, 242, 249, 239, 195, 155, 43, 86, 172, 69,
   138, 9, 18, 36, 72, 144, 61, 122, 244, 245, 247, 243, 251, 235, 203, 139, 11, 22, 44, 88,
   176, 125, 250, 233, 207, 131, 27, 54, 108, 216, 173, 71, 142]

/-- The bytes as a type of their own, carrier of the field GF(2^8). -/
structure GF256 where
  val : Nat
  isLt : val < 256

/-- The byte of a number. -/
def GF256.ofNat (n : Nat) : GF256 := ⟨n % 256, Nat.mod_lt _ (by decide)⟩

/-- Addition in GF(2^8): exclusive or. -/
def GF256.add (a b : GF256) : GF256 := GF256.ofNat (a.val ^^^ b.val)

/-- Multiplication in GF(2^8). -/
def GF256.mul (a b : GF256) : GF256 := GF256.ofNat (gfMul a.val b.val)

/-- Inverse in GF(2^8). -/
def GF256.inv (a : GF256) : GF256 := GF256.ofNat (gfInv a.val)

/-- The map `φ` takes the numbers below 256 to a field `K` and the byte operations
to the field operations. -/
def IsByteField (K : Type) [Field K] (φ : Nat → K) : Prop :=
  φ 0 = 0 ∧ φ 1 = 1 ∧
  (∀ a b, a < 256 → b < 256 → φ (a ^^^ b) = φ a + φ b) ∧
  (∀ a b, a < 256 → b < 256 → φ (gfMul a b) = φ a * φ b) ∧
  (∀ a, a < 256 → φ (gfInv a) = (φ a)⁻¹) ∧
  (∀ a b, a < 256 → b < 256 → φ a = φ b → a = b)

/-- The parity chunks the reference engine computes for `chunks` of size `L`. -/
def refParity (chunks : List (List Byte)) (L : Nat) : List (List Byte) :=
  (List.range chunks.length).map (fun (i : Nat) =>
    interpolate (sharesFrom 0 chunks) L (chunks.length + i))

/-! ## Theorems -/

set_option maxRecDepth 100000

/-! ### The byte operations form a field -/


theorem xor_mul_two (a b : Nat) : (a ^^^ b) * 2 = a * 2 ^^^ b * 2 := by
  have h : ∀ x : Nat, x * 2 = x <<< 1 := fun x => by simp [Nat.shiftLeft_eq]
  rw [h, h, h]
  apply Nat.eq_of_testBit_eq
  intro i
  simp [Nat.testBit_shiftLeft, Nat.testBit_xor]
  cases decide (1 ≤ i) <;> simp

theorem xor_ge_128 (a b : Nat) (ha : a < 256) (hb : b < 256) :
    (128 ≤ a ^^^ b) ↔ ¬ ((128 ≤ a) ↔ (128 ≤ b)) := by
  have h7 : ∀ x : Nat, x / 128 = x / 2 / 2 / 2 / 2 / 2 / 2 / 2 := fun x => by omega
  have hx : (a ^^^ b) / 128 = a / 128 ^^^ b / 128 := by
    rw [h7, h7 a, h7 b]
    simp only [Nat.xor_div_two]
  have hlt : a ^^^ b < 256 := Nat.xor_lt_two_pow (n := 8) ha hb
  have ha1 : a / 128 = 0 ∨ a / 128 = 1 := by omega
  have hb1 : b / 128 = 0 ∨ b / 128 = 1 := by omega
  rcases ha1 with ha1 | ha1 <;> rcases hb1 with hb1 | hb1 <;> rw [ha1, hb1] at hx <;>
    simp at hx <;> omega

theorem gfXtime_xor (a b : Nat) (ha : a < 256) (hb : b < 256) :
    gfXtime (a ^^^ b) = gfXtime a ^^^ gfXtime b := by
  have hx := xor_ge_128 a b ha hb
  unfold gfXtime
  by_cases h1 : 128 ≤ a <;> by_cases h2 : 128 ≤ b
  · have h3 : ¬ 128 ≤ a ^^^ b := by rw [hx]; simp [h1, h2]
    rw [if_pos h1, if_pos h2, if_neg h3, xor_mul_two]
    apply Nat.eq_of_testBit_eq
    intro i
    simp only [Nat.testBit_xor]
    cases (a * 2).testBit i <;> cases (b * 2).testBit i <;> cases (0x11d).testBit i <;> rfl
  · have h3 : 128 ≤ a ^^^ b := by rw [hx]; simp [h1, h2]
    rw [if_pos h1, if_neg h2, if_pos h3, xor_mul_two]
    apply Nat.eq_of_testBit_eq
    intro i
    simp only [Nat.testBit_xor]
    cases (a * 2).testBit i <;> cases (b * 2).testBit i <;> cases (0x11d).testBit i <;> rfl
  · have h3 : 128 ≤ a ^^^ b := by rw [hx]; simp [h1, h2]
    rw [if_neg h1, if_pos h2, if_pos h3, xor_mul_two]
    apply Nat.eq_of_testBit_eq
    intro i
    simp only [Nat.testBit_xor]
    cases (a * 2).testBit i <;> cases (b * 2).testBit i <;> cases (0x11d).testBit i <;> rfl
  · have h3 : ¬ 128 ≤ a ^^^ b := by rw [hx]; simp [h1, h2]
    rw [if_neg h1, if_neg h2, if_neg h3, xor_mul_two]

theorem gfXtime_lt (a : Nat) (ha : a < 256) : gfXtime a < 256 := by
  have h : ∀ x : Fin 256, gfXtime x.val < 256 := by decide
  exact h ⟨a, ha⟩

theorem gfXtime_zero : gfXtime 0 = 0 := by decide

theorem xor_lt_256 (a b : Nat) (ha : a < 256) (hb : b < 256) : a ^^^ b < 256 :=
  Nat.xor_lt_two_pow (n := 8) ha hb

theorem gfMulAux_lt (f a b acc : Nat) (ha : a < 256) (hacc : acc < 256) :
    gfMulAux f a b acc < 256 := by
  induction f generalizing a b acc with
  | zero => exact hacc
  | succ f ih =>
    simp only [gfMulAux]
    apply ih _ _ _ (gfXtime_lt a ha)
    split
    · exact xor_lt_256 _ _ hacc ha
    · exact hacc

theorem gfMul_lt (a b : Nat) (ha : a < 256) : gfMul a b < 256 :=
  gfMulAux_lt 8 a b 0 ha (by decide)

theorem gfMulAux_xor (f a a1 b acc acc1 : Nat) (ha : a < 256) (ha1 : a1 < 256) :
    gfMulAux f (a ^^^ a1) b (acc ^^^ acc1) = gfMulAux f a b acc ^^^ gfMulAux f a1 b acc1 := by
  induction f generalizing a a1 b acc acc1 with
  | zero => rfl
  | succ f ih =>
    simp only [gfMulAux]
    rw [gfXtime_xor a a1 ha ha1]
    split
    · have h : (acc ^^^ acc1) ^^^ (a ^^^ a1) = (acc ^^^ a) ^^^ (acc1 ^^^ a1) := by ac_rfl
      rw [h]
      exact ih _ _ _ _ _ (gfXtime_lt a ha) (gfXtime_lt a1 ha1)
    · exact ih _ _ _ _ _ (gfXtime_lt a ha) (gfXtime_lt a1 ha1)

/-- Multiplication is additive in its first argument. -/
theorem gfMul_xor_left (a a1 b : Nat) (ha : a < 256) (ha1 : a1 < 256) :
    gfMul (a ^^^ a1) b = gfMul a b ^^^ gfMul a1 b := by
  have h := gfMulAux_xor 8 a a1 b 0 0 ha ha1
  simpa [gfMul] using h

theorem gfMulAux_xtime (f a b acc : Nat) (ha : a < 256) (hacc : acc < 256) :
    gfMulAux f (gfXtime a) b (gfXtime acc) = gfXtime (gfMulAux f a b acc) := by
  induction f generalizing a b acc with
  | zero => rfl
  | succ f ih =>
    simp only [gfMulAux]
    split
    · rw [← gfXtime_xor acc a hacc ha]
      exact ih _ _ _ (gfXtime_lt a ha) (xor_lt_256 _ _ hacc ha)
    · exact ih _ _ _ (gfXtime_lt a ha) hacc

theorem gfMul_xtime (a b : Nat) (ha : a < 256) : gfMul (gfXtime a) b = gfXtime (gfMul a b) := by
  have h := gfMulAux_xtime 8 a b 0 ha (by decide)
  rw [gfXtime_zero] at h
  exact h

theorem gfMulAux_zero_left (f b acc : Nat) : gfMulAux f 0 b acc = acc := by
  induction f generalizing b acc with
  | zero => rfl
  | succ f ih =>
    simp only [gfMulAux, gfXtime_zero, Nat.xor_zero, ite_self]
    exact ih _ _

theorem gfMul_zero_left (b : Nat) : gfMul 0 b = 0 := gfMulAux_zero_left 8 b 0

theorem gfMulAux_zero_right (f a acc : Nat) : gfMulAux f a 0 acc = acc := by
  induction f generalizing a acc with
  | zero => rfl
  | succ f ih =>
    simp only [gfMulAux]
    exact ih _ _

theorem gfMul_zero_right (a : Nat) : gfMul a 0 = 0 := gfMulAux_zero_right 8 a 0

theorem gfMul_one_left (b : Nat) (hb : b < 256) : gfMul 1 b = b := by
  have h : ∀ x : Fin 256, gfMul 1 x.val = x.val := by decide
  exact h ⟨b, hb⟩

theorem gfInv_mul (a : Nat) (ha : a < 256) (h0 : a ≠ 0) : gfMul (gfInv a) a = 1 := by
  have h : ∀ x : Fin 256, x.val ≠ 0 → gfMul (gfInv x.val) x.val = 1 := by decide
  exact h ⟨a, ha⟩ h0

theorem gfInv_zero : gfInv 0 = 0 := by decide

theorem gfInv_lt (a : Nat) (ha : a < 256) : gfInv a < 256 := by
  unfold gfInv
  exact gfMul_lt _ _ (gfMul_lt _ _ ha)

theorem gfExpTable_eq : gfExpTable = List.iterate gfXtime 1 255 := by decide

theorem mem_gfExpTable : ∀ a : Fin 256, a.val ≠ 0 → a.val ∈ gfExpTable := by decide

/-- Every non-zero byte is a power of the generator. -/
theorem exists_gfPow (a : Nat) (ha : a < 256) (h0 : a ≠ 0) : ∃ i : Nat, a = gfXtime^[i] 1 := by
  have h := mem_gfExpTable ⟨a, ha⟩ h0
  rw [gfExpTable_eq, List.mem_iterate] at h
  obtain ⟨m, _, hm⟩ := h
  exact ⟨m, hm⟩

theorem gfXtime_iterate_lt (i x : Nat) (hx : x < 256) : gfXtime^[i] x < 256 := by
  induction i with
  | zero => exact hx
  | succ i ih =>
    rw [Function.iterate_succ_apply']
    exact gfXtime_lt _ ih

theorem gfMul_iterate (i x c : Nat) (hx : x < 256) :
    gfMul (gfXtime^[i] x) c = gfXtime^[i] (gfMul x c) := by
  induction i with
  | zero => rfl
  | succ i ih =>
    rw [Function.iterate_succ_apply', Function.iterate_succ_apply',
      gfMul_xtime _ _ (gfXtime_iterate_lt i x hx), ih]

theorem gfMul_gfPow (i b : Nat) (hb : b < 256) : gfMul (gfXtime^[i] 1) b = gfXtime^[i] b := by
  rw [gfMul_iterate i 1 b (by decide), gfMul_one_left b hb]

theorem gfMul_comm (a b : Nat) (ha : a < 256) (hb : b < 256) : gfMul a b = gfMul b a := by
  by_cases ha0 : a = 0
  · subst ha0; rw [gfMul_zero_left, gfMul_zero_right]
  by_cases hb0 : b = 0
  · subst hb0; rw [gfMul_zero_left, gfMul_zero_right]
  obtain ⟨i, rfl⟩ := exists_gfPow a ha ha0
  obtain ⟨j, rfl⟩ := exists_gfPow b hb hb0
  rw [gfMul_gfPow i _ hb, gfMul_gfPow j _ ha, ← Function.iterate_add_apply,
    ← Function.iterate_add_apply, Nat.add_comm]

theorem gfMul_assoc (a b c : Nat) (ha : a < 256) (hb : b < 256) :
    gfMul (gfMul a b) c = gfMul a (gfMul b c) := by
  by_cases ha0 : a = 0
  · subst ha0; rw [gfMul_zero_left, gfMul_zero_left, gfMul_zero_left]
  obtain ⟨i, rfl⟩ := exists_gfPow a ha ha0
  rw [gfMul_gfPow i b hb, gfMul_gfPow i _ (gfMul_lt b c hb), gfMul_iterate i b c hb]

theorem gfMul_xor_right (a b c : Nat) (ha : a < 256) (hb : b < 256) (hc : c < 256) :
    gfMul a (b ^^^ c) = gfMul a b ^^^ gfMul a c := by
  rw [gfMul_comm a _ ha (xor_lt_256 b c hb hc), gfMul_xor_left b c a hb hc,
    gfMul_comm b a hb ha, gfMul_comm c a hc ha]

theorem gfMul_one_right (a : Nat) (ha : a < 256) : gfMul a 1 = a := by
  rw [gfMul_comm a 1 ha (by decide), gfMul_one_left a ha]

theorem gfMul_inv (a : Nat) (ha : a < 256) (h0 : a ≠ 0) : gfMul a (gfInv a) = 1 := by
  rw [gfMul_comm a _ ha (gfInv_lt a ha), gfInv_mul a ha h0]

theorem GF256.ext_val (a b : GF256) (h : a.val = b.val) : a = b := by
  cases a; cases b; simp_all

theorem GF256.ofNat_val (n : Nat) (h : n < 256) : (GF256.ofNat n).val = n :=
  Nat.mod_eq_of_lt h

theorem GF256.add_val (a b : GF256) : (GF256.add a b).val = a.val ^^^ b.val :=
  GF256.ofNat_val _ (xor_lt_256 _ _ a.isLt b.isLt)

theorem GF256.mul_val (a b : GF256) : (GF256.mul a b).val = gfMul a.val b.val :=
  GF256.ofNat_val _ (gfMul_lt _ _ a.isLt)

theorem GF256.inv_val (a : GF256) : (GF256.inv a).val = gfInv a.val :=
  GF256.ofNat_val _ (gfInv_lt _ a.isLt)

/-- The bytes with exclusive or and `gfMul` form a field. -/
theorem byteField_exists :
    ∃ (K : Type) (inst : Field K) (φ : Nat → K), @IsByteField K inst φ := by
  letI iz : Zero GF256 := ⟨GF256.ofNat 0⟩
  letI ia : Add GF256 := ⟨GF256.add⟩
  letI ineg : Neg GF256 := ⟨id⟩
  let inst : Field GF256 :=
    { add := GF256.add
      zero := GF256.ofNat 0
      neg := id
      mul := GF256.mul
      one := GF256.ofNat 1
      inv := GF256.inv
      nsmul := nsmulRec
      nsmul_zero := fun _ => rfl
      nsmul_succ := fun _ _ => rfl
      zsmul := zsmulRec
      zsmul_zero' := fun _ => rfl
      zsmul_succ' := fun _ _ => rfl
      zsmul_neg' := fun _ _ => rfl
      qsmul := _
      nnqsmul := _
      add_assoc := fun a b c => GF256.ext_val _ _ (by
        show (GF256.add (GF256.add a b) c).val = (GF256.add a (GF256.add b c)).val
        simp only [GF256.add_val, Nat.xor_assoc])
      zero_add := fun a => GF256.ext_val _ _ (by
        show (GF256.add (GF256.ofNat 0) a).val = a.val
        simp [GF256.add_val, GF256.ofNat])
      add_zero := fun a => GF256.ext_val _ _ (by
        show (GF256.add a (GF256.ofNat 0)).val = a.val
        simp [GF256.add_val, GF256.ofNat])
      add_comm := fun a b => GF256.ext_val _ _ (by
        show (GF256.add a b).val = (GF256.add b a).val
        simp only [GF256.add_val, Nat.xor_comm])
      neg_add_cancel := fun a => GF256.ext_val _ _ (by
        show (GF256.add a a).val = (GF256.ofNat 0).val
        simp [GF256.add_val, GF256.ofNat])
      mul_assoc := fun a b c => GF256.ext_val _ _ (by
        show (GF256.mul (GF256.mul a b) c).val = (GF256.mul a (GF256.mul b c)).val
        simp only [GF256.mul_val]
        exact gfMul_assoc _ _ _ a.isLt b.isLt)
      one_mul := fun a => GF256.ext_val _ _ (by
        show (GF256.mul (GF256.ofNat 1) a).val = a.val
        rw [GF256.mul_val, GF256.ofNat_val 1 (by decide)]
        exact gfMul_one_left _ a.isLt)
      mul_one := fun a => GF256.ext_val _ _ (by
        show (GF256.mul a (GF256.ofNat 1)).val = a.val
        rw [GF256.mul_val, GF256.ofNat_val 1 (by decide)]
        exact gfMul_one_right _ a.isLt)
      left_distrib := fun a b c => GF256.ext_val _ _ (by
        show (GF256.mul a (GF256.add b c)).val = (GF256.add (GF256.mul a b) (GF256.mul a c)).val
        simp only [GF256.mul_val, GF256.add_val]
        exact gfMul_xor_right _ _ _ a.isLt b.isLt c.isLt)
      right_distrib := fun a b c => GF256.ext_val _ _ (by
        show (GF256.mul (GF256.add a b) c).val = (GF256.add (GF256.mul a c) (GF256.mul b c)).val
        simp only [GF256.mul_val, GF256.add_val]
        exact gfMul_xor_left _ _ _ a.isLt b.isLt)
      mul_comm := fun a b => GF256.ext_val _ _ (by
        show (GF256.mul a b).val = (GF256.mul b a).val
        simp only [GF256.mul_val]
        exact gfMul_comm _ _ a.isLt b.isLt)
      zero_mul := fun a => GF256.ext_val _ _ (by
        show (GF256.mul (GF256.ofNat 0) a).val = (GF256.ofNat 0).val
        rw [GF256.mul_val, GF256.ofNat_val 0 (by decide)]
        exact gfMul_zero_left _)
      mul_zero := fun a => GF256.ext_val _ _ (by
        show (GF256.mul a (GF256.ofNat 0)).val = (GF256.ofNat 0).val
        rw [GF256.mul_val, GF256.ofNat_val 0 (by decide)]
        exact gfMul_zero_right _)
      exists_pair_ne := ⟨GF256.ofNat 0, GF256.ofNat 1, fun h => by
        have := congrArg GF256.val h
        simp [GF256.ofNat] at this⟩
      mul_inv_cancel := fun a ha => GF256.ext_val _ _ (by
        show (GF256.mul a (GF256.inv a)).val = (GF256.ofNat 1).val
        rw [GF256.mul_val, GF256.inv_val, GF256.ofNat_val 1 (by decide)]
        apply gfMul_inv _ a.isLt
        intro h0
        apply ha
        exact GF256.ext_val _ _ (by rw [h0]; rfl))
      inv_zero := GF256.ext_val _ _ (by
        show (GF256.inv (GF256.ofNat 0)).val = (GF256.ofNat 0).val
        rw [GF256.inv_val]
        rfl) }
  refine ⟨GF256, inst, GF256.ofNat, rfl, rfl, ?_, ?_, ?_, ?_⟩
  · intro a b ha hb
    apply GF256.ext_val
    show (GF256.ofNat (a ^^^ b)).val = (GF256.add (GF256.ofNat a) (GF256.ofNat b)).val
    rw [GF256.add_val, GF256.ofNat_val _ ha, GF256.ofNat_val _ hb,
      GF256.ofNat_val _ (xor_lt_256 a b ha hb)]
  · intro a b ha hb
    apply GF256.ext_val
    show (GF256.ofNat (gfMul a b)).val = (GF256.mul (GF256.ofNat a) (GF256.ofNat b)).val
    rw [GF256.mul_val, GF256.ofNat_val _ ha, GF256.ofNat_val _ hb,
      GF256.ofNat_val _ (gfMul_lt a b ha)]
  · intro a ha
    apply GF256.ext_val
    show (GF256.ofNat (gfInv a)).val = (GF256.inv (GF256.ofNat a)).val
    rw [GF256.inv_val, GF256.ofNat_val _ ha, GF256.ofNat_val _ (gfInv_lt a ha)]
  · intro a b ha hb h
    have := congrArg GF256.val h
    rwa [GF256.ofNat_val _ ha, GF256.ofNat_val _ hb] at this

/-! ### Interpolation over the byte field -/

theorem lagrangeBasis_fold_lt (xs : List Nat) (xi x acc : Nat) (hacc : acc < 256) :
    xs.foldl (fun acc xj =>
      if xj = xi then acc else gfMul acc (gfMul (x ^^^ xj) (gfInv (xi ^^^ xj)))) acc < 256 := by
  induction xs generalizing acc with
  | nil => exact hacc
  | cons y rest ih =>
    simp only [List.foldl_cons]
    apply ih
    split
    · exact hacc
    · exact gfMul_lt _ _ hacc

theorem lagrangeBasis_lt (xs : List Nat) (xi x : Nat) : lagrangeBasis xs xi x < 256 :=
  lagrangeBasis_fold_lt xs xi x 1 (by norm_num)

theorem lagrangeAt_fold_lt (B : Nat → Nat) (pts : List (Nat × Nat)) (acc : Nat)
    (hacc : acc < 256) (hp : ∀ p ∈ pts, p.2 < 256) :
    pts.foldl (fun acc p => acc ^^^ gfMul p.2 (B p.1)) acc < 256 := by
  induction pts generalizing acc with
  | nil => exact hacc
  | cons p rest ih =>
    simp only [List.foldl_cons]
    apply ih
    · exact xor_lt_256 _ _ hacc (gfMul_lt _ _ (hp p (List.mem_cons_self _ _)))
    · exact fun q hq => hp q (List.mem_cons_of_mem _ hq)

theorem lagrangeAt_lt (pts : List (Nat × Nat)) (x : Nat) (hp : ∀ p ∈ pts, p.2 < 256) :
    lagrangeAt pts x < 256 := by
  unfold lagrangeAt
  exact lagrangeAt_fold_lt (fun u => lagrangeBasis (pts.map Prod.fst) u x) pts 0
    (by norm_num) hp


theorem IsByteField.add_self {K : Type} [Field K] (φ : Nat → K) (h : IsByteField K φ) (a : Nat) (ha : a < 256) :
    φ a + φ a = 0 := by
  rw [← h.2.2.1 a a ha ha, Nat.xor_self, h.1]

theorem IsByteField.sub_eq {K : Type} [Field K] (φ : Nat → K) (h : IsByteField K φ) (a b : Nat) (hb : b < 256) :
    φ a - φ b = φ a + φ b := by
  have := h.add_self φ b hb
  linear_combination (-1 : K) * this

theorem phi_lagrangeBasis_fold {K : Type} [Field K] (φ : Nat → K) (h : IsByteField K φ) (xs : List Nat) (xi x acc : Nat)
    (hxs : ∀ y ∈ xs, y < 256) (hxi : xi < 256) (hx : x < 256) (hacc : acc < 256) :
    φ (xs.foldl (fun acc xj =>
      if xj = xi then acc else gfMul acc (gfMul (x ^^^ xj) (gfInv (xi ^^^ xj)))) acc)
      = φ acc * ((xs.filter (fun y => decide (y ≠ xi))).map
          (fun xj => (φ xi - φ xj)⁻¹ * (φ x - φ xj))).prod := by
  induction xs generalizing acc with
  | nil => simp
  | cons y rest ih =>
    have hy : y < 256 := hxs y (List.mem_cons_self _ _)
    have hrest : ∀ z ∈ rest, z < 256 := fun z hz => hxs z (List.mem_cons_of_mem _ hz)
    simp only [List.foldl_cons]
    by_cases hyx : y = xi
    · rw [if_pos hyx, ih acc hrest hacc]
      simp [List.filter, hyx]
    · rw [if_neg hyx, ih _ hrest (gfMul_lt _ _ hacc)]
      have h1 : φ (gfMul acc (gfMul (x ^^^ y) (gfInv (xi ^^^ y))))
          = φ acc * ((φ xi - φ y)⁻¹ * (φ x - φ y)) := by
        rw [h.2.2.2.1 _ _ hacc (gfMul_lt _ _ (xor_lt_256 _ _ hx hy)),
          h.2.2.2.1 _ _ (xor_lt_256 _ _ hx hy) (gfInv_lt _ (xor_lt_256 _ _ hxi hy)),
          h.2.2.2.2.1 _ (xor_lt_256 _ _ hxi hy), h.2.2.1 _ _ hx hy, h.2.2.1 _ _ hxi hy,
          h.sub_eq φ xi y hy, h.sub_eq φ x y hy]
        ring
      rw [h1]
      simp [List.filter, hyx, mul_assoc]

theorem phi_lagrangeBasis {K : Type} [Field K] (φ : Nat → K) (h : IsByteField K φ) (xs : List Nat) (xi x : Nat)
    (hxs : ∀ y ∈ xs, y < 256) (hxi : xi < 256) (hx : x < 256) :
    φ (lagrangeBasis xs xi x)
      = ((xs.filter (fun y => decide (y ≠ xi))).map
          (fun xj => (φ xi - φ xj)⁻¹ * (φ x - φ xj))).prod := by
  unfold lagrangeBasis
  rw [phi_lagrangeBasis_fold φ h xs xi x 1 hxs hxi hx (by norm_num), h.2.1, one_mul]

theorem phi_lagrangeAt_fold {K : Type} [Field K] (φ : Nat → K) (h : IsByteField K φ) (B : Nat → Nat) (hB : ∀ u, B u < 256)
    (pts : List (Nat × Nat)) (acc : Nat) (hacc : acc < 256) (hp : ∀ p ∈ pts, p.2 < 256) :
    φ (pts.foldl (fun acc p => acc ^^^ gfMul p.2 (B p.1)) acc)
      = φ acc + (pts.map (fun p => φ p.2 * φ (B p.1))).sum := by
  induction pts generalizing acc with
  | nil => simp
  | cons p rest ih =>
    have hp2 : p.2 < 256 := hp p (List.mem_cons_self _ _)
    simp only [List.foldl_cons, List.map_cons, List.sum_cons]
    rw [ih _ (xor_lt_256 _ _ hacc (gfMul_lt _ _ hp2))
      (fun q hq => hp q (List.mem_cons_of_mem _ hq)),
      h.2.2.1 _ _ hacc (gfMul_lt _ _ hp2), h.2.2.2.1 _ _ hp2 (hB _)]
    ring

/-- The fold `lagrangeAt` over the nodes `ns` with values `r` is the value of the
interpolation polynomial of the field. -/
theorem phi_lagrangeAt {K : Type} [Field K] (φ : Nat → K) (h : IsByteField K φ) (ns : List Nat) (r : Nat → Nat) (t : Nat)
    (hnd : ns.Nodup) (hns : ∀ u ∈ ns, u < 256) (hr : ∀ u ∈ ns, r u < 256) (ht : t < 256) :
    φ (lagrangeAt (ns.map (fun u => (u, r u))) t)
      = Polynomial.eval (φ t) (Lagrange.interpolate ns.toFinset φ (fun u => φ (r u))) := by
  have hfst : (ns.map (fun u => (u, r u))).map Prod.fst = ns := by
    rw [List.map_map]
    exact List.map_id'' (fun _ => rfl) ns
  unfold lagrangeAt
  rw [hfst, phi_lagrangeAt_fold φ h (fun u => lagrangeBasis ns u t)
    (fun u => lagrangeBasis_lt ns u t) _ 0 (by norm_num)
    (by
      intro p hp
      rw [List.mem_map] at hp
      obtain ⟨u, hu, rfl⟩ := hp
      exact hr u hu), h.1, zero_add, List.map_map]
  rw [Lagrange.interpolate_apply, Polynomial.eval_finset_sum, ← List.sum_toFinset _ hnd]
  apply Finset.sum_congr rfl
  intro u hu
  have hu1 : u ∈ ns := List.mem_toFinset.1 hu
  simp only [Function.comp, Polynomial.eval_mul, Polynomial.eval_C]
  congr 1
  rw [phi_lagrangeBasis φ h ns u t hns (hns u hu1) ht, Lagrange.basis, Polynomial.eval_prod]
  have hfil : (ns.filter (fun y => decide (y ≠ u))).toFinset = ns.toFinset.erase u := by
    ext y
    simp [List.mem_filter, Finset.mem_erase, and_comm]
  rw [← hfil, List.prod_toFinset _ (hnd.filter _)]
  congr 1
  apply List.map_congr_left
  intro y _
  simp [Lagrange.basisDivisor]

/-- Interpolation is consistent: the shares of a codeword at any `k` distinct
positions determine the values at the original positions. -/
theorem lagrangeAt_consistent (k : Nat) (ys : Nat → Nat) (us : List Nat) (t : Nat)
    (hk : k ≤ 256) (hys : ∀ j, j < k → ys j < 256)
    (hnd : us.Nodup) (hus : ∀ u ∈ us, u < 256) (hlen : us.length = k) (ht : t < k) :
    lagrangeAt (us.map (fun u => (u,
      if u < k then ys u else lagrangeAt ((List.range k).map (fun j => (j, ys j))) u))) t
      = ys t := by
  obtain ⟨K, inst, φ, h⟩ := byteField_exists
  have hinj : ∀ s : Finset Nat, (∀ u ∈ s, u < 256) → Set.InjOn φ s := by
    intro s hs a ha b hb hab
    exact h.2.2.2.2.2 a b (hs a ha) (hs b hb) hab
  have hrange : ∀ u ∈ (List.range k).toFinset, u < 256 := by
    intro u hu
    have := List.mem_range.1 (List.mem_toFinset.1 hu)
    omega
  have husf : ∀ u ∈ us.toFinset, u < 256 := fun u hu => hus u (List.mem_toFinset.1 hu)
  have horig : ∀ p ∈ (List.range k).map (fun j => (j, ys j)), p.2 < 256 := by
    intro p hp
    rw [List.mem_map] at hp
    obtain ⟨j, hj, rfl⟩ := hp
    exact hys j (List.mem_range.1 hj)
  let cw : Nat → Nat := fun u =>
    if u < k then ys u else lagrangeAt ((List.range k).map (fun j => (j, ys j))) u
  have hcw_lt : ∀ u, u < 256 → cw u < 256 := by
    intro u _
    show (if u < k then ys u else _) < 256
    split
    · rename_i hlt; exact hys u hlt
    · exact lagrangeAt_lt _ _ horig
  let P := Lagrange.interpolate (List.range k).toFinset φ (fun j => φ (ys j))
  have hP : ∀ u, u < 256 → φ (cw u) = Polynomial.eval (φ u) P := by
    intro u hu
    show φ (if u < k then ys u else _) = _
    split
    · rename_i hlt
      exact (Lagrange.eval_interpolate_at_node (fun j => φ (ys j)) (hinj _ hrange)
        (List.mem_toFinset.2 (List.mem_range.2 hlt))).symm
    · exact phi_lagrangeAt φ h (List.range k) ys u (List.nodup_range k)
        (fun j hj => by have := List.mem_range.1 hj; omega)
        (fun j hj => hys j (List.mem_range.1 hj)) hu
  have hcard : us.toFinset.card = k := by
    rw [List.toFinset_card_of_nodup hnd, hlen]
  have hdeg : P.degree < us.toFinset.card := by
    have := Lagrange.degree_interpolate_lt (fun j => φ (ys j)) (hinj _ hrange)
    rw [List.toFinset_card_of_nodup (List.nodup_range k), List.length_range] at this
    rw [hcard]
    exact this
  have hPQ : P = Lagrange.interpolate us.toFinset φ (fun u => φ (cw u)) :=
    Lagrange.eq_interpolate_of_eval_eq (fun u => φ (cw u)) (hinj _ husf) hdeg
      (fun u hu => (hP u (husf u hu)).symm)
  have ht256 : t < 256 := by omega
  have hphi : φ (lagrangeAt (us.map (fun u => (u, cw u))) t) = φ (ys t) := by
    rw [phi_lagrangeAt φ h us cw t hnd hus (fun u hu => hcw_lt u (hus u hu)) ht256, ← hPQ,
      ← hP t ht256]
    show φ (if t < k then ys t else _) = _
    rw [if_pos ht]
  exact h.2.2.2.2.2 _ _
    (lagrangeAt_lt _ _ (by
      intro p hp
      rw [List.mem_map] at hp
      obtain ⟨u, hu, rfl⟩ := hp
      exact hcw_lt u (hus u hu)))
    (hys t ht) hphi



/-! ### Dispatch -/

theorem encode_RSGF8 {F : Type} (lib : Infectious F) (cache : Cache F) (data : List Chunk) :
    encode lib cache data RSGF8 = encodeRSGF8 lib cache data := by
  simp [encode]

theorem decode_RSGF8 {F : Type} (lib : Infectious F) (cache : Cache F) (data : List Chunk) :
    decode lib cache data RSGF8 = decodeRSGF8 lib cache data := by
  simp [decode]

theorem encodeWith_calls {F : Type} (lib : Infectious F) (fec : F) (cache : Cache F)
    (calls : List (Call F)) (data : List Chunk) :
    (encodeWith lib fec cache calls data).calls = calls ++ [Call.encode fec (flattenChunks data)] := by
  simp only [encodeWith]
  split <;> rfl

theorem encodeWith_cache {F : Type} (lib : Infectious F) (fec : F) (cache : Cache F)
    (calls : List (Call F)) (data : List Chunk) :
    (encodeWith lib fec cache calls data).cache = cache := by
  simp only [encodeWith]
  split <;> rfl

theorem decodeWith_calls {F : Type} (lib : Infectious F) (fec : F) (cache : Cache F)
    (calls : List (Call F)) (data : List Chunk) :
    (decodeWith lib fec cache calls data).calls = calls ++ [Call.rebuild fec (presentShares data)] := by
  simp only [decodeWith]
  split <;> rfl

theorem decodeWith_cache {F : Type} (lib : Infectious F) (fec : F) (cache : Cache F)
    (calls : List (Call F)) (data : List Chunk) :
    (decodeWith lib fec cache calls data).cache = cache := by
  simp only [decodeWith]
  split <;> rfl

theorem encodeRSGF8_calls_ne_nil {F : Type} (lib : Infectious F) (cache : Cache F)
    (data : List Chunk) : (encodeRSGF8 lib cache data).calls ≠ [] := by
  unfold encodeRSGF8
  split
  · simp [encodeWith_calls]
  · split
    · simp
    · simp [encodeWith_calls]

theorem decodeRSGF8_calls_ne_nil {F : Type} (lib : Infectious F) (cache : Cache F)
    (data : List Chunk) : (decodeRSGF8 lib cache data).calls ≠ [] := by
  unfold decodeRSGF8
  split
  · simp [decodeWith_calls]
  · split
    · simp
    · simp [decodeWith_calls]

/-- C11: the registry is the one-entry table that maps RSGF8, the codec value 0, to
128*128 = 16384; an identifier is a key of that table exactly when the dispatch of
`encode` (and of `decode`) enters the engine path, and every other identifier gets
the invalid-codec return without a library call. -/
theorem registry_contents :
    RSGF8 = 0 ∧ CodecsMaxChunksMap = [(RSGF8, 16384)] ∧
    mapKeys CodecsMaxChunksMap = [RSGF8] ∧
    (∀ (F : Type) (lib : Infectious F) (cache : Cache F) (data : List Chunk) (codec : Codec),
      (codec ∈ mapKeys CodecsMaxChunksMap ↔ (encode lib cache data codec).calls ≠ []) ∧
      (codec ∈ mapKeys CodecsMaxChunksMap ↔ (decode lib cache data codec).calls ≠ []) ∧
      (codec ∈ mapKeys CodecsMaxChunksMap →
        encode lib cache data codec = encodeRSGF8 lib cache data ∧
        decode lib cache data codec = decodeRSGF8 lib cache data) ∧
      (codec ∉ mapKeys CodecsMaxChunksMap →
        encode lib cache data codec = ⟨some (none, some "invalid codec"), cache, []⟩ ∧
        decode lib cache data codec = ⟨some (none, some "invalid codec"), cache, []⟩)) := by
  refine ⟨rfl, rfl, rfl, ?_⟩
  intro F lib cache data codec
  have hk : codec ∈ mapKeys CodecsMaxChunksMap ↔ codec = RSGF8 := by
    simp [mapKeys, CodecsMaxChunksMap]
  by_cases h : codec = RSGF8
  · subst h
    simp only [hk, encode_RSGF8, decode_RSGF8, true_iff, not_true_eq_false, false_implies,
      and_true, true_implies, and_self]
    exact ⟨encodeRSGF8_calls_ne_nil lib cache data, decodeRSGF8_calls_ne_nil lib cache data⟩
  · simp [hk, h, encode, decode]

/-- C4: for a codec other than RSGF8, `encode` and `decode` return a nil result with
the error "invalid codec" on every input, without any library call and without
touching the cache. -/
theorem unsupported_codec {F : Type} (lib : Infectious F) (cache : Cache F)
    (data : List Chunk) (codec : Codec) (h : codec ≠ RSGF8) :
    encode lib cache data codec = ⟨some (none, some "invalid codec"), cache, []⟩ ∧
    decode lib cache data codec = ⟨some (none, some "invalid codec"), cache, []⟩ := by
  simp [encode, decode, h]

theorem unsupported_codec_witness :
    (1 : Codec) ≠ RSGF8 ∧
    encode refLib [] [some [1, 2, 3, 4], some [5, 6, 7, 8]] 1
      = ⟨some (none, some "invalid codec"), [], []⟩ ∧
    decode refLib [] [some [1, 2, 3, 4], none] 1
      = ⟨some (none, some "invalid codec"), [], []⟩ :=
  ⟨by decide,
   (unsupported_codec refLib [] [some [1, 2, 3, 4], some [5, 6, 7, 8]] 1 (by decide)).1,
   (unsupported_codec refLib [] [some [1, 2, 3, 4], none] 1 (by decide)).2⟩

/-! ### The cache -/

theorem lookup_filter_ne {F : Type} (c : Cache F) (key k : Nat) (h : k ≠ key) :
    List.lookup k (c.filter (fun e => e.1 != key)) = List.lookup k c := by
  induction c with
  | nil => rfl
  | cons e rest ih =>
    obtain ⟨a, v⟩ := e
    by_cases ha : a = key
    · subst ha
      have hk : (k == a) = false := by simpa using h
      simp [List.filter, List.lookup, hk, ih]
    · have hne : (a != key) = true := by simpa using ha
      simp only [List.filter, hne, List.lookup]
      rw [ih]

theorem cacheGet_cacheSet {F : Type} (c : Cache F) (key k : Nat) (v : F) :
    cacheGet (cacheSet c key v) k = if k = key then some v else cacheGet c k := by
  unfold cacheGet cacheSet
  by_cases h : k = key
  · subst h
    simp [List.lookup]
  · have hk : (k == key) = false := by simpa using h
    simp only [List.lookup, hk, h, if_false]
    exact lookup_filter_ne c key k h

/-- What `encodeRSGF8` does to the cache: nothing, or one insertion under the
absent key `len(data)` of the engine built by `NewFEC(len(data), len(data)*2)`. -/
theorem encodeRSGF8_cache {F : Type} (lib : Infectious F) (cache : Cache F) (data : List Chunk) :
    (encodeRSGF8 lib cache data).cache = cache ∨
    (cacheGet cache data.length = none ∧
      ∃ fec, lib.NewFEC data.length (data.length * 2) = Except.ok fec ∧
        (encodeRSGF8 lib cache data).cache = cacheSet cache data.length fec) := by
  unfold encodeRSGF8
  split
  · left; exact encodeWith_cache _ _ _ _ _
  · rename_i hmiss
    split
    · left; rfl
    · rename_i fec hok
      right
      exact ⟨hmiss, fec, hok, encodeWith_cache _ _ _ _ _⟩

/-- What `decodeRSGF8` does to the cache: nothing, or one insertion under the
absent key `len(data)/2` of the engine built by `NewFEC(len(data)/2, len(data))`. -/
theorem decodeRSGF8_cache {F : Type} (lib : Infectious F) (cache : Cache F) (data : List Chunk) :
    (decodeRSGF8 lib cache data).cache = cache ∨
    (cacheGet cache (data.length / 2) = none ∧
      ∃ fec, lib.NewFEC (data.length / 2) data.length = Except.ok fec ∧
        (decodeRSGF8 lib cache data).cache = cacheSet cache (data.length / 2) fec) := by
  unfold decodeRSGF8
  split
  · left; exact decodeWith_cache _ _ _ _ _
  · rename_i hmiss
    split
    · left; rfl
    · rename_i fec hok
      right
      exact ⟨hmiss, fec, hok, decodeWith_cache _ _ _ _ _⟩

/-- Every call changes the cache by at most one insertion under an absent key. -/
theorem step_cache {F : Type} (lib : Infectious F) (c c1 : Cache F) (h : Step lib c c1) :
    c1 = c ∨ ∃ key fec n, cacheGet c key = none ∧ lib.NewFEC key n = Except.ok fec ∧
      (n = 2 * key ∨ n = 2 * key + 1) ∧ c1 = cacheSet c key fec := by
  cases h with
  | enc data codec =>
    by_cases hc : codec = RSGF8
    · subst hc
      rw [encode_RSGF8]
      rcases encodeRSGF8_cache lib c data with h | ⟨hm, fec, hok, hc1⟩
      · exact Or.inl h
      · exact Or.inr ⟨_, fec, _, hm, hok, Or.inl (by omega), hc1⟩
    · left; simp [encode, hc]
  | dec data codec =>
    by_cases hc : codec = RSGF8
    · subst hc
      rw [decode_RSGF8]
      rcases decodeRSGF8_cache lib c data with h | ⟨hm, fec, hok, hc1⟩
      · exact Or.inl h
      · exact Or.inr ⟨_, fec, _, hm, hok, by omega, hc1⟩
    · left; simp [decode, hc]

/-- A key present before a call is present after it, with the same engine. -/
theorem step_mono {F : Type} (lib : Infectious F) (c c1 : Cache F) (h : Step lib c c1)
    (key : Nat) (fec : F) (hk : cacheGet c key = some fec) : cacheGet c1 key = some fec := by
  rcases step_cache lib c c1 h with h1 | ⟨k, f, n, hm, _, _, h1⟩
  · rw [h1]; exact hk
  · rw [h1, cacheGet_cacheSet]
    by_cases hkk : key = k
    · subst hkk; rw [hm] at hk; cases hk
    · simp [hkk, hk]

/-- A key present in a cache state is present in every later state, with the same engine. -/
theorem reach_mono {F : Type} (lib : Infectious F) (c c1 : Cache F) (h : Reach lib c c1)
    (key : Nat) (fec : F) (hk : cacheGet c key = some fec) : cacheGet c1 key = some fec := by
  induction h with
  | refl => exact hk
  | tail c1 c2 _ hs ih => exact step_mono lib c1 c2 hs key fec ih

/-- A call adds at most one key. -/
theorem step_one_new {F : Type} (lib : Infectious F) (c c1 : Cache F) (h : Step lib c c1)
    (k1 k2 : Nat) (h1 : cacheGet c k1 = none) (h1n : cacheGet c1 k1 ≠ none)
    (h2 : cacheGet c k2 = none) (h2n : cacheGet c1 k2 ≠ none) : k1 = k2 := by
  rcases step_cache lib c c1 h with he | ⟨k, f, n, _, _, _, he⟩
  · rw [he] at h1n; exact absurd h1 h1n
  · rw [he, cacheGet_cacheSet] at h1n h2n
    by_cases hk1 : k1 = k
    · by_cases hk2 : k2 = k
      · rw [hk1, hk2]
      · simp [hk2, h2] at h2n
    · simp [hk1, h1] at h1n

/-- C10: the cache starts empty; a call of `encode` or `decode`, on any codec and
input and whatever it returns, keeps every key that was present, mapped to the same
engine, and adds at most one new key. -/
theorem cache_grow_only {F : Type} (lib : Infectious F) (cache : Cache F)
    (data : List Chunk) (codec : Codec) :
    init F = [] ∧
    (∀ key fec, cacheGet cache key = some fec →
      cacheGet (encode lib cache data codec).cache key = some fec ∧
      cacheGet (decode lib cache data codec).cache key = some fec) ∧
    (∀ k1 k2, cacheGet cache k1 = none → cacheGet cache k2 = none →
      (cacheGet (encode lib cache data codec).cache k1 ≠ none →
        cacheGet (encode lib cache data codec).cache k2 ≠ none → k1 = k2) ∧
      (cacheGet (decode lib cache data codec).cache k1 ≠ none →
        cacheGet (decode lib cache data codec).cache k2 ≠ none → k1 = k2)) := by
  refine ⟨rfl, ?_, ?_⟩
  · intro key fec hk
    exact ⟨step_mono lib _ _ (Step.enc cache data codec) key fec hk,
      step_mono lib _ _ (Step.dec cache data codec) key fec hk⟩
  · intro k1 k2 h1 h2
    exact ⟨fun a b => step_one_new lib _ _ (Step.enc cache data codec) k1 k2 h1 a h2 b,
      fun a b => step_one_new lib _ _ (Step.dec cache data codec) k1 k2 h1 a h2 b⟩

/-- On a miss with a failing construction `encodeRSGF8` returns at line 47. -/
theorem encodeRSGF8_construct_fail {F : Type} (lib : Infectious F) (cache : Cache F)
    (data : List Chunk) (e : String) (hm : cacheGet cache data.length = none)
    (hf : lib.NewFEC data.length (data.length * 2) = Except.error e) :
    encodeRSGF8 lib cache data
      = ⟨some (none, some e), cache, [Call.newFEC data.length (data.length * 2)]⟩ := by
  unfold encodeRSGF8
  rw [hm]
  simp only [hf]

/-- On a miss with a failing construction `decodeRSGF8` returns at line 86. -/
theorem decodeRSGF8_construct_fail {F : Type} (lib : Infectious F) (cache : Cache F)
    (data : List Chunk) (e : String) (hm : cacheGet cache (data.length / 2) = none)
    (hf : lib.NewFEC (data.length / 2) data.length = Except.error e) :
    decodeRSGF8 lib cache data
      = ⟨some (none, some e), cache, [Call.newFEC (data.length / 2) data.length]⟩ := by
  unfold decodeRSGF8
  rw [hm]
  simp only [hf]

/-- C8: when the cache has no engine for the key and the construction fails with `e`,
`encode` (and likewise `decode`) returns a nil result with `e`, makes no library call
other than the construction, and leaves the cache as it was. -/
theorem construction_failure_atomic {F : Type} (lib : Infectious F) (cache : Cache F)
    (data : List Chunk) (e : String) :
    (cacheGet cache data.length = none →
      lib.NewFEC data.length (data.length * 2) = Except.error e →
      encode lib cache data RSGF8
        = ⟨some (none, some e), cache, [Call.newFEC data.length (data.length * 2)]⟩) ∧
    (cacheGet cache (data.length / 2) = none →
      lib.NewFEC (data.length / 2) data.length = Except.error e →
      decode lib cache data RSGF8
        = ⟨some (none, some e), cache, [Call.newFEC (data.length / 2) data.length]⟩) := by
  constructor
  · intro hm hf
    rw [encode_RSGF8]
    exact encodeRSGF8_construct_fail lib cache data e hm hf
  · intro hm hf
    rw [decode_RSGF8]
    exact decodeRSGF8_construct_fail lib cache data e hm hf

theorem construction_failure_atomic_witness :
    encode refLib [(2, ⟨2, 4⟩)] [] RSGF8
      = ⟨some (none, some "requires 1 <= k <= n <= 256"), [(2, ⟨2, 4⟩)], [Call.newFEC 0 0]⟩ ∧
    decode refLib [(2, ⟨2, 4⟩)] [some [7]] RSGF8
      = ⟨some (none, some "requires 1 <= k <= n <= 256"), [(2, ⟨2, 4⟩)], [Call.newFEC 0 1]⟩ :=
  ⟨(construction_failure_atomic refLib [(2, ⟨2, 4⟩)] [] _).1 rfl rfl,
   (construction_failure_atomic refLib [(2, ⟨2, 4⟩)] [some [7]] _).2 rfl rfl⟩

/-- C16: from the empty cache, when the engine rejects an original count of 0,
`encode` on the empty sequence and `decode` on a sequence of length 0 or 1 return a
nil result with the construction error; the only library call is the construction
(the output closure, hence `data[0]`, is never evaluated) and the cache stays empty. -/
theorem degenerate_k {F : Type} (lib : Infectious F) (e0 e1 : String)
    (h0 : lib.NewFEC 0 0 = Except.error e0) (h1 : lib.NewFEC 0 1 = Except.error e1) :
    encode lib (init F) [] RSGF8 = ⟨some (none, some e0), [], [Call.newFEC 0 0]⟩ ∧
    decode lib (init F) [] RSGF8 = ⟨some (none, some e0), [], [Call.newFEC 0 0]⟩ ∧
    ∀ c : Chunk, decode lib (init F) [c] RSGF8 = ⟨some (none, some e1), [], [Call.newFEC 0 1]⟩ := by
  refine ⟨?_, ?_, ?_⟩
  · rw [encode_RSGF8]
    exact encodeRSGF8_construct_fail lib (init F) [] e0 rfl h0
  · rw [decode_RSGF8]
    exact decodeRSGF8_construct_fail lib (init F) [] e0 rfl h0
  · intro c
    rw [decode_RSGF8]
    have h := decodeRSGF8_construct_fail lib (init F) [c] e1 rfl (by simpa using h1)
    simpa using h

theorem degenerate_k_witness :
    encode refLib (init RefFEC) [] RSGF8
      = ⟨some (none, some "requires 1 <= k <= n <= 256"), [], [Call.newFEC 0 0]⟩ ∧
    decode refLib (init RefFEC) [] RSGF8
      = ⟨some (none, some "requires 1 <= k <= n <= 256"), [], [Call.newFEC 0 0]⟩ ∧
    ∀ c : Chunk, decode refLib (init RefFEC) [c] RSGF8
      = ⟨some (none, some "requires 1 <= k <= n <= 256"), [], [Call.newFEC 0 1]⟩ :=
  degenerate_k refLib _ _ rfl rfl

/-! ### The share list of decode -/

theorem presentFrom_eq (data : List Chunk) (j : Nat) (acc : List Share) :
    presentFrom j data acc = acc ++ (data.enumFrom j).filterMap
      (fun p => p.2.map (fun d => (⟨Int.ofNat p.1, d⟩ : Share))) := by
  induction data generalizing j acc with
  | nil => simp [presentFrom]
  | cons c rest ih =>
    cases c with
    | none => simp [presentFrom, ih]
    | some d => simp [presentFrom, ih]

theorem presentShares_eq_spec (data : List Chunk) : presentShares data = presentPairsSpec data := by
  simp [presentShares, presentPairsSpec, presentFrom_eq, List.enum]

theorem mem_presentPairsSpec (data : List Chunk) (s : Share) :
    s ∈ presentPairsSpec data ↔
      ∃ i : Nat, s.Number = Int.ofNat i ∧ data[i]? = some (some s.Data) := by
  unfold presentPairsSpec
  rw [List.mem_filterMap]
  constructor
  · rintro ⟨⟨i, c⟩, hmem, hs⟩
    rw [List.mk_mem_enum_iff_getElem?] at hmem
    cases c with
    | none => simp at hs
    | some d =>
      simp only [Option.map_some', Option.some.injEq] at hs
      subst hs
      exact ⟨i, rfl, hmem⟩
  · rintro ⟨i, hn, hd⟩
    refine ⟨(i, some s.Data), List.mk_mem_enum_iff_getElem?.2 hd, ?_⟩
    cases s
    simp_all

theorem pairwise_enumFrom_present (data : List Chunk) (j : Nat) :
    ((data.enumFrom j).filterMap
      (fun p => p.2.map (fun d => (⟨Int.ofNat p.1, d⟩ : Share)))).Pairwise
      (fun a b => a.Number < b.Number) := by
  induction data generalizing j with
  | nil => simp
  | cons c rest ih =>
    have hlow : ∀ s ∈ (rest.enumFrom (j + 1)).filterMap
        (fun p => p.2.map (fun d => (⟨Int.ofNat p.1, d⟩ : Share))), (j : Int) < s.Number := by
      intro s hs
      rw [List.mem_filterMap] at hs
      obtain ⟨⟨i, c1⟩, hmem, hs⟩ := hs
      have hle := List.le_fst_of_mem_enumFrom hmem
      cases c1 with
      | none => simp at hs
      | some d =>
        simp only [Option.map_some', Option.some.injEq] at hs
        subst hs
        simp only [Int.ofNat_eq_coe]
        simp only at hle
        omega
    cases c with
    | none => simpa [List.enumFrom_cons] using ih (j + 1)
    | some d =>
      simp only [List.enumFrom_cons, List.filterMap_cons, Option.map_some']
      rw [List.pairwise_cons]
      exact ⟨fun s hs => by simpa using hlow s hs, ih (j + 1)⟩

/-- C13: the share list that `decode` hands to the rebuild operation is the list of
the pairs (j, data[j]) of the present positions j, in ascending order of j, with the
bytes of each chunk unchanged; rebuild is called on that list whenever the engine is
resolved, and on no other list. -/
theorem decode_share_list {F : Type} (lib : Infectious F) (cache : Cache F)
    (data : List Chunk) :
    presentShares data = presentPairsSpec data ∧
    (∀ s : Share, s ∈ presentShares data ↔
      ∃ i : Nat, s.Number = Int.ofNat i ∧ data[i]? = some (some s.Data)) ∧
    (presentShares data).Pairwise (fun a b => a.Number < b.Number) ∧
    (∀ fec shares, Call.rebuild fec shares ∈ (decode lib cache data RSGF8).calls →
      shares = presentShares data) ∧
    ((∃ e, (decode lib cache data RSGF8).outcome = some (none, some e) ∧
        (decode lib cache data RSGF8).calls = [Call.newFEC (data.length / 2) data.length]) ∨
      ∃ fec, cacheGet (decode lib cache data RSGF8).cache (data.length / 2) = some fec ∧
        (decode lib cache data RSGF8).calls.getLast? = some (Call.rebuild fec (presentShares data))) := by
  refine ⟨presentShares_eq_spec data, ?_, ?_, ?_, ?_⟩
  · intro s
    rw [presentShares_eq_spec]
    exact mem_presentPairsSpec data s
  · rw [presentShares_eq_spec]
    exact pairwise_enumFrom_present data 0
  · intro fec shares h
    rw [decode_RSGF8] at h
    unfold decodeRSGF8 at h
    split at h
    · simp [decodeWith_calls] at h
      exact h.2
    · split at h
      · simp at h
      · simp [decodeWith_calls] at h
        exact h.2
  · rw [decode_RSGF8]
    unfold decodeRSGF8
    split
    · rename_i v hv
      right
      exact ⟨v, by rw [decodeWith_cache]; exact hv, by simp [decodeWith_calls]⟩
    · split
      · rename_i e he
        left
        exact ⟨e, rfl, rfl⟩
      · rename_i fec hok
        right
        refine ⟨fec, ?_, by simp [decodeWith_calls]⟩
        rw [decodeWith_cache, cacheGet_cacheSet]
        simp

/-! ### The output closure of encode -/

theorem feed_append {σ : Type} (f : σ → Share → Option σ) (st : σ) (a b : List Share) :
    feed f st (a ++ b) = (feed f st a).bind (fun st1 => feed f st1 b) := by
  induction a generalizing st with
  | nil => simp [feed]
  | cons s rest ih =>
    simp only [List.cons_append, feed]
    cases f st s with
    | none => simp
    | some st1 => simpa using ih st1

theorem copyBytes_length (dst src : List Byte) : (copyBytes dst src).length = dst.length := by
  simp only [copyBytes, List.length_append, List.length_take, List.length_drop]
  omega

theorem copyBytes_same_length (dst src : List Byte) (h : src.length = dst.length) :
    copyBytes dst src = src := by
  simp [copyBytes, ← h]

theorem copyBytes_zero (n : Nat) (src : List Byte) :
    copyBytes (List.replicate n 0) src = src.take n ++ List.replicate (n - src.length) 0 := by
  simp [copyBytes]

/-- A share below `len(data)` is discarded by the closure. -/
theorem encodeOutput_low (data shares : List Chunk) (s : Share)
    (h : s.Number < (data.length : Int)) : encodeOutput data shares s = some shares := by
  unfold encodeOutput
  rw [if_neg (by omega)]

/-- A share at position `p` with `k <= p < 2k` is copied to index `p - k`. -/
theorem encodeOutput_high (d0 : Chunk) (rest shares : List Chunk) (s : Share)
    (hlen : shares.length = (d0 :: rest).length)
    (hlo : ((d0 :: rest).length : Int) ≤ s.Number)
    (hhi : s.Number < 2 * ((d0 :: rest).length : Int)) :
    encodeOutput (d0 :: rest) shares s
      = some (shares.set (s.Number - ((d0 :: rest).length : Int)).toNat
          (some (copyBytes (List.replicate d0.len 0) s.Data))) := by
  unfold encodeOutput
  rw [if_pos hlo]
  simp only [setAt]
  rw [if_pos]
  constructor
  · omega
  · rw [hlen]; omega

/-- Over shares with positions below `2k` the closure never fails, keeps the length of
the result slice, and leaves alone every index whose position is not emitted. -/
theorem feed_encodeOutput (d0 : Chunk) (rest : List Chunk) (emits : List Share)
    (shares : List Chunk) (hlen : shares.length = (d0 :: rest).length)
    (hpos : ∀ s ∈ emits, s.Number < 2 * ((d0 :: rest).length : Int)) :
    ∃ r, feed (encodeOutput (d0 :: rest)) shares emits = some r ∧ r.length = shares.length ∧
      ∀ i : Nat, (∀ s ∈ emits, s.Number ≠ ((d0 :: rest).length : Int) + i) → r[i]? = shares[i]? := by
  induction emits generalizing shares with
  | nil => exact ⟨shares, rfl, rfl, fun _ _ => rfl⟩
  | cons s more ih =>
    have hs := hpos s (List.mem_cons_self _ _)
    have hmore : ∀ t ∈ more, t.Number < 2 * ((d0 :: rest).length : Int) :=
      fun t ht => hpos t (List.mem_cons_of_mem _ ht)
    by_cases hlo : ((d0 :: rest).length : Int) ≤ s.Number
    · obtain ⟨r, hr, hrl, hri⟩ := ih (shares.set (s.Number - ((d0 :: rest).length : Int)).toNat
        (some (copyBytes (List.replicate d0.len 0) s.Data))) (by simpa using hlen) hmore
      refine ⟨r, ?_, by simpa using hrl, ?_⟩
      · simp only [feed, encodeOutput_high d0 rest shares s hlen hlo hs]
        exact hr
      · intro i hi
        rw [hri i (fun t ht => hi t (List.mem_cons_of_mem _ ht))]
        have hne := hi s (List.mem_cons_self _ _)
        rw [List.getElem?_set_ne]
        omega
    · obtain ⟨r, hr, hrl, hri⟩ := ih shares hlen hmore
      refine ⟨r, ?_, hrl, fun i hi => hri i (fun t ht => hi t (List.mem_cons_of_mem _ ht))⟩
      simp only [feed, encodeOutput_low (d0 :: rest) shares s (by omega)]
      exact hr

/-- The outcome of `encodeWith` is the fold of the closure over the emitted shares. -/
theorem encodeWith_outcome {F : Type} (lib : Infectious F) (fec : F) (cache : Cache F)
    (calls : List (Call F)) (data : List Chunk) :
    (encodeWith lib fec cache calls data).outcome
      = (feed (encodeOutput data) (List.replicate data.length none)
          (lib.Encode fec (flattenChunks data)).1).map
          (fun r => (some r, (lib.Encode fec (flattenChunks data)).2)) := by
  simp only [encodeWith]
  split <;> rename_i h <;> simp [h]

/-- An index whose position is emitted holds, at the end, the copy of one of the
shares emitted at that position. -/
theorem feed_encodeOutput_hit (d0 : Chunk) (rest : List Chunk) (emits : List Share)
    (shares : List Chunk) (hlen : shares.length = (d0 :: rest).length)
    (hpos : ∀ s ∈ emits, s.Number < 2 * ((d0 :: rest).length : Int))
    (i : Nat) (hi : i < (d0 :: rest).length)
    (hex : ∃ s ∈ emits, s.Number = ((d0 :: rest).length : Int) + i) :
    ∃ r, feed (encodeOutput (d0 :: rest)) shares emits = some r ∧
      ∃ s ∈ emits, s.Number = ((d0 :: rest).length : Int) + i ∧
        r[i]? = some (some (copyBytes (List.replicate d0.len 0) s.Data)) := by
  induction emits generalizing shares with
  | nil => simp at hex
  | cons s more ih =>
    have hs := hpos s (List.mem_cons_self _ _)
    have hmore : ∀ t ∈ more, t.Number < 2 * ((d0 :: rest).length : Int) :=
      fun t ht => hpos t (List.mem_cons_of_mem _ ht)
    by_cases hlater : ∃ t ∈ more, t.Number = ((d0 :: rest).length : Int) + i
    · by_cases hlo : ((d0 :: rest).length : Int) ≤ s.Number
      · obtain ⟨r, hr, t, ht, htn, hti⟩ :=
          ih (shares.set (s.Number - ((d0 :: rest).length : Int)).toNat
            (some (copyBytes (List.replicate d0.len 0) s.Data))) (by simpa using hlen) hmore hlater
        refine ⟨r, ?_, t, List.mem_cons_of_mem _ ht, htn, hti⟩
        simp only [feed, encodeOutput_high d0 rest shares s hlen hlo hs]
        exact hr
      · obtain ⟨r, hr, t, ht, htn, hti⟩ := ih shares hlen hmore hlater
        refine ⟨r, ?_, t, List.mem_cons_of_mem _ ht, htn, hti⟩
        simp only [feed, encodeOutput_low (d0 :: rest) shares s (by omega)]
        exact hr
    · have hsn : s.Number = ((d0 :: rest).length : Int) + i := by
        obtain ⟨t, ht, htn⟩ := hex
        rcases List.mem_cons.1 ht with h | h
        · rw [← h]; exact htn
        · exact absurd ⟨t, h, htn⟩ hlater
      have hlo : ((d0 :: rest).length : Int) ≤ s.Number := by omega
      obtain ⟨r, hr, _, hri⟩ := feed_encodeOutput d0 rest more
        (shares.set (s.Number - ((d0 :: rest).length : Int)).toNat
          (some (copyBytes (List.replicate d0.len 0) s.Data))) (by simpa using hlen) hmore
      refine ⟨r, ?_, s, List.mem_cons_self _ _, hsn, ?_⟩
      · simp only [feed, encodeOutput_high d0 rest shares s hlen hlo hs]
        exact hr
      · rw [hri i (fun t ht htn => hlater ⟨t, ht, htn⟩)]
        have hidx : (s.Number - ((d0 :: rest).length : Int)).toNat = i := by omega
        rw [hidx, List.getElem?_set_self (by rw [hlen]; exact hi)]

/-- C14: for k >= 1 chunks of length L and shares emitted at positions 0..2k-1, the
closure of `encode` discards every share of position below k and stores, for a share
of position p >= k, at index p - k a fresh buffer of L bytes holding the emitted
bytes (the emitted bytes themselves when the share has L bytes); an entry stored for
a position is not changed by the shares emitted later at other positions, so that at
the end index p - k holds the copy of the last share emitted at p, and the outcome of
the encode run is this result with the error of the engine. -/
theorem parity_retention (data : List Chunk) (L : Nat) (emits : List Share)
    (hk : 1 ≤ data.length) (hL : ∀ c ∈ data, c.len = L)
    (hpos : ∀ s ∈ emits, 0 ≤ s.Number ∧ s.Number < 2 * (data.length : Int)) :
    (∀ shares s, s.Number < (data.length : Int) → encodeOutput data shares s = some shares) ∧
    (∀ shares s, shares.length = data.length → (data.length : Int) ≤ s.Number →
      s.Number < 2 * (data.length : Int) →
      encodeOutput data shares s
        = some (shares.set (s.Number - (data.length : Int)).toNat
            (some (copyBytes (List.replicate L 0) s.Data))) ∧
      (copyBytes (List.replicate L 0) s.Data).length = L ∧
      (s.Data.length = L → copyBytes (List.replicate L 0) s.Data = s.Data)) ∧
    ∃ r, feed (encodeOutput data) (List.replicate data.length none) emits = some r ∧
      r.length = data.length ∧
      (∀ pre s post, emits = pre ++ s :: post → (data.length : Int) ≤ s.Number →
        (∀ t ∈ post, t.Number ≠ s.Number) →
        r[(s.Number - (data.length : Int)).toNat]?
          = some (some (copyBytes (List.replicate L 0) s.Data))) ∧
      (∀ i : Nat, i < data.length → (∀ s ∈ emits, s.Number ≠ (data.length : Int) + i) →
        r[i]? = some none) ∧
      (∀ (F : Type) (lib : Infectious F) (fec : F) (cache : Cache F) (calls : List (Call F)),
        (lib.Encode fec (flattenChunks data)).1 = emits →
        (encodeWith lib fec cache calls data).outcome
          = some (some r, (lib.Encode fec (flattenChunks data)).2)) := by
  obtain ⟨d0, rest, rfl⟩ : ∃ d0 rest, data = d0 :: rest := by
    cases data with
    | nil => simp at hk
    | cons d0 rest => exact ⟨d0, rest, rfl⟩
  have hd0 : d0.len = L := hL d0 (List.mem_cons_self _ _)
  have hup : ∀ s ∈ emits, s.Number < 2 * ((d0 :: rest).length : Int) := fun s hs => (hpos s hs).2
  refine ⟨fun shares s h => encodeOutput_low _ shares s h, ?_, ?_⟩
  · intro shares s hlen hlo hhi
    refine ⟨?_, ?_, ?_⟩
    · rw [← hd0]; exact encodeOutput_high d0 rest shares s hlen hlo hhi
    · simp [copyBytes_length]
    · intro h; exact copyBytes_same_length _ _ (by simpa using h)
  · obtain ⟨r, hr, hrl, hri⟩ := feed_encodeOutput d0 rest emits
      (List.replicate (d0 :: rest).length none) (by simp) hup
    refine ⟨r, hr, by simpa using hrl, ?_, ?_, ?_⟩
    · intro pre s post hsplit hlo hpost
      subst hsplit
      have hs : s.Number < 2 * ((d0 :: rest).length : Int) := hup s (by simp)
      obtain ⟨r1, hr1, hr1l, _⟩ := feed_encodeOutput d0 rest pre
        (List.replicate (d0 :: rest).length none) (by simp)
        (fun t ht => hup t (by simp [ht]))
      have hr1len : r1.length = (d0 :: rest).length := by simpa using hr1l
      obtain ⟨r2, hr2, _, hr2i⟩ := feed_encodeOutput d0 rest post
        (r1.set (s.Number - ((d0 :: rest).length : Int)).toNat
          (some (copyBytes (List.replicate d0.len 0) s.Data))) (by simpa using hr1len)
        (fun t ht => hup t (by simp [ht]))
      have hcomp : feed (encodeOutput (d0 :: rest)) (List.replicate (d0 :: rest).length none)
          (pre ++ s :: post) = some r2 := by
        rw [feed_append, hr1]
        simp only [Option.some_bind, feed, encodeOutput_high d0 rest r1 s hr1len hlo hs]
        exact hr2
      have hrr : r = r2 := by
        rw [hr] at hcomp
        exact Option.some.inj hcomp
      rw [hrr, hr2i _ (fun t ht => by have := hpost t ht; omega), ← hd0]
      rw [List.getElem?_set_self (by rw [hr1len]; omega)]
    · intro i hi hnone
      rw [hri i hnone]
      have hi1 : i < rest.length + 1 := by simpa using hi
      simp [List.getElem?_replicate, hi1]
    · intro F lib fec cache calls hem
      rw [encodeWith_outcome, hem, hr]
      rfl

theorem parity_retention_witness :
    ∃ r, feed (encodeOutput [some [1, 2, 3, 4], some [5, 6, 7, 8]]) (List.replicate 2 none)
        [⟨0, [1, 2, 3, 4]⟩, ⟨1, [5, 6, 7, 8]⟩, ⟨2, [9, 10, 11, 28]⟩, ⟨3, [13, 14, 15, 16]⟩]
        = some r ∧ r.length = 2 :=
  let h := (parity_retention [some [1, 2, 3, 4], some [5, 6, 7, 8]] 4
    [⟨0, [1, 2, 3, 4]⟩, ⟨1, [5, 6, 7, 8]⟩, ⟨2, [9, 10, 11, 28]⟩, ⟨3, [13, 14, 15, 16]⟩]
    (by decide) (by decide) (by decide)).2.2
  ⟨h.choose, h.choose_spec.1, h.choose_spec.2.1⟩

/-! ### Well-formedness of the cache -/

/-- Every entry of a reachable cache was built for its key: with total `2n`, or with
total `2n + 1` by a `decode` call on an input of odd length. -/
theorem reach_built {F : Type} (lib : Infectious F) (c : Cache F)
    (h : Reach lib (init F) c) (key : Nat) (fec : F) (hk : cacheGet c key = some fec) :
    lib.NewFEC key (2 * key) = Except.ok fec ∨ lib.NewFEC key (2 * key + 1) = Except.ok fec := by
  generalize hc0 : init F = c0 at h
  induction h generalizing key fec with
  | refl =>
    subst hc0
    simp [init, cacheGet] at hk
  | tail c1 c2 _ hs ih =>
    rcases step_cache lib c1 c2 hs with h1 | ⟨k, f, n, _, hok, hn, h1⟩
    · rw [h1] at hk; exact ih key fec hk
    · rw [h1, cacheGet_cacheSet] at hk
      by_cases hkk : key = k
      · subst hkk
        simp only [if_true, Option.some.injEq] at hk
        subst hk
        rcases hn with hn | hn <;> subst hn
        · exact Or.inl hok
        · exact Or.inr hok
      · simp only [hkk, if_false] at hk
        exact ih key fec hk

/-- With `decode` inputs of even length only, every call inserts an engine built for `(n, 2n)`. -/
theorem stepEven_cache {F : Type} (lib : Infectious F) (c c1 : Cache F) (h : StepEven lib c c1) :
    c1 = c ∨ ∃ key fec, cacheGet c key = none ∧ lib.NewFEC key (2 * key) = Except.ok fec ∧
      c1 = cacheSet c key fec := by
  cases h with
  | enc data codec =>
    by_cases hc : codec = RSGF8
    · subst hc
      rw [encode_RSGF8]
      rcases encodeRSGF8_cache lib c data with h | ⟨hm, fec, hok, hc1⟩
      · exact Or.inl h
      · refine Or.inr ⟨_, fec, hm, ?_, hc1⟩
        rw [Nat.mul_comm]; exact hok
    · left; simp [encode, hc]
  | dec data codec heven =>
    by_cases hc : codec = RSGF8
    · subst hc
      rw [decode_RSGF8]
      rcases decodeRSGF8_cache lib c data with h | ⟨hm, fec, hok, hc1⟩
      · exact Or.inl h
      · refine Or.inr ⟨_, fec, hm, ?_, hc1⟩
        have : 2 * (data.length / 2) = data.length := by omega
        rw [this]; exact hok
    · left; simp [decode, hc]

theorem stepEven_configured {F : Type} (lib : Infectious F) (c c1 : Cache F)
    (hs : StepEven lib c c1) (hc : CacheConfigured lib c) : CacheConfigured lib c1 := by
  intro key fec hk
  rcases stepEven_cache lib c c1 hs with h1 | ⟨k, f, _, hok, h1⟩
  · rw [h1] at hk; exact hc key fec hk
  · rw [h1, cacheGet_cacheSet] at hk
    by_cases hkk : key = k
    · subst hkk
      simp only [if_true, Option.some.injEq] at hk
      subst hk
      exact hok
    · simp only [hkk, if_false] at hk
      exact hc key fec hk

theorem reachEven_configured {F : Type} (lib : Infectious F) (c c1 : Cache F)
    (h : ReachEven lib c c1) (hc : CacheConfigured lib c) : CacheConfigured lib c1 := by
  induction h with
  | refl => exact hc
  | tail c1 c2 _ hs ih => exact stepEven_configured lib c1 c2 hs ih

/-- C17, amended: in every cache state reachable from the empty cache by calls of
`encode` and `decode` on arbitrary inputs, the entry under a key n is the engine
constructed for (n, 2n) or for (n, 2n + 1); it is the engine constructed for
(n, 2n) when every `decode` input had even length, and also when the constructor
rejects every total other than twice the original count. -/
theorem cache_entries_built_for_key {F : Type} (lib : Infectious F) (c : Cache F)
    (h : Reach lib (init F) c) :
    (∀ key fec, cacheGet c key = some fec →
      lib.NewFEC key (2 * key) = Except.ok fec ∨ lib.NewFEC key (2 * key + 1) = Except.ok fec) ∧
    (ReachEven lib (init F) c → CacheConfigured lib c) ∧
    ((∀ k n, n ≠ 2 * k → ∃ e, lib.NewFEC k n = Except.error e) → CacheConfigured lib c) := by
  refine ⟨fun key fec hk => reach_built lib c h key fec hk, ?_, ?_⟩
  · intro he
    exact reachEven_configured lib _ c he (fun key fec hk => by simp [init, cacheGet] at hk)
  · intro hrej key fec hk
    rcases reach_built lib c h key fec hk with h1 | h1
    · exact h1
    · obtain ⟨e, he⟩ := hrej key (2 * key + 1) (by omega)
      rw [he] at h1
      cases h1

theorem cache_entries_built_for_key_witness :
    Reach refLib (init RefFEC) [(1, ⟨1, 3⟩)] ∧
    (∀ key fec, cacheGet [(1, (⟨1, 3⟩ : RefFEC))] key = some fec →
      refLib.NewFEC key (2 * key) = Except.ok fec ∨
      refLib.NewFEC key (2 * key + 1) = Except.ok fec) :=
  have hr : Reach refLib (init RefFEC) [(1, ⟨1, 3⟩)] :=
    Reach.tail _ _ _ (Reach.refl _) (Step.dec (init RefFEC) [some [1], none, none] RSGF8)
  ⟨hr, (cache_entries_built_for_key refLib _ hr).1⟩

/-- C17 fails as stated: one `decode` call on three positions, from the empty cache,
stores under the key 1 the engine constructed for (1, 3), which is not the engine
constructed for (1, 2); a later `encode` of one chunk takes that engine from the
cache and stops in an index-out-of-range error at the share of position 2. -/
theorem cache_wellformed_counterexample :
    Reach refLib (init RefFEC) (decode refLib (init RefFEC) [some [1], none, none] RSGF8).cache ∧
    cacheGet (decode refLib (init RefFEC) [some [1], none, none] RSGF8).cache 1
      = some ⟨1, 3⟩ ∧
    (decode refLib (init RefFEC) [some [1], none, none] RSGF8).calls.head?
      = some (Call.newFEC 1 3) ∧
    refLib.NewFEC 1 (2 * 1) = Except.ok ⟨1, 2⟩ ∧
    refLib.NewFEC 1 (2 * 1) ≠ Except.ok ⟨1, 3⟩ ∧
    (encode refLib (decode refLib (init RefFEC) [some [1], none, none] RSGF8).cache
      [some [1]] RSGF8).outcome = none :=
  ⟨Reach.tail _ _ _ (Reach.refl _) (Step.dec (init RefFEC) [some [1], none, none] RSGF8),
   by decide, by decide, rfl, by simp [refLib, refNewFEC], by decide⟩

/-! ### Index safety -/

/-- How `encodeRSGF8` resolves its engine: the construction fails on a miss, or the
rest of the function runs with the cached engine, or with the new one, stored. -/
theorem encodeRSGF8_resolved {F : Type} (lib : Infectious F) (cache : Cache F)
    (data : List Chunk) :
    (∃ e, cacheGet cache data.length = none ∧
      lib.NewFEC data.length (data.length * 2) = Except.error e ∧
      encodeRSGF8 lib cache data
        = ⟨some (none, some e), cache, [Call.newFEC data.length (data.length * 2)]⟩) ∨
    (∃ fec, cacheGet cache data.length = some fec ∧
      encodeRSGF8 lib cache data = encodeWith lib fec cache [] data) ∨
    (∃ fec, cacheGet cache data.length = none ∧
      lib.NewFEC data.length (data.length * 2) = Except.ok fec ∧
      encodeRSGF8 lib cache data = encodeWith lib fec (cacheSet cache data.length fec)
        [Call.newFEC data.length (data.length * 2)] data) := by
  unfold encodeRSGF8
  split
  · rename_i v hv
    exact Or.inr (Or.inl ⟨v, hv, rfl⟩)
  · rename_i hm
    split
    · rename_i e he
      exact Or.inl ⟨e, hm, he, rfl⟩
    · rename_i fec hok
      exact Or.inr (Or.inr ⟨fec, hm, hok, rfl⟩)

/-- How `decodeRSGF8` resolves its engine. -/
theorem decodeRSGF8_resolved {F : Type} (lib : Infectious F) (cache : Cache F)
    (data : List Chunk) :
    (∃ e, cacheGet cache (data.length / 2) = none ∧
      lib.NewFEC (data.length / 2) data.length = Except.error e ∧
      decodeRSGF8 lib cache data
        = ⟨some (none, some e), cache, [Call.newFEC (data.length / 2) data.length]⟩) ∨
    (∃ fec, cacheGet cache (data.length / 2) = some fec ∧
      decodeRSGF8 lib cache data = decodeWith lib fec cache [] data) ∨
    (∃ fec, cacheGet cache (data.length / 2) = none ∧
      lib.NewFEC (data.length / 2) data.length = Except.ok fec ∧
      decodeRSGF8 lib cache data = decodeWith lib fec (cacheSet cache (data.length / 2) fec)
        [Call.newFEC (data.length / 2) data.length] data) := by
  unfold decodeRSGF8
  split
  · rename_i v hv
    exact Or.inr (Or.inl ⟨v, hv, rfl⟩)
  · rename_i hm
    split
    · rename_i e he
      exact Or.inl ⟨e, hm, he, rfl⟩
    · rename_i fec hok
      exact Or.inr (Or.inr ⟨fec, hm, hok, rfl⟩)

/-- Over shares with positions in `0..len-1` the closure of decode never fails and
keeps the length of the result slice. -/
theorem feed_decodeOutput (emits : List Share) (rebuilt : List Chunk)
    (hpos : ∀ s ∈ emits, 0 ≤ s.Number ∧ s.Number < (rebuilt.length : Int)) :
    ∃ r, feed decodeOutput rebuilt emits = some r ∧ r.length = rebuilt.length := by
  induction emits generalizing rebuilt with
  | nil => exact ⟨rebuilt, rfl, rfl⟩
  | cons s more ih =>
    have hs := hpos s (List.mem_cons_self _ _)
    obtain ⟨r, hr, hrl⟩ := ih (rebuilt.set s.Number.toNat s.deepCopyData)
      (fun t ht => by simpa using hpos t (List.mem_cons_of_mem _ ht))
    refine ⟨r, ?_, by simpa using hrl⟩
    simp only [feed, decodeOutput, setAt, if_pos hs]
    exact hr

/-- The outcome of `decodeWith` is the fold of the closure over the emitted shares. -/
theorem decodeWith_outcome {F : Type} (lib : Infectious F) (fec : F) (cache : Cache F)
    (calls : List (Call F)) (data : List Chunk) :
    (decodeWith lib fec cache calls data).outcome
      = (feed decodeOutput (List.replicate (data.length / 2) none)
          (lib.Rebuild fec (presentShares data)).1).map
          (fun r => (some r, (lib.Rebuild fec (presentShares data)).2)) := by
  simp only [decodeWith]
  split <;> rename_i h <;> simp [h]

theorem encodeWith_safe {F : Type} (lib : Infectious F) (fec : F) (cache : Cache F)
    (calls : List (Call F)) (data : List Chunk)
    (hin : ∀ s ∈ (lib.Encode fec (flattenChunks data)).1,
      0 ≤ s.Number ∧ s.Number < 2 * (data.length : Int)) :
    (encodeWith lib fec cache calls data).outcome ≠ none := by
  rw [encodeWith_outcome]
  cases data with
  | nil =>
    have hnil : (lib.Encode fec (flattenChunks [])).1 = [] := by
      cases hl : (lib.Encode fec (flattenChunks [])).1 with
      | nil => rfl
      | cons s more =>
        have := hin s (by rw [hl]; exact List.mem_cons_self _ _)
        simp at this
        omega
    simp [hnil, feed]
  | cons d0 rest =>
    obtain ⟨r, hr, _⟩ := feed_encodeOutput d0 rest _ (List.replicate (d0 :: rest).length none)
      (by simp) (fun s hs => (hin s hs).2)
    rw [hr]
    simp

theorem decodeWith_safe {F : Type} (lib : Infectious F) (fec : F) (cache : Cache F)
    (calls : List (Call F)) (data : List Chunk)
    (hin : ∀ s ∈ (lib.Rebuild fec (presentShares data)).1,
      0 ≤ s.Number ∧ s.Number < ((data.length / 2 : Nat) : Int)) :
    (decodeWith lib fec cache calls data).outcome ≠ none := by
  rw [decodeWith_outcome]
  obtain ⟨r, hr, _⟩ := feed_decodeOutput _ (List.replicate (data.length / 2) none)
    (by simpa using hin)
  rw [hr]
  simp

/-- The engine that an `encode` run calls was constructed for `(k, 2k)`, `k = len(data)`,
when the cache entries are. -/
theorem encode_call_configured {F : Type} (lib : Infectious F) (cache : Cache F)
    (h1 : CacheConfigured lib cache) (data : List Chunk) (fec : F) (input : List Byte)
    (hc : Call.encode fec input ∈ (encodeRSGF8 lib cache data).calls) :
    input = flattenChunks data ∧ lib.NewFEC data.length (2 * data.length) = Except.ok fec := by
  rcases encodeRSGF8_resolved lib cache data with ⟨e, _, _, h⟩ | ⟨f, hf, h⟩ | ⟨f, _, hok, h⟩
  · rw [h] at hc; simp at hc
  · rw [h, encodeWith_calls] at hc
    simp at hc
    obtain ⟨rfl, rfl⟩ := hc
    exact ⟨rfl, h1 _ _ hf⟩
  · rw [h, encodeWith_calls] at hc
    simp at hc
    obtain ⟨rfl, rfl⟩ := hc
    exact ⟨rfl, by rw [Nat.mul_comm]; exact hok⟩

/-- The engine that a `decode` run calls was constructed for `k = len(data)/2`
originals, when the cache entries are constructed for their keys: out of `2k`, or out
of `len(data)` by this run. -/
theorem decode_call_configured {F : Type} (lib : Infectious F) (cache : Cache F)
    (h1 : CacheConfigured lib cache) (data : List Chunk)
    (fec : F) (shares : List Share)
    (hc : Call.rebuild fec shares ∈ (decodeRSGF8 lib cache data).calls) :
    shares = presentShares data ∧
      ∃ n, lib.NewFEC (data.length / 2) n = Except.ok fec := by
  rcases decodeRSGF8_resolved lib cache data with ⟨e, _, _, h⟩ | ⟨f, hf, h⟩ | ⟨f, hm, hok, h⟩
  · rw [h] at hc; simp at hc
  · rw [h, decodeWith_calls] at hc
    simp at hc
    obtain ⟨rfl, rfl⟩ := hc
    exact ⟨rfl, _, h1 _ _ hf⟩
  · rw [h, decodeWith_calls] at hc
    simp at hc
    obtain ⟨rfl, rfl⟩ := hc
    exact ⟨rfl, _, hok⟩

/-! ### The reference engine stays in range -/

theorem refNewFEC_ok (k n : Nat) (fec : RefFEC) (h : refNewFEC k n = Except.ok fec) :
    fec = ⟨k, n⟩ ∧ 1 ≤ k ∧ k ≤ n ∧ n ≤ 256 := by
  unfold refNewFEC at h
  split at h
  · rename_i hc
    cases h
    exact ⟨rfl, hc⟩
  · cases h

theorem refEncode_range (fec : RefFEC) (hkn : fec.k ≤ fec.n) (input : List Byte) :
    ∀ s ∈ (refEncode fec input).1, 0 ≤ s.Number ∧ s.Number < (fec.n : Int) := by
  intro s hs
  unfold refEncode at hs
  split at hs
  · simp at hs
  · simp only [refOriginals, List.mem_append, List.mem_map, List.mem_range] at hs
    rcases hs with ⟨i, hi, rfl⟩ | ⟨i, hi, rfl⟩
    · simp only [Int.ofNat_eq_coe]
      omega
    · simp only [Int.ofNat_eq_coe]
      omega

theorem refRebuild_range (fec : RefFEC) (shares : List Share) :
    ∀ s ∈ (refRebuild fec shares).1, 0 ≤ s.Number ∧ s.Number < (fec.k : Int) := by
  intro s hs
  by_cases h1 : shares.length < fec.k
  · simp [refRebuild, h1] at hs
  · by_cases h2 : ((shares.take fec.k).any
        (fun s => decide (s.Number < 0 ∨ (fec.n : Int) ≤ s.Number))) = true
    · simp only [refRebuild, h1, h2, if_false, if_true] at hs
      simp at hs
    · simp only [refRebuild, h1, h2, if_false, List.mem_append, List.mem_filter, List.mem_map,
        List.mem_range, decide_eq_true_eq, Bool.false_eq_true] at hs
      rcases hs with ⟨hmem, hlt⟩ | ⟨i, ⟨hi, _⟩, rfl⟩
      · refine ⟨?_, hlt⟩
        simp only [List.any_eq_true, decide_eq_true_eq, not_exists, not_and, not_or] at h2
        have := (h2 s hmem).1
        omega
      · simp only [Int.ofNat_eq_coe]
        omega

theorem refLib_emitsInRange : EmitsInRange refLib := by
  intro k n fec hok
  obtain ⟨rfl, _, hkn, _⟩ := refNewFEC_ok k n fec hok
  exact ⟨fun input s hs => refEncode_range ⟨k, n⟩ hkn input s hs,
    fun shares s hs => refRebuild_range ⟨k, n⟩ shares s hs⟩

/-- C18: when every cache entry under a key n is the engine constructed for (n, 2n),
and the engines emit only the positions of their configuration (an engine for (n, 2n)
only 0..2n-1 from encode and only 0..n-1 from rebuild), `encode` and `decode` never
index out of range, on any input: `data[0]` is read only when k >= 1, every write
`shares[p - k]` has 0 <= p - k < k, and every write `rebuiltShares[p]` has
0 <= p < len(data)/2. -/
theorem index_safety {F : Type} (lib : Infectious F) (cache : Cache F)
    (h1 : CacheConfigured lib cache) (h2 : EmitsInRange lib) :
    (∀ data codec, (encode lib cache data codec).outcome ≠ none) ∧
    (∀ data codec, (decode lib cache data codec).outcome ≠ none) ∧
    (∀ data fec input, Call.encode fec input ∈ (encode lib cache data RSGF8).calls →
      ∀ s ∈ (lib.Encode fec input).1, (data.length : Int) ≤ s.Number →
        1 ≤ data.length ∧ 0 ≤ s.Number - (data.length : Int) ∧
          s.Number - (data.length : Int) < (data.length : Int)) ∧
    (∀ data fec shares, Call.rebuild fec shares ∈ (decode lib cache data RSGF8).calls →
      ∀ s ∈ (lib.Rebuild fec shares).1,
        0 ≤ s.Number ∧ s.Number < ((data.length / 2 : Nat) : Int)) := by
  have henc : ∀ data fec input, Call.encode fec input ∈ (encodeRSGF8 lib cache data).calls →
      ∀ s ∈ (lib.Encode fec input).1, 0 ≤ s.Number ∧ s.Number < 2 * (data.length : Int) := by
    intro data fec input hc s hs
    obtain ⟨_, hok⟩ := encode_call_configured lib cache h1 data fec input hc
    have := (h2 _ _ fec hok).1 input s hs
    push_cast at this
    exact this
  have hdec : ∀ data fec shares,
      Call.rebuild fec shares ∈ (decodeRSGF8 lib cache data).calls →
      ∀ s ∈ (lib.Rebuild fec shares).1,
        0 ≤ s.Number ∧ s.Number < ((data.length / 2 : Nat) : Int) := by
    intro data fec shares hc s hs
    obtain ⟨_, n, hok⟩ := decode_call_configured lib cache h1 data fec shares hc
    exact (h2 _ n fec hok).2 shares s hs
  refine ⟨?_, ?_, ?_, ?_⟩
  · intro data codec
    by_cases hcd : codec = RSGF8
    · subst hcd
      rw [encode_RSGF8]
      rcases encodeRSGF8_resolved lib cache data with ⟨e, _, _, h⟩ | ⟨f, hf, h⟩ | ⟨f, _, hok, h⟩
      · rw [h]; simp
      · rw [h]
        exact encodeWith_safe lib f cache [] data
          (henc data f _ (by rw [h, encodeWith_calls]; simp))
      · rw [h]
        exact encodeWith_safe lib f _ _ data
          (henc data f _ (by rw [h, encodeWith_calls]; simp))
    · simp [encode, hcd]
  · intro data codec
    by_cases hcd : codec = RSGF8
    · subst hcd
      rw [decode_RSGF8]
      rcases decodeRSGF8_resolved lib cache data with ⟨e, _, _, h⟩ | ⟨f, hf, h⟩ | ⟨f, _, hok, h⟩
      · rw [h]; simp
      · rw [h]
        exact decodeWith_safe lib f cache [] data
          (hdec data f _ (by rw [h, decodeWith_calls]; simp))
      · rw [h]
        exact decodeWith_safe lib f _ _ data
          (hdec data f _ (by rw [h, decodeWith_calls]; simp))
    · simp [decode, hcd]
  · intro data fec input hc s hs hlo
    rw [encode_RSGF8] at hc
    have := henc data fec input hc s hs
    omega
  · intro data fec shares hc s hs
    rw [decode_RSGF8] at hc
    exact hdec data fec shares hc s hs

theorem index_safety_witness :
    (encode refLib [(2, ⟨2, 4⟩)] [some [1, 2, 3, 4], some [5, 6, 7, 8]] RSGF8).outcome ≠ none ∧
    (decode refLib [(2, ⟨2, 4⟩)] [none, some [5, 6, 7, 8], some [9, 10, 11, 28], none]
      RSGF8).outcome ≠ none ∧
    (decode refLib [(2, ⟨2, 4⟩)] [some [1], none, none] RSGF8).outcome ≠ none :=
  have hc : CacheConfigured refLib [(2, ⟨2, 4⟩)] := by
    intro key fec hk
    simp only [cacheGet, List.lookup] at hk
    split at hk
    · rename_i heq
      have hkey : key = 2 := by simpa using heq
      subst hkey
      cases hk
      rfl
    · cases hk
  ⟨(index_safety refLib [(2, ⟨2, 4⟩)] hc refLib_emitsInRange).1 _ _,
   (index_safety refLib [(2, ⟨2, 4⟩)] hc refLib_emitsInRange).2.1 _ _,
   (index_safety refLib [(2, ⟨2, 4⟩)] hc refLib_emitsInRange).2.1 _ _⟩

/-! ### Chunk sizes are not compared -/

theorem setAt_isSome {α : Type} (xs ys : List α) (i : Int) (v w : α)
    (h : xs.length = ys.length) : (setAt xs i v).isSome = (setAt ys i w).isSome := by
  unfold setAt
  rw [h]
  split <;> rfl

theorem setAt_length {α : Type} (xs ys : List α) (i : Int) (v : α)
    (h : setAt xs i v = some ys) : ys.length = xs.length := by
  unfold setAt at h
  split at h
  · cases h; simp
  · cases h

/-- Whether the closure of encode fails on a share depends on the number of chunks
only, not on their sizes. -/
theorem feed_encodeOutput_isSome (data data1 : List Chunk) (hlen : data1.length = data.length)
    (emits : List Share) (sh sh1 : List Chunk) (hsh : sh1.length = sh.length) :
    (feed (encodeOutput data1) sh1 emits).isSome = (feed (encodeOutput data) sh emits).isSome := by
  induction emits generalizing sh sh1 with
  | nil => rfl
  | cons s more ih =>
    simp only [feed]
    by_cases hlo : (data.length : Int) ≤ s.Number
    · cases data with
      | nil =>
        have : data1 = [] := List.length_eq_zero.1 (by simpa using hlen)
        subst this
        have h0 : (0 : Int) ≤ s.Number := by simpa using hlo
        simp [encodeOutput, h0]
      | cons d0 rest =>
        cases data1 with
        | nil => simp at hlen
        | cons e0 rest1 =>
          have hlo1 : ((e0 :: rest1).length : Int) ≤ s.Number := by rw [hlen]; exact hlo
          simp only [encodeOutput, if_pos hlo, if_pos hlo1]
          have hsome := setAt_isSome sh1 sh (s.Number - ((e0 :: rest1).length : Int))
            (some (copyBytes (List.replicate e0.len 0) s.Data))
            (some (copyBytes (List.replicate d0.len 0) s.Data)) hsh
          rw [hlen] at hsome ⊢
          cases h1 : setAt sh1 (s.Number - ((d0 :: rest).length : Int))
              (some (copyBytes (List.replicate e0.len 0) s.Data)) with
          | none =>
            rw [h1] at hsome
            cases h2 : setAt sh (s.Number - ((d0 :: rest).length : Int))
                (some (copyBytes (List.replicate d0.len 0) s.Data)) with
            | none => rfl
            | some t => rw [h2] at hsome; simp at hsome
          | some t1 =>
            rw [h1] at hsome
            cases h2 : setAt sh (s.Number - ((d0 :: rest).length : Int))
                (some (copyBytes (List.replicate d0.len 0) s.Data)) with
            | none => rw [h2] at hsome; simp at hsome
            | some t =>
              exact ih t t1 (by rw [setAt_length _ _ _ _ h1, setAt_length _ _ _ _ h2, hsh])
    · have hlo1 : ¬ (data1.length : Int) ≤ s.Number := by rw [hlen]; exact hlo
      simp only [encodeOutput, if_neg hlo, if_neg hlo1]
      exact ih sh sh1 hsh

theorem map_const_of_isSome {α β γ : Type} (a : Option α) (b : Option β) (c : γ)
    (h : a.isSome = b.isSome) : a.map (fun _ => c) = b.map (fun _ => c) := by
  cases a <;> cases b <;> simp_all

/-- The error of an `encodeWith` run is the error of the engine, unless the run stops. -/
theorem encodeWith_err {F : Type} (lib : Infectious F) (fec : F) (cache : Cache F)
    (calls : List (Call F)) (data : List Chunk) :
    (encodeWith lib fec cache calls data).outcome.map Prod.snd
      = (feed (encodeOutput data) (List.replicate data.length none)
          (lib.Encode fec (flattenChunks data)).1).map
          (fun _ => (lib.Encode fec (flattenChunks data)).2) := by
  rw [encodeWith_outcome]
  cases feed (encodeOutput data) (List.replicate data.length none)
    (lib.Encode fec (flattenChunks data)).1 <;> rfl

/-- Two inputs with the same number of chunks and the same concatenation get the same error. -/
theorem encodeRSGF8_err_congr {F : Type} (lib : Infectious F) (cache : Cache F)
    (data data1 : List Chunk) (hlen : data1.length = data.length)
    (hflat : flattenChunks data1 = flattenChunks data) :
    (encodeRSGF8 lib cache data1).outcome.map Prod.snd
      = (encodeRSGF8 lib cache data).outcome.map Prod.snd := by
  have hw : ∀ (fec : F) (c1 c2 : Cache F) (l1 l2 : List (Call F)),
      (encodeWith lib fec c1 l1 data1).outcome.map Prod.snd
        = (encodeWith lib fec c2 l2 data).outcome.map Prod.snd := by
    intro fec c1 c2 l1 l2
    rw [encodeWith_err, encodeWith_err, hflat]
    exact map_const_of_isSome _ _ _
      (feed_encodeOutput_isSome data data1 hlen _ _ _ (by simp [hlen]))
  unfold encodeRSGF8
  rw [hlen]
  split
  · exact hw _ _ _ _ _
  · split
    · rfl
    · exact hw _ _ _ _ _

/-- C15, amended: `encode` and `decode` never compare chunk lengths. A returned error
of `encode` is the construction error or the error of the engine on the concatenation
of the chunks, so that two inputs with the same number of chunks and the same
concatenation, whatever their chunk sizes, get the same error or none; a returned
error of `decode` is the construction error or the error of the rebuild operation on
the list of the present shares. -/
theorem chunk_sizes_not_compared {F : Type} (lib : Infectious F) (cache : Cache F)
    (data : List Chunk) :
    (∀ res e, (encode lib cache data RSGF8).outcome = some (res, e) →
      (res = none ∧ ∃ e0, e = some e0 ∧
        lib.NewFEC data.length (data.length * 2) = Except.error e0) ∨
      (∃ fec, Call.encode fec (flattenChunks data) ∈ (encode lib cache data RSGF8).calls ∧
        e = (lib.Encode fec (flattenChunks data)).2)) ∧
    (∀ data1 : List Chunk, data1.length = data.length →
      flattenChunks data1 = flattenChunks data →
      (encode lib cache data1 RSGF8).outcome.map Prod.snd
        = (encode lib cache data RSGF8).outcome.map Prod.snd) ∧
    (∀ res e, (decode lib cache data RSGF8).outcome = some (res, e) →
      (res = none ∧ ∃ e0, e = some e0 ∧
        lib.NewFEC (data.length / 2) data.length = Except.error e0) ∨
      (∃ fec, Call.rebuild fec (presentShares data) ∈ (decode lib cache data RSGF8).calls ∧
        e = (lib.Rebuild fec (presentShares data)).2)) := by
  refine ⟨?_, ?_, ?_⟩
  · intro res e h
    rw [encode_RSGF8] at h ⊢
    rcases encodeRSGF8_resolved lib cache data with ⟨e0, _, hf, h0⟩ | ⟨f, _, h0⟩ | ⟨f, _, _, h0⟩
    · rw [h0] at h
      simp only [Option.some.injEq, Prod.mk.injEq] at h
      exact Or.inl ⟨h.1.symm, e0, h.2.symm, hf⟩
    · right
      refine ⟨f, by rw [h0, encodeWith_calls]; simp, ?_⟩
      rw [h0, encodeWith_outcome] at h
      cases hfeed : feed (encodeOutput data) (List.replicate data.length none)
          (lib.Encode f (flattenChunks data)).1 with
      | none => rw [hfeed] at h; simp at h
      | some r => rw [hfeed] at h; simp at h; exact h.2.symm
    · right
      refine ⟨f, by rw [h0, encodeWith_calls]; simp, ?_⟩
      rw [h0, encodeWith_outcome] at h
      cases hfeed : feed (encodeOutput data) (List.replicate data.length none)
          (lib.Encode f (flattenChunks data)).1 with
      | none => rw [hfeed] at h; simp at h
      | some r => rw [hfeed] at h; simp at h; exact h.2.symm
  · intro data1 hlen hflat
    rw [encode_RSGF8, encode_RSGF8]
    exact encodeRSGF8_err_congr lib cache data data1 hlen hflat
  · intro res e h
    rw [decode_RSGF8] at h ⊢
    rcases decodeRSGF8_resolved lib cache data with ⟨e0, _, hf, h0⟩ | ⟨f, _, h0⟩ | ⟨f, _, _, h0⟩
    · rw [h0] at h
      simp only [Option.some.injEq, Prod.mk.injEq] at h
      exact Or.inl ⟨h.1.symm, e0, h.2.symm, hf⟩
    · right
      refine ⟨f, by rw [h0, decodeWith_calls]; simp, ?_⟩
      rw [h0, decodeWith_outcome] at h
      cases hfeed : feed decodeOutput (List.replicate (data.length / 2) none)
          (lib.Rebuild f (presentShares data)).1 with
      | none => rw [hfeed] at h; simp at h
      | some r => rw [hfeed] at h; simp at h; exact h.2.symm
    · right
      refine ⟨f, by rw [h0, decodeWith_calls]; simp, ?_⟩
      rw [h0, decodeWith_outcome] at h
      cases hfeed : feed decodeOutput (List.replicate (data.length / 2) none)
          (lib.Rebuild f (presentShares data)).1 with
      | none => rw [hfeed] at h; simp at h
      | some r => rw [hfeed] at h; simp at h; exact h.2.symm

/-- C15 fails as stated: two chunks of 4 and 2 bytes are encoded without error (the
engine sees their 6 bytes as two blocks of 3), and a decode input whose two present
chunks have 4 and 2 bytes is decoded without error. -/
theorem inconsistent_sizes_counterexample :
    Chunk.len (some [1, 2, 3, 4]) = 4 ∧ Chunk.len (some [5, 6]) = 2 ∧
    (encode refLib (init RefFEC) [some [1, 2, 3, 4], some [5, 6]] RSGF8).outcome
      = some (some [some [11, 12, 9, 0], some [14, 11, 12, 0]], none) ∧
    (encode refLib (init RefFEC) [some [1, 2, 3], some [4, 5, 6]] RSGF8).outcome
      = some (some [some [11, 12, 9], some [14, 11, 12]], none) ∧
    (decode refLib (init RefFEC) [some [1, 2, 3, 4], some [5, 6], none, none] RSGF8).outcome
      = some (some [some [1, 2, 3, 4], some [5, 6]], none) :=
  ⟨rfl, rfl, by decide, by decide, by decide⟩

/-- When the closure of decode runs through, the length is kept; an index whose
position is not emitted keeps its entry, and an index whose position is emitted holds
the data of one of the shares emitted at that position. -/
theorem feed_decodeOutput_entries (emits : List Share) (rebuilt r : List Chunk)
    (h : feed decodeOutput rebuilt emits = some r) :
    r.length = rebuilt.length ∧
    ∀ i : Nat, ((∀ s ∈ emits, s.Number ≠ (i : Int)) → r[i]? = rebuilt[i]?) ∧
      ((∃ s ∈ emits, s.Number = (i : Int)) →
        ∃ s ∈ emits, s.Number = (i : Int) ∧ r[i]? = some s.deepCopyData) := by
  induction emits generalizing rebuilt with
  | nil =>
    simp only [feed, Option.some.injEq] at h
    subst h
    exact ⟨rfl, fun i => ⟨fun _ => rfl, fun hex => by simp at hex⟩⟩
  | cons s more ih =>
    simp only [feed] at h
    cases hstep : decodeOutput rebuilt s with
    | none => rw [hstep] at h; cases h
    | some st =>
      rw [hstep] at h
      have hst : 0 ≤ s.Number ∧ s.Number < (rebuilt.length : Int) ∧
          st = rebuilt.set s.Number.toNat s.deepCopyData := by
        simp only [decodeOutput, setAt] at hstep
        split at hstep
        · rename_i hr
          exact ⟨hr.1, hr.2, (Option.some.inj hstep).symm⟩
        · cases hstep
      obtain ⟨h0, hlt, rfl⟩ := hst
      obtain ⟨hl, hent⟩ := ih _ h
      refine ⟨by simpa using hl, fun i => ⟨?_, ?_⟩⟩
      · intro hne
        rw [(hent i).1 (fun t ht => hne t (List.mem_cons_of_mem _ ht))]
        have := hne s (List.mem_cons_self _ _)
        rw [List.getElem?_set_ne]
        omega
      · intro hex
        by_cases hlater : ∃ t ∈ more, t.Number = (i : Int)
        · obtain ⟨t, ht, htn, hti⟩ := (hent i).2 hlater
          exact ⟨t, List.mem_cons_of_mem _ ht, htn, hti⟩
        · have hsn : s.Number = (i : Int) := by
            obtain ⟨t, ht, htn⟩ := hex
            rcases List.mem_cons.1 ht with h1 | h1
            · rw [← h1]; exact htn
            · exact absurd ⟨t, h1, htn⟩ hlater
          refine ⟨s, List.mem_cons_self _ _, hsn, ?_⟩
          rw [(hent i).1 (fun t ht htn => hlater ⟨t, ht, htn⟩)]
          have hidx : s.Number.toNat = i := by omega
          rw [hidx, List.getElem?_set_self (by omega)]

/-! ### Shapes of the results -/

/-- C5: for k >= 1 chunks of length L, when `encode` returns no error and the engine
it called emitted a share for every position 0..2k-1 and for no other position, the
result is a slice of exactly k entries, each present and of length exactly L. -/
theorem encode_output_shape {F : Type} (lib : Infectious F) (cache : Cache F)
    (data : List Chunk) (L : Nat) (res : Option (List Chunk))
    (hk : 1 ≤ data.length) (hL : ∀ c ∈ data, c.len = L)
    (hret : (encode lib cache data RSGF8).outcome = some (res, none))
    (hemit : ∀ fec input, Call.encode fec input ∈ (encode lib cache data RSGF8).calls →
      (∀ s ∈ (lib.Encode fec input).1, 0 ≤ s.Number ∧ s.Number < 2 * (data.length : Int)) ∧
      (∀ p : Nat, p < 2 * data.length → ∃ s ∈ (lib.Encode fec input).1, s.Number = (p : Int))) :
    ∃ parity, res = some parity ∧ parity.length = data.length ∧
      ∀ c ∈ parity, ∃ b, c = some b ∧ b.length = L := by
  obtain ⟨d0, rest, rfl⟩ : ∃ d0 rest, data = d0 :: rest := by
    cases data with
    | nil => simp at hk
    | cons d0 rest => exact ⟨d0, rest, rfl⟩
  have hd0 : d0.len = L := hL d0 (List.mem_cons_self _ _)
  rw [encode_RSGF8] at hret hemit
  have key : ∀ (fec : F) (c1 : Cache F) (l1 : List (Call F)),
      encodeRSGF8 lib cache (d0 :: rest) = encodeWith lib fec c1 l1 (d0 :: rest) →
      ∃ parity, res = some parity ∧ parity.length = (d0 :: rest).length ∧
        ∀ c ∈ parity, ∃ b, c = some b ∧ b.length = L := by
    intro fec c1 l1 h0
    obtain ⟨hin, hall⟩ := hemit fec (flattenChunks (d0 :: rest))
      (by rw [h0, encodeWith_calls]; simp)
    obtain ⟨r, hr, hrl, _⟩ := feed_encodeOutput d0 rest _
      (List.replicate (d0 :: rest).length none) (by simp) (fun s hs => (hin s hs).2)
    rw [h0, encodeWith_outcome, hr] at hret
    simp only [Option.map_some', Option.some.injEq, Prod.mk.injEq] at hret
    have hrlen : r.length = (d0 :: rest).length := by simpa using hrl
    refine ⟨r, hret.1.symm, hrlen, ?_⟩
    intro c hc
    obtain ⟨i, hi, hci⟩ := List.getElem_of_mem hc
    have hi1 : i < (d0 :: rest).length := by rw [← hrlen]; exact hi
    obtain ⟨s0, hs0, hs0n⟩ := hall ((d0 :: rest).length + i) (by omega)
    obtain ⟨r1, hr1, s, _, _, hsi⟩ := feed_encodeOutput_hit d0 rest _
      (List.replicate (d0 :: rest).length none) (by simp) (fun s hs => (hin s hs).2) i hi1
      ⟨s0, hs0, by rw [hs0n]; push_cast; rfl⟩
    have hrr : r1 = r := by
      rw [hr] at hr1
      exact (Option.some.inj hr1).symm
    subst hrr
    rw [List.getElem?_eq_getElem hi, hci] at hsi
    refine ⟨_, Option.some.inj hsi, ?_⟩
    rw [copyBytes_length]
    simp [hd0]
  rcases encodeRSGF8_resolved lib cache (d0 :: rest) with
    ⟨e, _, _, h0⟩ | ⟨f, _, h0⟩ | ⟨f, _, _, h0⟩
  · rw [h0] at hret
    simp at hret
  · exact key f _ _ h0
  · exact key f _ _ h0

theorem deepCopyData_of_ne_nil (s : Share) (h : s.Data ≠ []) :
    s.deepCopyData = some s.Data := by
  unfold Share.deepCopyData
  cases hd : s.Data with
  | nil => exact absurd hd h
  | cons b rest => rfl

theorem interpolate_length (shares : List Share) (size x : Nat) :
    (interpolate shares size x).length = size := by
  simp [interpolate]

/-- The reference engine emits shares of the size of the shares it is given. -/
theorem refLib_emitsInputSize : EmitsInputSize refLib := by
  intro fec shares s hs
  by_cases h1 : shares.length < fec.k
  · simp [refLib, refRebuild, h1] at hs
  · by_cases h2 : ((shares.take fec.k).any
        (fun s => decide (s.Number < 0 ∨ (fec.n : Int) ≤ s.Number))) = true
    · simp only [refLib, refRebuild, h1, h2, if_false, if_true] at hs
      simp at hs
    · simp only [refLib, refRebuild, h1, h2, if_false, List.mem_append, List.mem_filter,
        List.mem_map, List.mem_range, decide_eq_true_eq, Bool.false_eq_true] at hs
      rcases hs with ⟨hmem, _⟩ | ⟨i, ⟨hi, _⟩, rfl⟩
      · exact ⟨s, List.mem_of_mem_take hmem, rfl⟩
      · cases hu : shares.take fec.k with
        | nil =>
          have hlen : (shares.take fec.k).length = 0 := by rw [hu]; rfl
          rw [List.length_take] at hlen
          omega
        | cons t rest =>
          refine ⟨t, List.mem_of_mem_take (by rw [hu]; exact List.mem_cons_self _ _), ?_⟩
          simp [interpolate_length]

/-- C6, amended: for k >= 1 and a decode input of 2k positions whose present chunks
have one positive length L, when `decode` returns no error, the engine it called having
emitted a share for every original position 0..k-1, each of the size of the shares it
was given, the result is a slice of exactly k entries, each present and of length
exactly L. -/
theorem decode_output_shape {F : Type} (lib : Infectious F) (cache : Cache F)
    (data : List Chunk) (k L : Nat) (res : Option (List Chunk))
    (hk : 1 ≤ k) (hlen : data.length = 2 * k)
    (hL : ∀ c ∈ data, c.isSome = true → c.len = L) (hpos : 0 < L)
    (hret : (decode lib cache data RSGF8).outcome = some (res, none))
    (hsize : EmitsInputSize lib)
    (hemit : ∀ fec shares, Call.rebuild fec shares ∈ (decode lib cache data RSGF8).calls →
      ∀ p : Nat, p < k → ∃ s ∈ (lib.Rebuild fec shares).1, s.Number = (p : Int)) :
    ∃ chunks, res = some chunks ∧ chunks.length = k ∧
      ∀ c ∈ chunks, ∃ b, c = some b ∧ b.length = L := by
  have hhalf : data.length / 2 = k := by omega
  rw [decode_RSGF8] at hret hemit
  have hshare : ∀ t ∈ presentShares data, t.Data.length = L := by
    intro t ht
    rw [presentShares_eq_spec] at ht
    obtain ⟨i, _, hd⟩ := (mem_presentPairsSpec data t).1 ht
    have hmem : (some t.Data : Chunk) ∈ data := List.getElem?_mem hd
    exact hL _ hmem rfl
  have key : ∀ (fec : F) (c1 : Cache F) (l1 : List (Call F)),
      decodeRSGF8 lib cache data = decodeWith lib fec c1 l1 data →
      ∃ chunks, res = some chunks ∧ chunks.length = k ∧
        ∀ c ∈ chunks, ∃ b, c = some b ∧ b.length = L := by
    intro fec c1 l1 h0
    have hall := hemit fec (presentShares data) (by rw [h0, decodeWith_calls]; simp)
    rw [h0, decodeWith_outcome, hhalf] at hret
    cases hfeed : feed decodeOutput (List.replicate k none)
        (lib.Rebuild fec (presentShares data)).1 with
    | none => rw [hfeed] at hret; simp at hret
    | some r =>
      rw [hfeed] at hret
      simp only [Option.map_some', Option.some.injEq, Prod.mk.injEq] at hret
      obtain ⟨hlenr, hent⟩ := feed_decodeOutput_entries _ (List.replicate k none) r hfeed
      have hrlen : r.length = k := by simpa using hlenr
      refine ⟨r, hret.1.symm, hrlen, ?_⟩
      intro c hc
      obtain ⟨i, hi, hci⟩ := List.getElem_of_mem hc
      obtain ⟨s0, hs0, hs0n⟩ := hall i (by omega)
      obtain ⟨s, hs, _, hsi⟩ := (hent i).2 ⟨s0, hs0, hs0n⟩
      obtain ⟨t, ht, hst⟩ := hsize fec (presentShares data) s hs
      have hsL : s.Data.length = L := by rw [hst]; exact hshare t ht
      have hne : s.Data ≠ [] := by
        intro h0
        rw [h0] at hsL
        simp at hsL
        omega
      rw [List.getElem?_eq_getElem hi, hci, deepCopyData_of_ne_nil s hne] at hsi
      exact ⟨_, Option.some.inj hsi, hsL⟩
  rcases decodeRSGF8_resolved lib cache data with ⟨e, _, _, h0⟩ | ⟨f, _, h0⟩ | ⟨f, _, _, h0⟩
  · rw [h0] at hret
    simp at hret
  · exact key f _ _ h0
  · exact key f _ _ h0

theorem encode_output_shape_witness :
    ∃ parity, some [some [9, 10, 11, 28], some [13, 14, 15, 16]] = some parity ∧
      parity.length = [some [1, 2, 3, 4], some [5, 6, 7, 8]].length ∧
      ∀ c ∈ parity, ∃ b : List Byte, c = some b ∧ b.length = 4 :=
  encode_output_shape refLib (init RefFEC) [some [1, 2, 3, 4], some [5, 6, 7, 8]] 4
    (some [some [9, 10, 11, 28], some [13, 14, 15, 16]])
    (by decide) (by decide) (by decide)
    (by
      intro fec input h
      have hc : (encode refLib (init RefFEC) [some [1, 2, 3, 4], some [5, 6, 7, 8]] RSGF8).calls
          = [Call.newFEC 2 4, Call.encode ⟨2, 4⟩ [1, 2, 3, 4, 5, 6, 7, 8]] := by decide
      rw [hc] at h
      simp only [List.mem_cons, Call.encode.injEq, List.not_mem_nil, or_false, false_or,
        reduceCtorEq] at h
      obtain ⟨hf, hi⟩ := h
      subst hf
      subst hi
      decide)

theorem decode_output_shape_witness :
    ∃ chunks, some [some [1, 2, 3, 4], some [5, 6, 7, 8]] = some chunks ∧ chunks.length = 2 ∧
      ∀ c ∈ chunks, ∃ b : List Byte, c = some b ∧ b.length = 4 :=
  decode_output_shape refLib (init RefFEC)
    [none, some [5, 6, 7, 8], some [9, 10, 11, 28], some [13, 14, 15, 16]] 2 4
    (some [some [1, 2, 3, 4], some [5, 6, 7, 8]])
    (by decide) (by decide) (by decide) (by decide) (by decide) refLib_emitsInputSize
    (by
      intro fec shares h
      have hc : (decode refLib (init RefFEC)
          [none, some [5, 6, 7, 8], some [9, 10, 11, 28], some [13, 14, 15, 16]] RSGF8).calls
          = [Call.newFEC 2 4, Call.rebuild ⟨2, 4⟩
              [⟨1, [5, 6, 7, 8]⟩, ⟨2, [9, 10, 11, 28]⟩, ⟨3, [13, 14, 15, 16]⟩]] := by decide
      rw [hc] at h
      simp only [List.mem_cons, Call.rebuild.injEq, List.not_mem_nil, or_false, false_or,
        reduceCtorEq] at h
      obtain ⟨hf, hi⟩ := h
      subst hf
      subst hi
      decide)

/-- C6 fails as stated at L = 0: on four positions whose two present chunks are
empty, `decode` returns no error, the engine having emitted the positions 0 and 1,
and both entries of the result are nil, the deep copy of an empty share. -/
theorem decode_output_shape_counterexample :
    (decode refLib (init RefFEC) [some [], some [], none, none] RSGF8).outcome
      = some (some [none, none], none) ∧
    (decode refLib (init RefFEC) [some [], some [], none, none] RSGF8).calls
      = [Call.newFEC 2 4, Call.rebuild ⟨2, 4⟩ [⟨0, []⟩, ⟨1, []⟩]] ∧
    (refLib.Rebuild ⟨2, 4⟩ [⟨0, []⟩, ⟨1, []⟩]).1 = [⟨0, []⟩, ⟨1, []⟩] ∧
    (∀ c ∈ [some [], some [], none, (none : Chunk)], c.isSome = true → Chunk.len c = 0) :=
  ⟨by decide, by decide, by decide, by decide⟩

/-! ### Too few shares -/

theorem presentFrom_length (data : List Chunk) (j : Nat) (acc : List Share) :
    (presentFrom j data acc).length = acc.length + presentCount data := by
  induction data generalizing j acc with
  | nil => simp [presentFrom, presentCount]
  | cons c rest ih =>
    cases c with
    | none =>
      simp only [presentFrom, ih]
      simp [presentCount]
    | some d =>
      simp only [presentFrom, ih]
      simp [presentCount]
      omega

theorem presentShares_length (data : List Chunk) :
    (presentShares data).length = presentCount data := by
  simp [presentShares, presentFrom_length]

theorem refLib_rejectsTooFew : RejectsTooFew refLib := by
  intro k n fec hok shares hlt
  obtain ⟨rfl, _⟩ := refNewFEC_ok k n fec hok
  exact ⟨"not enough shares", by simp [refLib, refRebuild, hlt]⟩

/-- C3: for k >= 1 and a decode input of 2k positions of which fewer than k are
present, with an engine whose rebuild rejects fewer than k shares before emitting
anything, `decode` returns an error, and the result returned with it holds no chunk:
it is nil, or a slice of k absent entries. -/
theorem insufficient_shares {F : Type} (lib : Infectious F) (cache : Cache F)
    (data : List Chunk) (k : Nat)
    (hk : 1 ≤ k) (hlen : data.length = 2 * k) (hfew : presentCount data < k)
    (hrej : RejectsTooFew lib) (hcache : CacheBuiltForKey lib cache) :
    ∃ res e, (decode lib cache data RSGF8).outcome = some (res, some e) ∧
      (res = none ∨ res = some (List.replicate k none)) := by
  have hhalf : data.length / 2 = k := by omega
  rw [decode_RSGF8]
  have key : ∀ (fec : F) (n : Nat) (c1 : Cache F) (l1 : List (Call F)),
      lib.NewFEC k n = Except.ok fec →
      ∃ res e, (decodeWith lib fec c1 l1 data).outcome = some (res, some e) ∧
        (res = none ∨ res = some (List.replicate k none)) := by
    intro fec n c1 l1 hok
    obtain ⟨e, he⟩ := hrej k n fec hok (presentShares data)
      (by rw [presentShares_length]; exact hfew)
    refine ⟨some (List.replicate k none), e, ?_, Or.inr rfl⟩
    rw [decodeWith_outcome, he, hhalf]
    rfl
  rcases decodeRSGF8_resolved lib cache data with ⟨e, _, _, h0⟩ | ⟨f, hf, h0⟩ | ⟨f, _, hok, h0⟩
  · exact ⟨none, e, by rw [h0], Or.inl rfl⟩
  · rw [h0]
    rw [hhalf] at hf
    obtain ⟨n, hn⟩ := hcache k f hf
    exact key f n _ _ hn
  · rw [h0]
    rw [hhalf] at hok
    exact key f _ _ _ hok

theorem insufficient_shares_witness :
    ∃ res e, (decode refLib (init RefFEC) [none, some [5, 6, 7, 8], none, none] RSGF8).outcome
        = some (res, some e) ∧ (res = none ∨ res = some (List.replicate 2 none)) :=
  insufficient_shares refLib (init RefFEC) [none, some [5, 6, 7, 8], none, none] 2
    (by decide) (by decide) (by decide) refLib_rejectsTooFew
    (fun key fec hk => by simp [init, cacheGet] at hk)

/-! ### One engine per key -/

theorem encodeRSGF8_hit {F : Type} (lib : Infectious F) (cache : Cache F) (data : List Chunk)
    (fec : F) (h : cacheGet cache data.length = some fec) :
    encodeRSGF8 lib cache data = encodeWith lib fec cache [] data := by
  unfold encodeRSGF8
  rw [h]

theorem decodeRSGF8_hit {F : Type} (lib : Infectious F) (cache : Cache F) (data : List Chunk)
    (fec : F) (h : cacheGet cache (data.length / 2) = some fec) :
    decodeRSGF8 lib cache data = decodeWith lib fec cache [] data := by
  unfold decodeRSGF8
  rw [h]

theorem encodeRSGF8_miss_head {F : Type} (lib : Infectious F) (cache : Cache F)
    (data : List Chunk) (h : cacheGet cache data.length = none) :
    (encodeRSGF8 lib cache data).calls.head?
      = some (Call.newFEC data.length (data.length * 2)) := by
  rcases encodeRSGF8_resolved lib cache data with ⟨e, _, _, h0⟩ | ⟨f, hf, _⟩ | ⟨f, _, _, h0⟩
  · rw [h0]; rfl
  · rw [h] at hf; cases hf
  · rw [h0, encodeWith_calls]; rfl

theorem decodeRSGF8_miss_head {F : Type} (lib : Infectious F) (cache : Cache F)
    (data : List Chunk) (h : cacheGet cache (data.length / 2) = none) :
    (decodeRSGF8 lib cache data).calls.head?
      = some (Call.newFEC (data.length / 2) data.length) := by
  rcases decodeRSGF8_resolved lib cache data with ⟨e, _, _, h0⟩ | ⟨f, hf, _⟩ | ⟨f, _, _, h0⟩
  · rw [h0]; rfl
  · rw [h] at hf; cases hf
  · rw [h0, decodeWith_calls]; rfl

/-- The engine found under the key after an `encodeRSGF8` run is the one the run called. -/
theorem encodeRSGF8_stored {F : Type} (lib : Infectious F) (cache : Cache F)
    (data : List Chunk) (fec : F)
    (h : cacheGet (encodeRSGF8 lib cache data).cache data.length = some fec) :
    ∃ c1 l1, encodeRSGF8 lib cache data = encodeWith lib fec c1 l1 data ∧
      (cacheGet cache data.length = some fec ∨
        lib.NewFEC data.length (data.length * 2) = Except.ok fec) := by
  rcases encodeRSGF8_resolved lib cache data with ⟨e, hm, _, h0⟩ | ⟨f, hf, h0⟩ | ⟨f, _, hok, h0⟩
  · rw [h0] at h
    simp only at h
    rw [hm] at h
    cases h
  · rw [h0, encodeWith_cache, hf] at h
    cases h
    exact ⟨_, _, h0, Or.inl hf⟩
  · rw [h0, encodeWith_cache, cacheGet_cacheSet] at h
    simp only [if_true, Option.some.injEq] at h
    subst h
    exact ⟨_, _, h0, Or.inr hok⟩

/-- The engine found under the key after a `decodeRSGF8` run is the one the run called. -/
theorem decodeRSGF8_stored {F : Type} (lib : Infectious F) (cache : Cache F)
    (data : List Chunk) (fec : F)
    (h : cacheGet (decodeRSGF8 lib cache data).cache (data.length / 2) = some fec) :
    ∃ c1 l1, decodeRSGF8 lib cache data = decodeWith lib fec c1 l1 data ∧
      (cacheGet cache (data.length / 2) = some fec ∨
        lib.NewFEC (data.length / 2) data.length = Except.ok fec) := by
  rcases decodeRSGF8_resolved lib cache data with ⟨e, hm, _, h0⟩ | ⟨f, hf, h0⟩ | ⟨f, _, hok, h0⟩
  · rw [h0] at h
    simp only at h
    rw [hm] at h
    cases h
  · rw [h0, decodeWith_cache, hf] at h
    cases h
    exact ⟨_, _, h0, Or.inl hf⟩
  · rw [h0, decodeWith_cache, cacheGet_cacheSet] at h
    simp only [if_true, Option.some.injEq] at h
    subst h
    exact ⟨_, _, h0, Or.inr hok⟩

theorem encodeRSGF8_other_keys {F : Type} (lib : Infectious F) (cache : Cache F)
    (data : List Chunk) (key : Nat) (h : key ≠ data.length) :
    cacheGet (encodeRSGF8 lib cache data).cache key = cacheGet cache key := by
  rcases encodeRSGF8_cache lib cache data with h0 | ⟨_, f, _, h0⟩
  · rw [h0]
  · rw [h0, cacheGet_cacheSet, if_neg h]

theorem decodeRSGF8_other_keys {F : Type} (lib : Infectious F) (cache : Cache F)
    (data : List Chunk) (key : Nat) (h : key ≠ data.length / 2) :
    cacheGet (decodeRSGF8 lib cache data).cache key = cacheGet cache key := by
  rcases decodeRSGF8_cache lib cache data with h0 | ⟨_, f, _, h0⟩
  · rw [h0]
  · rw [h0, cacheGet_cacheSet, if_neg h]

/-- The engine an `encodeRSGF8` run calls is under the key after the run. -/
theorem encodeRSGF8_call_stored {F : Type} (lib : Infectious F) (cache : Cache F)
    (data : List Chunk) (fec : F) (input : List Byte)
    (hc : Call.encode fec input ∈ (encodeRSGF8 lib cache data).calls) :
    cacheGet (encodeRSGF8 lib cache data).cache data.length = some fec := by
  rcases encodeRSGF8_resolved lib cache data with ⟨e, _, _, h0⟩ | ⟨f, hf, h0⟩ | ⟨f, _, _, h0⟩
  · rw [h0] at hc; simp at hc
  · rw [h0, encodeWith_calls] at hc
    simp at hc
    rw [h0, encodeWith_cache, hc.1]
    exact hf
  · rw [h0, encodeWith_calls] at hc
    simp at hc
    rw [h0, encodeWith_cache, cacheGet_cacheSet, hc.1]
    simp

/-- The engine a `decodeRSGF8` run calls is under the key after the run. -/
theorem decodeRSGF8_call_stored {F : Type} (lib : Infectious F) (cache : Cache F)
    (data : List Chunk) (fec : F) (shares : List Share)
    (hc : Call.rebuild fec shares ∈ (decodeRSGF8 lib cache data).calls) :
    cacheGet (decodeRSGF8 lib cache data).cache (data.length / 2) = some fec := by
  rcases decodeRSGF8_resolved lib cache data with ⟨e, _, _, h0⟩ | ⟨f, hf, h0⟩ | ⟨f, _, _, h0⟩
  · rw [h0] at hc; simp at hc
  · rw [h0, decodeWith_calls] at hc
    simp at hc
    rw [h0, decodeWith_cache, hc.1]
    exact hf
  · rw [h0, decodeWith_calls] at hc
    simp at hc
    rw [h0, decodeWith_cache, cacheGet_cacheSet, hc.1]
    simp

/-- On a miss with a successful construction `encodeRSGF8` leaves the new engine
under the key and calls `Encode` on it. -/
theorem encodeRSGF8_miss_store {F : Type} (lib : Infectious F) (cache : Cache F)
    (data : List Chunk) (f0 : F) (hm : cacheGet cache data.length = none)
    (hok : lib.NewFEC data.length (data.length * 2) = Except.ok f0) :
    cacheGet (encodeRSGF8 lib cache data).cache data.length = some f0 ∧
      Call.encode f0 (flattenChunks data) ∈ (encodeRSGF8 lib cache data).calls := by
  rcases encodeRSGF8_resolved lib cache data with ⟨e, _, hf, _⟩ | ⟨f, hf, _⟩ | ⟨f, _, hok1, h0⟩
  · rw [hok] at hf; cases hf
  · rw [hm] at hf; cases hf
  · rw [hok] at hok1
    cases hok1
    rw [h0, encodeWith_cache, encodeWith_calls, cacheGet_cacheSet]
    simp

/-- On a miss with a successful construction `decodeRSGF8` leaves the new engine
under the key and calls `Rebuild` on it. -/
theorem decodeRSGF8_miss_store {F : Type} (lib : Infectious F) (cache : Cache F)
    (data : List Chunk) (f0 : F) (hm : cacheGet cache (data.length / 2) = none)
    (hok : lib.NewFEC (data.length / 2) data.length = Except.ok f0) :
    cacheGet (decodeRSGF8 lib cache data).cache (data.length / 2) = some f0 ∧
      Call.rebuild f0 (presentShares data) ∈ (decodeRSGF8 lib cache data).calls := by
  rcases decodeRSGF8_resolved lib cache data with ⟨e, _, hf, _⟩ | ⟨f, hf, _⟩ | ⟨f, _, hok1, h0⟩
  · rw [hok] at hf; cases hf
  · rw [hm] at hf; cases hf
  · rw [hok] at hok1
    cases hok1
    rw [h0, decodeWith_cache, decodeWith_calls, cacheGet_cacheSet]
    simp

/-- C7: for k >= 1, `encode` on k chunks and `decode` on 2k positions look up the
same key k; on a miss both construct with the parameters (k, 2k), and when the
construction succeeds either call leaves the new engine under k and uses it; on a
hit both use the cached engine without constructing; neither touches another key;
the engine a call uses is under the key k after the call, and whichever of the two
runs first, the other then uses that same engine, constructs nothing and leaves the
cache as it is; and when the cache entries were built for their keys, the engine
either call uses was built for k. -/
theorem cache_key_equivalence {F : Type} (lib : Infectious F) (cache : Cache F)
    (dataE dataD : List Chunk) (k : Nat)
    (hk : 1 ≤ k) (hE : dataE.length = k) (hD : dataD.length = 2 * k) :
    (cacheGet cache k = none →
      (encode lib cache dataE RSGF8).calls.head? = some (Call.newFEC k (2 * k)) ∧
      (decode lib cache dataD RSGF8).calls.head? = some (Call.newFEC k (2 * k))) ∧
    (∀ fec, cacheGet cache k = some fec →
      (encode lib cache dataE RSGF8).calls = [Call.encode fec (flattenChunks dataE)] ∧
      (decode lib cache dataD RSGF8).calls = [Call.rebuild fec (presentShares dataD)]) ∧
    (∀ key, key ≠ k →
      cacheGet (encode lib cache dataE RSGF8).cache key = cacheGet cache key ∧
      cacheGet (decode lib cache dataD RSGF8).cache key = cacheGet cache key) ∧
    (∀ fec, cacheGet (encode lib cache dataE RSGF8).cache k = some fec →
      Call.encode fec (flattenChunks dataE) ∈ (encode lib cache dataE RSGF8).calls ∧
      (decode lib (encode lib cache dataE RSGF8).cache dataD RSGF8).calls
        = [Call.rebuild fec (presentShares dataD)] ∧
      (decode lib (encode lib cache dataE RSGF8).cache dataD RSGF8).cache
        = (encode lib cache dataE RSGF8).cache) ∧
    (∀ fec, cacheGet (decode lib cache dataD RSGF8).cache k = some fec →
      Call.rebuild fec (presentShares dataD) ∈ (decode lib cache dataD RSGF8).calls ∧
      (encode lib (decode lib cache dataD RSGF8).cache dataE RSGF8).calls
        = [Call.encode fec (flattenChunks dataE)] ∧
      (encode lib (decode lib cache dataD RSGF8).cache dataE RSGF8).cache
        = (decode lib cache dataD RSGF8).cache) ∧
    (cacheGet cache k = none → ∀ fec,
      (cacheGet (encode lib cache dataE RSGF8).cache k = some fec →
        lib.NewFEC k (2 * k) = Except.ok fec) ∧
      (cacheGet (decode lib cache dataD RSGF8).cache k = some fec →
        lib.NewFEC k (2 * k) = Except.ok fec)) ∧
    (CacheBuiltForKey lib cache → ∀ fec,
      (∃ input, Call.encode fec input ∈ (encode lib cache dataE RSGF8).calls) ∨
        (∃ shares, Call.rebuild fec shares ∈ (decode lib cache dataD RSGF8).calls) →
      ∃ n, lib.NewFEC k n = Except.ok fec) ∧
    (∀ f0, cacheGet cache k = none → lib.NewFEC k (2 * k) = Except.ok f0 →
      (cacheGet (encode lib cache dataE RSGF8).cache k = some f0 ∧
        Call.encode f0 (flattenChunks dataE) ∈ (encode lib cache dataE RSGF8).calls) ∧
      (cacheGet (decode lib cache dataD RSGF8).cache k = some f0 ∧
        Call.rebuild f0 (presentShares dataD) ∈ (decode lib cache dataD RSGF8).calls)) ∧
    (∀ fec input, Call.encode fec input ∈ (encode lib cache dataE RSGF8).calls →
      cacheGet (encode lib cache dataE RSGF8).cache k = some fec ∧
      (decode lib (encode lib cache dataE RSGF8).cache dataD RSGF8).calls
        = [Call.rebuild fec (presentShares dataD)] ∧
      (decode lib (encode lib cache dataE RSGF8).cache dataD RSGF8).cache
        = (encode lib cache dataE RSGF8).cache) ∧
    (∀ fec shares, Call.rebuild fec shares ∈ (decode lib cache dataD RSGF8).calls →
      cacheGet (decode lib cache dataD RSGF8).cache k = some fec ∧
      (encode lib (decode lib cache dataD RSGF8).cache dataE RSGF8).calls
        = [Call.encode fec (flattenChunks dataE)] ∧
      (encode lib (decode lib cache dataD RSGF8).cache dataE RSGF8).cache
        = (decode lib cache dataD RSGF8).cache) := by
  have hhalf : dataD.length / 2 = k := by omega
  have hEk : dataE.length * 2 = 2 * k := by omega
  simp only [encode_RSGF8, decode_RSGF8]
  refine ⟨?_, ?_, ?_, ?_, ?_, ?_, ?_, ?_, ?_, ?_⟩
  · intro hm
    have h1 := encodeRSGF8_miss_head lib cache dataE (by rw [hE]; exact hm)
    have h2 := decodeRSGF8_miss_head lib cache dataD (by rw [hhalf]; exact hm)
    rw [hE, ← hE, hEk] at h1
    rw [hhalf, hD] at h2
    rw [hE] at h1
    exact ⟨h1, h2⟩
  · intro fec hf
    rw [encodeRSGF8_hit lib cache dataE fec (by rw [hE]; exact hf),
      decodeRSGF8_hit lib cache dataD fec (by rw [hhalf]; exact hf),
      encodeWith_calls, decodeWith_calls]
    exact ⟨rfl, rfl⟩
  · intro key hne
    exact ⟨encodeRSGF8_other_keys lib cache dataE key (by rw [hE]; exact hne),
      decodeRSGF8_other_keys lib cache dataD key (by rw [hhalf]; exact hne)⟩
  · intro fec hf
    obtain ⟨c1, l1, h0, _⟩ := encodeRSGF8_stored lib cache dataE fec (by rw [hE]; exact hf)
    refine ⟨by rw [h0, encodeWith_calls]; simp, ?_⟩
    rw [decodeRSGF8_hit lib _ dataD fec (by rw [hhalf]; exact hf),
      decodeWith_calls, decodeWith_cache]
    exact ⟨rfl, rfl⟩
  · intro fec hf
    obtain ⟨c1, l1, h0, _⟩ := decodeRSGF8_stored lib cache dataD fec (by rw [hhalf]; exact hf)
    refine ⟨by rw [h0, decodeWith_calls]; simp, ?_⟩
    rw [encodeRSGF8_hit lib _ dataE fec (by rw [hE]; exact hf),
      encodeWith_calls, encodeWith_cache]
    exact ⟨rfl, rfl⟩
  · intro hm fec
    constructor
    · intro hf
      obtain ⟨_, _, _, hor⟩ := encodeRSGF8_stored lib cache dataE fec (by rw [hE]; exact hf)
      rcases hor with h | h
      · rw [hE, hm] at h; cases h
      · rw [hE, Nat.mul_comm] at h; exact h
    · intro hf
      obtain ⟨_, _, _, hor⟩ := decodeRSGF8_stored lib cache dataD fec (by rw [hhalf]; exact hf)
      rcases hor with h | h
      · rw [hhalf, hm] at h; cases h
      · rw [hhalf, hD] at h; exact h
  · intro hb fec hcall
    rcases hcall with ⟨input, hc⟩ | ⟨shares, hc⟩
    · rcases encodeRSGF8_resolved lib cache dataE with
        ⟨e, _, _, h0⟩ | ⟨f, hf, h0⟩ | ⟨f, _, hok, h0⟩
      · rw [h0] at hc; simp at hc
      · rw [h0, encodeWith_calls] at hc
        simp at hc
        rw [hE] at hf
        rw [hc.1]
        exact hb k f hf
      · rw [h0, encodeWith_calls] at hc
        simp at hc
        rw [hE] at hok
        rw [hc.1]
        exact ⟨_, hok⟩
    · rcases decodeRSGF8_resolved lib cache dataD with
        ⟨e, _, _, h0⟩ | ⟨f, hf, h0⟩ | ⟨f, _, hok, h0⟩
      · rw [h0] at hc; simp at hc
      · rw [h0, decodeWith_calls] at hc
        simp at hc
        rw [hhalf] at hf
        rw [hc.1]
        exact hb k f hf
      · rw [h0, decodeWith_calls] at hc
        simp at hc
        rw [hhalf] at hok
        rw [hc.1]
        exact ⟨_, hok⟩
  · intro f0 hm hok
    have h1 := encodeRSGF8_miss_store lib cache dataE f0 (by rw [hE]; exact hm)
      (by rw [hE, Nat.mul_comm]; exact hok)
    have h2 := decodeRSGF8_miss_store lib cache dataD f0 (by rw [hhalf]; exact hm)
      (by rw [hhalf, hD]; exact hok)
    rw [hE] at h1
    rw [hhalf] at h2
    exact ⟨h1, h2⟩
  · intro fec input hc
    have hf := encodeRSGF8_call_stored lib cache dataE fec input hc
    rw [hE] at hf
    refine ⟨hf, ?_⟩
    rw [decodeRSGF8_hit lib _ dataD fec (by rw [hhalf]; exact hf),
      decodeWith_calls, decodeWith_cache]
    exact ⟨rfl, rfl⟩
  · intro fec shares hc
    have hf := decodeRSGF8_call_stored lib cache dataD fec shares hc
    rw [hhalf] at hf
    refine ⟨hf, ?_⟩
    rw [encodeRSGF8_hit lib _ dataE fec (by rw [hE]; exact hf),
      encodeWith_calls, encodeWith_cache]
    exact ⟨rfl, rfl⟩

theorem cache_key_equivalence_witness :
    ((encode refLib (init RefFEC) [some [1, 2, 3, 4], some [5, 6, 7, 8]] RSGF8).calls.head?
      = some (Call.newFEC 2 (2 * 2)) ∧
    (decode refLib (init RefFEC)
      [none, some [5, 6, 7, 8], some [9, 10, 11, 28], some [13, 14, 15, 16]] RSGF8).calls.head?
      = some (Call.newFEC 2 (2 * 2))) ∧
    (cacheGet (encode refLib (init RefFEC) [some [1, 2, 3, 4], some [5, 6, 7, 8]] RSGF8).cache 2
      = some ⟨2, 4⟩ ∧
    (decode refLib (encode refLib (init RefFEC) [some [1, 2, 3, 4], some [5, 6, 7, 8]]
        RSGF8).cache
      [none, some [5, 6, 7, 8], some [9, 10, 11, 28], some [13, 14, 15, 16]] RSGF8).calls
      = [Call.rebuild ⟨2, 4⟩ (presentShares
          [none, some [5, 6, 7, 8], some [9, 10, 11, 28], some [13, 14, 15, 16]])] ∧
    (decode refLib (encode refLib (init RefFEC) [some [1, 2, 3, 4], some [5, 6, 7, 8]]
        RSGF8).cache
      [none, some [5, 6, 7, 8], some [9, 10, 11, 28], some [13, 14, 15, 16]] RSGF8).cache
      = (encode refLib (init RefFEC) [some [1, 2, 3, 4], some [5, 6, 7, 8]] RSGF8).cache) :=
  ⟨(cache_key_equivalence refLib (init RefFEC) [some [1, 2, 3, 4], some [5, 6, 7, 8]]
      [none, some [5, 6, 7, 8], some [9, 10, 11, 28], some [13, 14, 15, 16]] 2
      (by decide) rfl rfl).1 rfl,
   (cache_key_equivalence refLib (init RefFEC) [some [1, 2, 3, 4], some [5, 6, 7, 8]]
      [none, some [5, 6, 7, 8], some [9, 10, 11, 28], some [13, 14, 15, 16]] 2
      (by decide) rfl rfl).2.2.2.2.2.2.2.2.1 ⟨2, 4⟩ [1, 2, 3, 4, 5, 6, 7, 8] (by decide)⟩

/-! ### Reuse of the cached engine -/

/-- The outcome of `encodeWith` does not depend on the cache or on the calls so far. -/
theorem encodeWith_outcome_congr {F : Type} (lib : Infectious F) (fec : F)
    (c1 c2 : Cache F) (l1 l2 : List (Call F)) (data : List Chunk) :
    (encodeWith lib fec c1 l1 data).outcome = (encodeWith lib fec c2 l2 data).outcome := by
  rw [encodeWith_outcome, encodeWith_outcome]

/-- C9: when the construction for k succeeds, the first `encode` call with k chunks
leaves an engine under the key k, the one it used; every later `encode` call with k
chunks, after any sequence of calls in between, makes the single library call
`Encode` on that engine, constructs nothing, leaves the cache unchanged, and on the
same chunks returns what the first call returned. -/
theorem cache_reuse {F : Type} (lib : Infectious F) (c0 c1 : Cache F) (data : List Chunk)
    (f0 : F) (hcons : lib.NewFEC data.length (data.length * 2) = Except.ok f0)
    (hlater : Reach lib (encode lib c0 data RSGF8).cache c1) :
    ∃ fec, cacheGet (encode lib c0 data RSGF8).cache data.length = some fec ∧
      Call.encode fec (flattenChunks data) ∈ (encode lib c0 data RSGF8).calls ∧
      ∀ data1 : List Chunk, data1.length = data.length →
        (encode lib c1 data1 RSGF8).calls = [Call.encode fec (flattenChunks data1)] ∧
        (∀ k n, Call.newFEC k n ∉ (encode lib c1 data1 RSGF8).calls) ∧
        (encode lib c1 data1 RSGF8).cache = c1 ∧
        (data1 = data →
          (encode lib c1 data1 RSGF8).outcome = (encode lib c0 data RSGF8).outcome) := by
  simp only [encode_RSGF8] at hlater ⊢
  have hstored : ∃ fec, cacheGet (encodeRSGF8 lib c0 data).cache data.length = some fec := by
    rcases encodeRSGF8_resolved lib c0 data with ⟨e, _, hf, _⟩ | ⟨f, hf, h0⟩ | ⟨f, _, _, h0⟩
    · rw [hcons] at hf; cases hf
    · exact ⟨f, by rw [h0, encodeWith_cache]; exact hf⟩
    · exact ⟨f, by rw [h0, encodeWith_cache, cacheGet_cacheSet]; simp⟩
  obtain ⟨fec, hfec⟩ := hstored
  obtain ⟨ca, la, h0, _⟩ := encodeRSGF8_stored lib c0 data fec hfec
  refine ⟨fec, hfec, by rw [h0, encodeWith_calls]; simp, ?_⟩
  intro data1 hlen
  have hget : cacheGet c1 data1.length = some fec := by
    rw [hlen]
    exact reach_mono lib _ c1 hlater data.length fec hfec
  rw [encodeRSGF8_hit lib c1 data1 fec hget, encodeWith_calls, encodeWith_cache]
  refine ⟨rfl, by simp, rfl, ?_⟩
  intro hd
  subst hd
  rw [h0]
  exact encodeWith_outcome_congr lib fec _ _ _ _ data1

theorem cache_reuse_witness :
    ∃ fec, cacheGet (encode refLib (init RefFEC) [some [1, 2, 3, 4], some [5, 6, 7, 8]]
        RSGF8).cache 2 = some fec ∧
      Call.encode fec [1, 2, 3, 4, 5, 6, 7, 8]
        ∈ (encode refLib (init RefFEC) [some [1, 2, 3, 4], some [5, 6, 7, 8]] RSGF8).calls :=
  let h := cache_reuse refLib (init RefFEC)
    (decode refLib (encode refLib (init RefFEC) [some [1, 2, 3, 4], some [5, 6, 7, 8]]
      RSGF8).cache [some [1], none, none] RSGF8).cache
    [some [1, 2, 3, 4], some [5, 6, 7, 8]] ⟨2, 4⟩ rfl
    (Reach.tail _ _ _ (Reach.refl _) (Step.dec _ [some [1], none, none] RSGF8))
  ⟨h.choose, h.choose_spec.1, h.choose_spec.2.1⟩

/-! ### Encoding then decoding -/

theorem mem_sharesFrom (xs : List (List Byte)) (j : Nat) (s : Share) :
    s ∈ sharesFrom j xs ↔ ∃ i : Nat, s.Number = ((j + i : Nat) : Int) ∧ xs[i]? = some s.Data := by
  induction xs generalizing j with
  | nil => simp [sharesFrom]
  | cons d rest ih =>
    simp only [sharesFrom, List.mem_cons, ih]
    constructor
    · rintro (h | ⟨i, hn, hd⟩)
      · subst h
        exact ⟨0, by simp, by simp⟩
      · exact ⟨i + 1, by rw [hn]; push_cast; omega, by simpa using hd⟩
    · rintro ⟨i, hn, hd⟩
      cases i with
      | zero =>
        left
        cases s
        simp at hn hd
        simp [hn, hd]
      | succ i =>
        right
        exact ⟨i, by rw [hn]; push_cast; omega, by simpa using hd⟩

theorem flattenChunks_map_some (chunks : List (List Byte)) :
    flattenChunks (chunks.map some) = chunks.flatten := by
  simp only [flattenChunks, List.map_map]
  congr 1
  exact List.map_id'' (fun _ => rfl) chunks

theorem presentFrom_eraseMask (mask : List Bool) (xs : List (List Byte)) (j : Nat)
    (acc : List Share) :
    presentFrom j (eraseMask mask (xs.map some)) acc
      = acc ++ keepShares mask (sharesFrom j xs) := by
  induction mask generalizing xs j acc with
  | nil => cases xs <;> simp [eraseMask, presentFrom, keepShares]
  | cons keep mask ih =>
    cases xs with
    | nil => simp [eraseMask, presentFrom, keepShares, sharesFrom]
    | cons d rest =>
      cases keep with
      | false => simp [eraseMask, presentFrom, keepShares, sharesFrom, ih]
      | true => simp [eraseMask, presentFrom, keepShares, sharesFrom, ih]

theorem presentFrom_map_some (xs : List (List Byte)) (j : Nat) (acc : List Share) :
    presentFrom j (xs.map some) acc = acc ++ sharesFrom j xs := by
  induction xs generalizing j acc with
  | nil => simp [presentFrom, sharesFrom]
  | cons d rest ih => simp [presentFrom, sharesFrom, ih]

theorem eraseMask_length (mask : List Bool) (xs : List Chunk) (h : mask.length = xs.length) :
    (eraseMask mask xs).length = xs.length := by
  induction mask generalizing xs with
  | nil => cases xs <;> simp_all [eraseMask]
  | cons keep mask ih =>
    cases xs with
    | nil => simp at h
    | cons x rest =>
      simp only [eraseMask, List.length_cons]
      rw [ih rest (by simpa using h)]

/-- With a systematic engine, `encodeWith` returns the parity chunks and no error. -/
theorem encodeWith_parity {F : Type} (lib : Infectious F) (fec : F) (cache : Cache F)
    (calls : List (Call F)) (chunks parity : List (List Byte)) (L : Nat)
    (hk : 1 ≤ chunks.length) (hcl : ∀ c ∈ chunks, c.length = L)
    (henc : EncodesTo lib fec chunks parity L) :
    (encodeWith lib fec cache calls (chunks.map some)).outcome
      = some (some (parity.map some), none) := by
  obtain ⟨hpl, hpL, hemit⟩ := henc
  obtain ⟨c0, crest, rfl⟩ : ∃ c0 crest, chunks = c0 :: crest := by
    cases chunks with
    | nil => simp at hk
    | cons c0 crest => exact ⟨c0, crest, rfl⟩
  have hc0 : c0.length = L := hcl c0 (List.mem_cons_self _ _)
  have hdl : ((c0 :: crest).map some).length = (c0 :: crest).length := by simp
  rw [encodeWith_outcome, flattenChunks_map_some, hemit]
  have hup : ∀ s ∈ sharesFrom 0 ((c0 :: crest) ++ parity),
      s.Number < 2 * ((some c0 :: crest.map some).length : Int) := by
    intro s hs
    obtain ⟨i, hn, hd⟩ := (mem_sharesFrom _ 0 s).1 hs
    have hi : i < ((c0 :: crest) ++ parity).length := by
      by_contra hge
      rw [List.getElem?_eq_none (by omega)] at hd
      cases hd
    simp only [List.length_append, List.length_cons, List.length_map] at hi hpl ⊢
    rw [hn]
    push_cast
    omega
  obtain ⟨r, hr, hrl, _⟩ := feed_encodeOutput (some c0) (crest.map some)
    (sharesFrom 0 ((c0 :: crest) ++ parity))
    (List.replicate (some c0 :: crest.map some).length none) (by simp) hup
  have hrlen : r.length = crest.length + 1 := by simpa using hrl
  have hr2 : feed (encodeOutput (List.map some (c0 :: crest)))
      (List.replicate (List.map some (c0 :: crest)).length none)
      (sharesFrom 0 (c0 :: crest ++ parity)) = some r := hr
  rw [hr2]
  simp only [Option.map_some', Option.some.injEq, Prod.mk.injEq, and_true]
  apply List.ext_getElem?
  intro i
  by_cases hi : i < crest.length + 1
  · have hpi : i < parity.length := by simp only [List.length_cons] at hpl; omega
    have hex : ∃ s ∈ sharesFrom 0 ((c0 :: crest) ++ parity),
        s.Number = ((some c0 :: crest.map some).length : Int) + i := by
      refine ⟨⟨((crest.length + 1 + i : Nat) : Int), parity[i]⟩, ?_, ?_⟩
      · rw [mem_sharesFrom]
        refine ⟨crest.length + 1 + i, by simp, ?_⟩
        rw [List.getElem?_append_right (by simp)]
        simp [List.getElem?_eq_getElem hpi]
      · simp
    obtain ⟨r1, hr1, s, hs, hsn, hsi⟩ := feed_encodeOutput_hit (some c0) (crest.map some)
      (sharesFrom 0 ((c0 :: crest) ++ parity))
      (List.replicate (some c0 :: crest.map some).length none) (by simp) hup i
      (by simpa using hi) hex
    have hrr : r1 = r := by
      rw [hr] at hr1
      exact (Option.some.inj hr1).symm
    subst hrr
    obtain ⟨j, hjn, hjd⟩ := (mem_sharesFrom _ 0 s).1 hs
    have hj : j = crest.length + 1 + i := by
      rw [hsn] at hjn
      simp only [List.length_cons, List.length_map] at hjn
      push_cast at hjn
      omega
    subst hj
    rw [List.getElem?_append_right (by simp)] at hjd
    simp only [List.length_cons, Nat.add_sub_cancel_left] at hjd
    rw [List.getElem?_eq_getElem hpi] at hjd
    have hsd : s.Data = parity[i] := (Option.some.inj hjd).symm
    have hlen : s.Data.length = L := by rw [hsd]; exact hpL _ (List.getElem_mem _)
    rw [hsi, copyBytes_same_length _ _ (by simp [Chunk.len, hc0, hlen]), hsd]
    simp [List.getElem?_eq_getElem hpi]
  · rw [List.getElem?_eq_none (by omega), List.getElem?_eq_none]
    simp only [List.length_map, List.length_cons] at hpl ⊢
    omega

/-- When the cached engine recovers `chunks` from the present shares of `data`,
`decodeRSGF8` returns `chunks` and no error. -/
theorem decodeRSGF8_recovers {F : Type} (lib : Infectious F) (cache : Cache F)
    (data : List Chunk) (chunks : List (List Byte)) (fec : F)
    (hhalf : data.length / 2 = chunks.length) (hne : ∀ c ∈ chunks, c ≠ [])
    (hget : cacheGet cache (data.length / 2) = some fec)
    (hrec : RebuildRecovers lib fec chunks (presentShares data)) :
    (decodeRSGF8 lib cache data).outcome = some (some (chunks.map some), none) := by
  obtain ⟨herr, hsound, hcomplete⟩ := hrec
  rw [decodeRSGF8_hit lib cache data fec hget, decodeWith_outcome, herr, hhalf]
  have hin : ∀ s ∈ (lib.Rebuild fec (presentShares data)).1,
      0 ≤ s.Number ∧ s.Number < ((List.replicate chunks.length (none : Chunk)).length : Int) := by
    intro s hs
    obtain ⟨h0, hd⟩ := hsound s hs
    refine ⟨h0, ?_⟩
    have hi : s.Number.toNat < chunks.length := by
      by_contra hge
      rw [List.getElem?_eq_none (by omega)] at hd
      cases hd
    simp only [List.length_replicate]
    omega
  obtain ⟨r, hr, hrl⟩ := feed_decodeOutput _ _ hin
  obtain ⟨_, hent⟩ := feed_decodeOutput_entries _ _ r hr
  rw [hr]
  simp only [Option.map_some', Option.some.injEq, Prod.mk.injEq, and_true]
  apply List.ext_getElem?
  intro i
  by_cases hi : i < chunks.length
  · obtain ⟨s, hs, hsn, hsi⟩ := (hent i).2 (hcomplete i hi)
    obtain ⟨_, hd⟩ := hsound s hs
    have hidx : s.Number.toNat = i := by omega
    rw [hidx, List.getElem?_eq_getElem hi] at hd
    have hsd : s.Data = chunks[i] := (Option.some.inj hd).symm
    rw [hsi, deepCopyData_of_ne_nil s (by rw [hsd]; exact hne _ (List.getElem_mem _)), hsd]
    simp [List.getElem?_eq_getElem hi]
  · rw [List.getElem?_eq_none (by simp at hrl; omega), List.getElem?_eq_none (by simp; omega)]

/-- C1, amended: for k >= 1 chunks of one positive length for which `encode` returns
the parity p without error, with an engine that is an erasure code on these chunks (it
encodes them systematically and rebuilds them from any k or more of the 2k shares),
p has k entries and `decode`, at any later cache state, on the sequence chunks ++ p in
which any positions are replaced by the absence marker, at least k remaining present,
returns exactly the chunks, without error. -/
theorem erasure_tolerance {F : Type} (lib : Infectious F) (cache c1 : Cache F)
    (chunks : List (List Byte)) (L k : Nat) (p : List Chunk) (mask : List Bool)
    (hk : 1 ≤ k) (hlen : chunks.length = k) (hL : 0 < L) (hcl : ∀ c ∈ chunks, c.length = L)
    (hret : (encode lib cache (chunks.map some) RSGF8).outcome = some (some p, none))
    (hcode : ∀ fec input,
      Call.encode fec input ∈ (encode lib cache (chunks.map some) RSGF8).calls →
      ∃ parity, ErasureCodeOn lib fec chunks parity L)
    (hlater : Reach lib (encode lib cache (chunks.map some) RSGF8).cache c1)
    (hml : mask.length = 2 * k) (hcount : k ≤ mask.count true) :
    p.length = k ∧
      (decode lib c1 (eraseMask mask (chunks.map some ++ p)) RSGF8).outcome
        = some (some (chunks.map some), none) := by
  rw [encode_RSGF8] at hret hcode hlater
  have hdl : (chunks.map some).length = k := by simpa using hlen
  have hres : ∃ fec ca la,
      encodeRSGF8 lib cache (chunks.map some) = encodeWith lib fec ca la (chunks.map some) := by
    rcases encodeRSGF8_resolved lib cache (chunks.map some) with
      ⟨e, _, _, h0⟩ | ⟨f, _, h0⟩ | ⟨f, _, _, h0⟩
    · rw [h0] at hret; simp at hret
    · exact ⟨f, _, _, h0⟩
    · exact ⟨f, _, _, h0⟩
  obtain ⟨fec, ca, la, h0⟩ := hres
  have hcall : Call.encode fec (flattenChunks (chunks.map some))
      ∈ (encodeRSGF8 lib cache (chunks.map some)).calls := by
    rw [h0, encodeWith_calls]; simp
  obtain ⟨parity, hcode⟩ := hcode fec _ hcall
  have hfec : cacheGet (encodeRSGF8 lib cache (chunks.map some)).cache k = some fec := by
    have := encodeRSGF8_call_stored lib cache (chunks.map some) fec _ hcall
    rw [hdl] at this
    exact this
  have hpl : parity.length = k := by rw [hcode.1.1, hlen]
  have hne : ∀ c ∈ chunks, c ≠ [] := by
    intro c hc h0
    have := hcl c hc
    rw [h0] at this
    simp at this
    omega
  have hp : p = parity.map some := by
    have henc := encodeWith_parity lib fec ca la chunks parity L (by omega) hcl hcode.1
    rw [← h0, hret] at henc
    simp only [Option.some.injEq, Prod.mk.injEq, and_true] at henc
    exact henc
  subst hp
  refine ⟨by simpa using hpl, ?_⟩
  rw [decode_RSGF8, ← List.map_append]
  have hel : (eraseMask mask ((chunks ++ parity).map some)).length = 2 * k := by
    rw [eraseMask_length _ _ (by simp; omega)]
    simp; omega
  apply decodeRSGF8_recovers lib c1 _ chunks fec (by omega) hne
  · rw [hel]
    have : 2 * k / 2 = k := by omega
    rw [this]
    exact reach_mono lib _ c1 hlater k fec hfec
  · have hps : presentShares (eraseMask mask ((chunks ++ parity).map some))
        = keepShares mask (sharesFrom 0 (chunks ++ parity)) := by
      unfold presentShares
      rw [presentFrom_eraseMask]
      rfl
    rw [hps]
    exact hcode.2 mask (by omega) (by omega)

/-- C2: for k >= 1 chunks of one positive length, with an engine that encodes these
chunks systematically and rebuilds them from all 2k shares, if `encode` returns the
parity p without error then `decode` on chunks ++ p returns the chunks without error. -/
theorem round_trip {F : Type} (lib : Infectious F) (cache : Cache F)
    (chunks parity : List (List Byte)) (L k : Nat) (fec : F) (p : List Chunk)
    (hk : 1 ≤ k) (hlen : chunks.length = k) (hL : 0 < L) (hcl : ∀ c ∈ chunks, c.length = L)
    (hfec : cacheGet (encode lib cache (chunks.map some) RSGF8).cache k = some fec)
    (hcode : RoundTripOn lib fec chunks parity L)
    (hret : (encode lib cache (chunks.map some) RSGF8).outcome = some (some p, none)) :
    (decode lib (encode lib cache (chunks.map some) RSGF8).cache (chunks.map some ++ p)
      RSGF8).outcome = some (some (chunks.map some), none) := by
  rw [encode_RSGF8] at hfec hret ⊢
  have hdl : (chunks.map some).length = k := by simpa using hlen
  obtain ⟨ca, la, h0, _⟩ := encodeRSGF8_stored lib cache (chunks.map some) fec
    (by rw [hdl]; exact hfec)
  have hpl : parity.length = k := by rw [hcode.1.1, hlen]
  have hne : ∀ c ∈ chunks, c ≠ [] := by
    intro c hc h0
    have := hcl c hc
    rw [h0] at this
    simp at this
    omega
  have hp : p = parity.map some := by
    have henc := encodeWith_parity lib fec ca la chunks parity L (by omega) hcl hcode.1
    rw [← h0, hret] at henc
    simp only [Option.some.injEq, Prod.mk.injEq, and_true] at henc
    exact henc
  subst hp
  rw [decode_RSGF8, ← List.map_append]
  have hel : ((chunks ++ parity).map some).length = 2 * k := by simp; omega
  apply decodeRSGF8_recovers lib _ _ chunks fec (by omega) hne
  · rw [hel]
    have : 2 * k / 2 = k := by omega
    rw [this]
    exact hfec
  · have hps : presentShares ((chunks ++ parity).map some)
        = sharesFrom 0 (chunks ++ parity) := by
      unfold presentShares
      rw [presentFrom_map_some]
      rfl
    rw [hps]
    exact hcode.2

/-! ### The reference engine is an erasure code -/

theorem sharesFrom_eq_map (xs : List (List Byte)) (j : Nat) :
    sharesFrom j xs
      = (List.range xs.length).map (fun (i : Nat) => (⟨Int.ofNat (j + i), xs.getD i []⟩ : Share)) := by
  induction xs generalizing j with
  | nil => rfl
  | cons d rest ih =>
    rw [sharesFrom, ih (j + 1), List.length_cons, List.range_succ_eq_map, List.map_cons,
      List.map_map]
    congr 1
    apply List.map_congr_left
    intro i _
    simp only [Function.comp, List.getD_cons_succ]
    have hji : j + 1 + i = j + (i + 1) := by omega
    rw [hji]

theorem sharesFrom_append (xs ys : List (List Byte)) (j : Nat) :
    sharesFrom j (xs ++ ys) = sharesFrom j xs ++ sharesFrom (j + xs.length) ys := by
  induction xs generalizing j with
  | nil => simp [sharesFrom]
  | cons d rest ih =>
    have hj : j + 1 + rest.length = j + (rest.length + 1) := by omega
    rw [List.cons_append, sharesFrom, sharesFrom, ih (j + 1), List.length_cons, hj,
      List.cons_append]

theorem flatten_length_of_forall (chunks : List (List Byte)) (L : Nat)
    (hcl : ∀ c ∈ chunks, c.length = L) : chunks.flatten.length = chunks.length * L := by
  induction chunks with
  | nil => simp
  | cons c rest ih =>
    rw [List.flatten_cons, List.length_append, ih (fun d hd => hcl d (List.mem_cons_of_mem _ hd)),
      hcl c (List.mem_cons_self _ _), List.length_cons]
    ring

theorem flatten_drop_take (chunks : List (List Byte)) (L i : Nat)
    (hcl : ∀ c ∈ chunks, c.length = L) (hi : i < chunks.length) :
    (chunks.flatten.drop (i * L)).take L = chunks.getD i [] := by
  induction chunks generalizing i with
  | nil => simp at hi
  | cons c rest ih =>
    have hc : c.length = L := hcl c (List.mem_cons_self _ _)
    have hrest : ∀ d ∈ rest, d.length = L := fun d hd => hcl d (List.mem_cons_of_mem _ hd)
    cases i with
    | zero =>
      simp only [Nat.zero_mul, List.drop_zero, List.flatten_cons, List.getD_cons_zero]
      rw [List.take_append_of_le_length (by omega), List.take_of_length_le (by omega)]
    | succ i =>
      have hdrop : (c ++ rest.flatten).drop ((i + 1) * L) = rest.flatten.drop (i * L) := by
        have : (i + 1) * L = c.length + i * L := by rw [hc]; ring
        rw [this, List.drop_append]
      rw [List.flatten_cons, hdrop, List.getD_cons_succ]
      exact ih i hrest (by simpa using hi)

theorem refOriginals_flatten (chunks : List (List Byte)) (L : Nat)
    (hcl : ∀ c ∈ chunks, c.length = L) :
    refOriginals chunks.length L chunks.flatten = sharesFrom 0 chunks := by
  rw [sharesFrom_eq_map, refOriginals]
  apply List.map_congr_left
  intro i hi
  rw [flatten_drop_take chunks L i hcl (List.mem_range.1 hi)]
  simp

theorem refParity_length (chunks : List (List Byte)) (L : Nat) :
    (refParity chunks L).length = chunks.length := by
  simp [refParity]

theorem refParity_getD (chunks : List (List Byte)) (L i : Nat) (hi : i < chunks.length) :
    (refParity chunks L).getD i []
      = interpolate (sharesFrom 0 chunks) L (chunks.length + i) := by
  simp [refParity, List.getD_eq_getElem?_getD, List.getElem?_map, List.getElem?_range hi]

theorem refLib_encodesTo (chunks : List (List Byte)) (L : Nat) (hk : 1 ≤ chunks.length)
    (hcl : ∀ c ∈ chunks, c.length = L) :
    EncodesTo refLib ⟨chunks.length, 2 * chunks.length⟩ chunks (refParity chunks L) L := by
  refine ⟨refParity_length chunks L, ?_, ?_⟩
  · intro p hp
    simp only [refParity, List.mem_map] at hp
    obtain ⟨i, _, rfl⟩ := hp
    exact interpolate_length _ _ _
  · have hflat := flatten_length_of_forall chunks L hcl
    have hmod : ¬ (chunks.flatten.length % chunks.length ≠ 0) := by
      rw [hflat]
      simp
    have hsize : chunks.flatten.length / chunks.length = L := by
      rw [hflat]
      exact Nat.mul_div_cancel_left L (by omega)
    have hnk : 2 * chunks.length - chunks.length = chunks.length := by omega
    show refEncode ⟨chunks.length, 2 * chunks.length⟩ chunks.flatten = _
    simp only [refEncode, hmod, if_false, hsize, hnk, refOriginals_flatten chunks L hcl]
    rw [sharesFrom_append, sharesFrom_eq_map (refParity chunks L), refParity_length]
    congr 2
    apply List.map_congr_left
    intro i hi
    rw [refParity_getD chunks L i (List.mem_range.1 hi), Nat.zero_add]

theorem sharesFrom_zero_eq (xs : List (List Byte)) :
    sharesFrom 0 xs
      = (List.range xs.length).map (fun (i : Nat) => (⟨Int.ofNat i, xs.getD i []⟩ : Share)) := by
  rw [sharesFrom_eq_map]
  apply List.map_congr_left
  intro i _
  rw [Nat.zero_add]

theorem sharesFrom_zero_numbers (xs : List (List Byte)) :
    (sharesFrom 0 xs).map (fun s => s.Number.toNat) = List.range xs.length := by
  rw [sharesFrom_zero_eq, List.map_map]
  exact List.map_id'' (fun i => by simp) _

theorem keepShares_sublist (mask : List Bool) (l : List Share) :
    (keepShares mask l).Sublist l := by
  induction mask generalizing l with
  | nil => cases l <;> simp [keepShares]
  | cons keep mask ih =>
    cases l with
    | nil => simp [keepShares]
    | cons s rest =>
      cases keep with
      | false =>
        simp only [keepShares, Bool.false_eq_true, if_false]
        exact (ih rest).cons _
      | true =>
        simp only [keepShares, if_true]
        exact (ih rest).cons₂ _

theorem keepShares_length (mask : List Bool) (l : List Share) (h : mask.length = l.length) :
    (keepShares mask l).length = mask.count true := by
  induction mask generalizing l with
  | nil => cases l <;> simp [keepShares]
  | cons keep mask ih =>
    cases l with
    | nil => simp at h
    | cons s rest =>
      have hr : mask.length = rest.length := by simpa using h
      cases keep with
      | false => simp [keepShares, ih rest hr]
      | true => simp [keepShares, ih rest hr]

/-- The byte `b` of the chunk at position `j`, as a number. -/
theorem codeword_byte (chunks : List (List Byte)) (L b x : Nat)
    (hcl : ∀ c ∈ chunks, c.length = L) (hb : b < L) (hx : x < 2 * chunks.length) :
    (((chunks ++ refParity chunks L).getD x []).getD b 0).val
      = (if x < chunks.length then ((chunks.getD x []).getD b 0).val
          else lagrangeAt ((List.range chunks.length).map
            (fun j => (j, ((chunks.getD j []).getD b 0).val))) x) := by
  by_cases hxk : x < chunks.length
  · rw [if_pos hxk]
    simp [List.getD_eq_getElem?_getD, List.getElem?_append_left hxk]
  · rw [if_neg hxk]
    have hxk1 : chunks.length ≤ x := by omega
    have hi : x - chunks.length < chunks.length := by omega
    have hget : (chunks ++ refParity chunks L).getD x []
        = interpolate (sharesFrom 0 chunks) L x := by
      rw [List.getD_eq_getElem?_getD, List.getElem?_append_right hxk1,
        ← List.getD_eq_getElem?_getD, refParity_getD chunks L _ hi]
      congr 1
      omega
    have hpts : (sharesFrom 0 chunks).map (fun s => (s.Number.toNat, (s.Data.getD b 0).val))
        = (List.range chunks.length).map
            (fun j => (j, ((chunks.getD j []).getD b 0).val)) := by
      rw [sharesFrom_zero_eq, List.map_map]
      apply List.map_congr_left
      intro j _
      simp
    have hlt : lagrangeAt ((List.range chunks.length).map
        (fun j => (j, ((chunks.getD j []).getD b 0).val))) x < 256 := by
      apply lagrangeAt_lt
      intro p hp
      rw [List.mem_map] at hp
      obtain ⟨j, _, rfl⟩ := hp
      exact Fin.isLt _
    rw [hget]
    simp only [interpolate, List.getD_eq_getElem?_getD, List.getElem?_map,
      List.getElem?_range hb, Option.map_some', Option.getD_some]
    simp only [← List.getD_eq_getElem?_getD] at hpts ⊢
    rw [hpts]
    show (lagrangeAt _ x) % 256 = _
    exact Nat.mod_eq_of_lt hlt

/-- A share of the codeword of `chunks`. -/
theorem mem_sharesFrom_codeword (xs : List (List Byte)) (s : Share)
    (hs : s ∈ sharesFrom 0 xs) :
    ∃ x : Nat, x < xs.length ∧ s.Number = Int.ofNat x ∧ s.Data = xs.getD x [] := by
  rw [sharesFrom_zero_eq, List.mem_map] at hs
  obtain ⟨x, hx, rfl⟩ := hs
  exact ⟨x, List.mem_range.mp hx, rfl, rfl⟩

theorem refParity_mem_length (chunks : List (List Byte)) (L : Nat) (p : List Byte)
    (hp : p ∈ refParity chunks L) : p.length = L := by
  unfold refParity at hp
  rw [List.mem_map] at hp
  obtain ⟨i, _, rfl⟩ := hp
  exact interpolate_length _ _ _

theorem codeword_length (chunks : List (List Byte)) (L x : Nat)
    (hcl : ∀ c ∈ chunks, c.length = L) (hx : x < 2 * chunks.length) :
    ((chunks ++ refParity chunks L).getD x []).length = L := by
  have hlen : (chunks ++ refParity chunks L).length = 2 * chunks.length := by
    rw [List.length_append, refParity_length]; omega
  have hx2 : x < (chunks ++ refParity chunks L).length := by omega
  rw [List.getD_eq_getElem _ _ hx2]
  have hmem : (chunks ++ refParity chunks L)[x] ∈ chunks ++ refParity chunks L :=
    List.getElem_mem _
  rw [List.mem_append] at hmem
  rcases hmem with h | h
  · exact hcl _ h
  · exact refParity_mem_length chunks L _ h

/-- Interpolating any `k` distinct shares of the codeword at an original position
gives the chunk at that position. -/
theorem interpolate_codeword (chunks : List (List Byte)) (L : Nat) (used : List Share)
    (i : Nat) (hk2 : chunks.length ≤ 128) (hcl : ∀ c ∈ chunks, c.length = L)
    (hmem : ∀ s ∈ used, ∃ x : Nat, x < 2 * chunks.length ∧ s.Number = Int.ofNat x ∧
      s.Data = (chunks ++ refParity chunks L).getD x [])
    (hnd : (used.map (fun s => s.Number.toNat)).Nodup) (hlen : used.length = chunks.length)
    (hi : i < chunks.length) :
    interpolate used L i = chunks.getD i [] := by
  have hci : (chunks.getD i []).length = L := by
    rw [List.getD_eq_getElem _ _ hi]
    exact hcl _ (List.getElem_mem _)
  apply List.ext_getElem
  · rw [interpolate_length, hci]
  · intro b hb1 hb2
    have hb : b < L := by rw [interpolate_length] at hb1; exact hb1
    have hpts : used.map (fun s => (s.Number.toNat, (s.Data.getD b 0).val))
        = (used.map (fun s => s.Number.toNat)).map (fun u => (u,
            if u < chunks.length then ((chunks.getD u []).getD b 0).val
            else lagrangeAt ((List.range chunks.length).map
              (fun j => (j, ((chunks.getD j []).getD b 0).val))) u)) := by
      rw [List.map_map]
      apply List.map_congr_left
      intro s hs
      obtain ⟨x, hx, hn, hd⟩ := hmem s hs
      have hx2 : s.Number.toNat = x := by rw [hn]; rfl
      simp only [Function.comp, hx2]
      rw [hd, codeword_byte chunks L b x hcl hb hx]
    have hcons := lagrangeAt_consistent chunks.length
      (fun j => ((chunks.getD j []).getD b 0).val) (used.map (fun s => s.Number.toNat)) i
      (by omega) (fun j _ => Fin.isLt _) hnd
      (by
        intro u hu
        rw [List.mem_map] at hu
        obtain ⟨s, hs, rfl⟩ := hu
        obtain ⟨x, hx, hn, _⟩ := hmem s hs
        have hx2 : s.Number.toNat = x := by rw [hn]; rfl
        rw [hx2]; omega)
      (by rw [List.length_map, hlen]) hi
    simp only [interpolate, List.getElem_map, List.getElem_range]
    rw [hpts, hcons]
    show Fin.ofNat (((chunks.getD i []).getD b 0).val) = _
    have hget : (chunks.getD i []).getD b 0 = (chunks.getD i [])[b] :=
      List.getD_eq_getElem _ _ hb2
    rw [hget]
    apply Fin.ext
    show ((chunks.getD i [])[b]).val % 256 = _
    exact Nat.mod_eq_of_lt (Fin.isLt _)

/-- The result of the reference rebuild on enough shares with valid positions. -/
theorem refRebuild_eq (fec : RefFEC) (shares : List Share) (L : Nat)
    (h1 : fec.k ≤ shares.length) (hk : 1 ≤ fec.k)
    (h2 : ∀ s ∈ shares.take fec.k, 0 ≤ s.Number ∧ s.Number < (fec.n : Int))
    (hL : ∀ s ∈ shares.take fec.k, s.Data.length = L) :
    refRebuild fec shares
      = ((shares.take fec.k).filter (fun s => decide (s.Number < (fec.k : Int)))
          ++ ((List.range fec.k).filter (fun (i : Nat) =>
                !((shares.take fec.k).any (fun s => decide (s.Number = Int.ofNat i))))).map
              (fun (i : Nat) => (⟨Int.ofNat i, interpolate (shares.take fec.k) L i⟩ : Share)),
         none) := by
  have hany : (shares.take fec.k).any
      (fun s => decide (s.Number < 0 ∨ (fec.n : Int) ≤ s.Number)) = false := by
    rw [List.any_eq_false]
    intro s hs
    have := h2 s hs
    simp only [decide_eq_true_eq]
    omega
  have hlen : (shares.take fec.k).length = fec.k := by
    rw [List.length_take]; omega
  unfold refRebuild
  rw [if_neg (by omega)]
  dsimp only
  rw [if_neg (by rw [hany]; simp)]
  cases hu : shares.take fec.k with
  | nil => rw [hu] at hlen; simp at hlen; omega
  | cons s rest =>
    rw [hu] at hL
    have hs := hL s (List.mem_cons_self _ _)
    dsimp only
    rw [hs]

/-- The reference engine rebuilds the chunks from any `k` of the `2k` shares of the
codeword, for every `k` up to 128. -/
theorem refLib_rebuildRecovers (chunks : List (List Byte)) (L : Nat) (mask : List Bool)
    (hk1 : 1 ≤ chunks.length) (hk2 : chunks.length ≤ 128)
    (hcl : ∀ c ∈ chunks, c.length = L)
    (hml : mask.length = 2 * chunks.length) (hcount : chunks.length ≤ mask.count true) :
    RebuildRecovers refLib ⟨chunks.length, 2 * chunks.length⟩ chunks
      (keepShares mask (sharesFrom 0 (chunks ++ refParity chunks L))) := by
  have hcw : (chunks ++ refParity chunks L).length = 2 * chunks.length := by
    rw [List.length_append, refParity_length]; omega
  have hall : (sharesFrom 0 (chunks ++ refParity chunks L)).length = 2 * chunks.length := by
    rw [sharesFrom_zero_eq, List.length_map, List.length_range, hcw]
  have hsl : (keepShares mask (sharesFrom 0 (chunks ++ refParity chunks L))).length
      = mask.count true := keepShares_length _ _ (by rw [hall, hml])
  have hsub : ((keepShares mask (sharesFrom 0 (chunks ++ refParity chunks L))).take
      chunks.length).Sublist (sharesFrom 0 (chunks ++ refParity chunks L)) :=
    (List.take_sublist _ _).trans (keepShares_sublist _ _)
  have hulen : ((keepShares mask (sharesFrom 0 (chunks ++ refParity chunks L))).take
      chunks.length).length = chunks.length := by
    rw [List.length_take, hsl]; omega
  have hmem : ∀ s ∈ (keepShares mask (sharesFrom 0 (chunks ++ refParity chunks L))).take
      chunks.length, ∃ x : Nat, x < 2 * chunks.length ∧ s.Number = Int.ofNat x ∧
      s.Data = (chunks ++ refParity chunks L).getD x [] := by
    intro s hs
    obtain ⟨x, hx, hn, hd⟩ := mem_sharesFrom_codeword _ s (hsub.subset hs)
    exact ⟨x, by omega, hn, hd⟩
  have hnd : (((keepShares mask (sharesFrom 0 (chunks ++ refParity chunks L))).take
      chunks.length).map (fun s => s.Number.toNat)).Nodup := by
    have h := hsub.map (fun s => s.Number.toNat)
    rw [sharesFrom_zero_numbers] at h
    exact List.Nodup.sublist h (List.nodup_range _)
  have hreb := refRebuild_eq ⟨chunks.length, 2 * chunks.length⟩
    (keepShares mask (sharesFrom 0 (chunks ++ refParity chunks L))) L
    (by rw [hsl]; exact hcount) hk1
    (by
      intro s hs
      obtain ⟨x, hx, hn, _⟩ := hmem s hs
      rw [hn]
      constructor
      · exact Int.ofNat_nonneg x
      · show (Int.ofNat x) < ((2 * chunks.length : Nat) : Int)
        exact Int.ofNat_lt.mpr hx)
    (by
      intro s hs
      obtain ⟨x, hx, _, hd⟩ := hmem s hs
      rw [hd]
      exact codeword_length chunks L x hcl hx)
  have hR : refLib.Rebuild = refRebuild := rfl
  unfold RebuildRecovers
  rw [hR, hreb]
  dsimp only
  refine ⟨rfl, ?_, ?_⟩
  · intro s hs
    rw [List.mem_append] at hs
    rcases hs with hs | hs
    · rw [List.mem_filter] at hs
      obtain ⟨hsu, hlt⟩ := hs
      obtain ⟨x, hx, hn, hd⟩ := hmem s hsu
      have hlt2 : s.Number < ((chunks.length : Nat) : Int) := by simpa using hlt
      rw [hn] at hlt2
      have hxk : x < chunks.length := Int.ofNat_lt.mp hlt2
      refine ⟨by rw [hn]; exact Int.ofNat_nonneg x, ?_⟩
      have hx2 : s.Number.toNat = x := by rw [hn]; rfl
      rw [hx2, hd, List.getD_eq_getElem?_getD, List.getElem?_append_left hxk,
        List.getElem?_eq_getElem hxk]
      rfl
    · rw [List.mem_map] at hs
      obtain ⟨i, hi, rfl⟩ := hs
      rw [List.mem_filter, List.mem_range] at hi
      refine ⟨Int.ofNat_nonneg i, ?_⟩
      show chunks[i]? = some (interpolate _ L i)
      rw [interpolate_codeword chunks L _ i hk2 hcl hmem hnd hulen hi.1,
        List.getD_eq_getElem _ _ hi.1, List.getElem?_eq_getElem hi.1]
  · intro i hi
    by_cases hany : ((keepShares mask (sharesFrom 0 (chunks ++ refParity chunks L))).take
        chunks.length).any (fun s => decide (s.Number = Int.ofNat i)) = true
    · rw [List.any_eq_true] at hany
      obtain ⟨s, hs, hsn⟩ := hany
      have hsn2 : s.Number = Int.ofNat i := by simpa using hsn
      refine ⟨s, ?_, hsn2⟩
      rw [List.mem_append]
      left
      rw [List.mem_filter]
      refine ⟨hs, ?_⟩
      rw [decide_eq_true_eq, hsn2]
      exact Int.ofNat_lt.mpr hi
    · refine ⟨⟨Int.ofNat i, interpolate ((keepShares mask
        (sharesFrom 0 (chunks ++ refParity chunks L))).take chunks.length) L i⟩, ?_, rfl⟩
      rw [List.mem_append]
      right
      rw [List.mem_map]
      refine ⟨i, ?_, rfl⟩
      rw [List.mem_filter, List.mem_range]
      refine ⟨hi, ?_⟩
      simpa using hany

/-- The reference engine is an erasure code on every `k` chunks of equal length,
for every `k` from 1 to 128. -/
theorem refLib_erasureCode (chunks : List (List Byte)) (L : Nat)
    (hk1 : 1 ≤ chunks.length) (hk2 : chunks.length ≤ 128)
    (hcl : ∀ c ∈ chunks, c.length = L) :
    ErasureCodeOn refLib ⟨chunks.length, 2 * chunks.length⟩ chunks (refParity chunks L) L :=
  ⟨refLib_encodesTo chunks L hk1 hcl,
    fun mask hml hcount => refLib_rebuildRecovers chunks L mask hk1 hk2 hcl hml hcount⟩


/-- The erasure tolerance of `encode` and `decode` with the reference engine, for every
`k` from 1 to 128 and every chunk length `L > 0`: from a cache whose entries are the
engines of their keys, `encode` returns the parity `refParity chunks L`, and `decode`, at
any later cache state, returns the chunks from any `k` or more of the `2k` positions. -/
theorem refLib_erasure_tolerance (cache c1 : Cache RefFEC) (chunks : List (List Byte))
    (L : Nat) (mask : List Bool)
    (hk1 : 1 ≤ chunks.length) (hk2 : chunks.length ≤ 128) (hL : 0 < L)
    (hcl : ∀ c ∈ chunks, c.length = L) (hcfg : CacheConfigured refLib cache)
    (hlater : Reach refLib (encode refLib cache (chunks.map some) RSGF8).cache c1)
    (hml : mask.length = 2 * chunks.length) (hcount : chunks.length ≤ mask.count true) :
    (encode refLib cache (chunks.map some) RSGF8).outcome
        = some (some ((refParity chunks L).map some), none) ∧
      (decode refLib c1
          (eraseMask mask (chunks.map some ++ (refParity chunks L).map some)) RSGF8).outcome
        = some (some (chunks.map some), none) := by
  rw [encode_RSGF8] at hlater ⊢
  have hdl : (chunks.map some).length = chunks.length := List.length_map _ _
  have hnew : refLib.NewFEC chunks.length (chunks.length * 2)
      = Except.ok ⟨chunks.length, 2 * chunks.length⟩ := by
    show refNewFEC chunks.length (chunks.length * 2) = _
    unfold refNewFEC
    rw [if_pos (by omega), Nat.mul_comm]
  have hres : ∃ ca la, encodeRSGF8 refLib cache (chunks.map some)
      = encodeWith refLib ⟨chunks.length, 2 * chunks.length⟩ ca la (chunks.map some) := by
    rcases encodeRSGF8_resolved refLib cache (chunks.map some) with
      ⟨e, _, he, _⟩ | ⟨f, hf, h0⟩ | ⟨f, _, hf, h0⟩
    · rw [hdl, hnew] at he
      cases he
    · have h1 := hcfg _ _ hf
      rw [hdl, Nat.mul_comm, hnew] at h1
      cases h1
      exact ⟨_, _, h0⟩
    · rw [hdl, hnew] at hf
      cases hf
      exact ⟨_, _, h0⟩
  obtain ⟨ca, la, h0⟩ := hres
  have hcode := refLib_erasureCode chunks L hk1 hk2 hcl
  have hcall : Call.encode (⟨chunks.length, 2 * chunks.length⟩ : RefFEC)
      (flattenChunks (chunks.map some)) ∈ (encodeRSGF8 refLib cache (chunks.map some)).calls := by
    rw [h0, encodeWith_calls]; simp
  have hfec : cacheGet (encodeRSGF8 refLib cache (chunks.map some)).cache chunks.length
      = some ⟨chunks.length, 2 * chunks.length⟩ := by
    have := encodeRSGF8_call_stored refLib cache (chunks.map some) _ _ hcall
    rw [hdl] at this
    exact this
  have hne : ∀ c ∈ chunks, c ≠ [] := by
    intro c hc hnil
    have := hcl c hc
    rw [hnil] at this
    simp at this
    omega
  constructor
  · rw [h0]
    exact encodeWith_parity refLib _ ca la chunks (refParity chunks L) L hk1 hcl hcode.1
  · rw [decode_RSGF8, ← List.map_append]
    have hel : (eraseMask mask ((chunks ++ refParity chunks L).map some)).length
        = 2 * chunks.length := by
      rw [eraseMask_length _ _ (by simp [refParity_length]; omega)]
      simp [refParity_length]; omega
    apply decodeRSGF8_recovers refLib c1 _ chunks ⟨chunks.length, 2 * chunks.length⟩
      (by omega) hne
    · rw [hel]
      have : 2 * chunks.length / 2 = chunks.length := by omega
      rw [this]
      exact reach_mono refLib _ c1 hlater chunks.length _ hfec
    · have hps : presentShares (eraseMask mask ((chunks ++ refParity chunks L).map some))
          = keepShares mask (sharesFrom 0 (chunks ++ refParity chunks L)) := by
        unfold presentShares
        rw [presentFrom_eraseMask]
        rfl
      rw [hps]
      exact hcode.2 mask hml hcount


theorem refLib_encodesTo_example :
    EncodesTo refLib ⟨2, 4⟩ [[1, 2, 3, 4], [5, 6, 7, 8]] [[9, 10, 11, 28], [13, 14, 15, 16]] 4 := by
  unfold EncodesTo
  decide

theorem refLib_erasureCode_example :
    ErasureCodeOn refLib ⟨2, 4⟩ [[1, 2, 3, 4], [5, 6, 7, 8]]
      [[9, 10, 11, 28], [13, 14, 15, 16]] 4 := by
  refine ⟨refLib_encodesTo_example, ?_⟩
  intro mask hlen hcnt
  rcases mask with _ | ⟨a, _ | ⟨b, _ | ⟨c, _ | ⟨d, _ | ⟨e, t⟩⟩⟩⟩⟩ <;>
    simp only [List.length_cons, List.length_nil, List.length] at hlen <;>
    try omega
  unfold RebuildRecovers
  cases a <;> cases b <;> cases c <;> cases d <;>
    first
    | exact absurd hcnt (by decide)
    | decide

theorem erasure_tolerance_witness :
    [some [9, 10, 11, 28], some [13, 14, 15, (16 : Byte)]].length = 2 ∧
      (decode refLib (encode refLib (init RefFEC) [some [1, 2, 3, 4], some [5, 6, 7, 8]]
          RSGF8).cache
        (eraseMask [false, true, true, true]
          ([some [1, 2, 3, 4], some [5, 6, 7, 8]]
            ++ [some [9, 10, 11, 28], some [13, 14, 15, 16]])) RSGF8).outcome
        = some (some [some [1, 2, 3, 4], some [5, 6, 7, 8]], none) :=
  erasure_tolerance refLib (init RefFEC) _ [[1, 2, 3, 4], [5, 6, 7, 8]] 4 2
    [some [9, 10, 11, 28], some [13, 14, 15, 16]] [false, true, true, true]
    (by decide) rfl (by decide) (by decide) (by decide)
    (by
      intro fec input h
      have hc : (encode refLib (init RefFEC) [some [1, 2, 3, 4], some [5, 6, 7, 8]] RSGF8).calls
          = [Call.newFEC 2 4, Call.encode ⟨2, 4⟩ [1, 2, 3, 4, 5, 6, 7, 8]] := by decide
      have h1 : Call.encode fec input
          ∈ [Call.newFEC 2 4, Call.encode (⟨2, 4⟩ : RefFEC) [1, 2, 3, 4, 5, 6, 7, 8]] := by
        rw [← hc]; exact h
      simp only [List.mem_cons, Call.encode.injEq, List.not_mem_nil, or_false, false_or,
        reduceCtorEq] at h1
      obtain ⟨hf, _⟩ := h1
      subst hf
      exact ⟨_, refLib_erasureCode_example⟩)
    (Reach.refl _) rfl (by decide)

/-- C1 fails as stated: from the empty cache `encode` of 129 one-byte chunks returns
nil and the construction error, so that no parity and no 2k-position sequence exists,
and `decode` of the 129 chunks alone does not return them; and in the cache state
that one `decode` call on three positions leaves, `encode` of a single chunk stops in
an index-out-of-range error and returns nothing. -/
theorem erasure_tolerance_counterexample :
    (encode refLib (init RefFEC) (List.replicate 129 (some [1])) RSGF8).outcome
      = some (none, some "requires 1 <= k <= n <= 256") ∧
    (encode refLib (init RefFEC) (List.replicate 129 (some [1])) RSGF8).calls
      = [Call.newFEC 129 258] ∧
    (decode refLib (init RefFEC) (List.replicate 129 (some [1])) RSGF8).outcome
      ≠ some (some (List.replicate 129 (some [1])), none) ∧
    Reach refLib (init RefFEC) (decode refLib (init RefFEC) [some [1], none, none] RSGF8).cache ∧
    (encode refLib (decode refLib (init RefFEC) [some [1], none, none] RSGF8).cache
      [some [1]] RSGF8).outcome = none :=
  ⟨by decide, by decide, by decide,
   Reach.tail _ _ _ (Reach.refl _) (Step.dec (init RefFEC) [some [1], none, none] RSGF8),
   by decide⟩

theorem round_trip_witness :
    (decode refLib (encode refLib (init RefFEC) [some [1, 2, 3, 4], some [5, 6, 7, 8]]
        RSGF8).cache
      ([some [1, 2, 3, 4], some [5, 6, 7, 8]]
        ++ [some [9, 10, 11, 28], some [13, 14, 15, 16]]) RSGF8).outcome
      = some (some [some [1, 2, 3, 4], some [5, 6, 7, 8]], none) :=
  round_trip refLib (init RefFEC) [[1, 2, 3, 4], [5, 6, 7, 8]]
    [[9, 10, 11, 28], [13, 14, 15, 16]] 4 2 ⟨2, 4⟩
    [some [9, 10, 11, 28], some [13, 14, 15, 16]]
    (by decide) rfl (by decide) (by decide) (by decide)
    ⟨refLib_encodesTo_example, by unfold RebuildRecovers; decide⟩ (by decide)

end Rsmt2d
